import Mathlib

/-!
Reachability history of babeld (`reach_bitmap.c`, `reach_bitmap.h`).

A shallow embedding of the circular bit buffer that records received and
missed Hellos of one neighbour, followed by theorems about it.

Conventions of the embedding:

* `int` is 32 bits, `long`, `long long` and `unsigned long` are 64 bits (LP64).
* a signed result that leaves its type is reduced to two's complement
  (`wrap_int`, `wrap_llong`); C leaves that case undefined.
* `int` fields are `Int`; C division and remainder on `int` truncate toward
  zero (`Int.tdiv`, `Int.tmod`).
* `unsigned char`, `unsigned short` and `unsigned long` values are `Nat`;
  every store into such an object reduces modulo `2^8`, `2^16`, `2^64`.
* arrays are functions from the index; a pointer into `hex` is the index it
  points at.
* `while` loops carry a fuel argument; `insert_loop_fuel` (every state) and
  `evict_loop_spec` (states whose `begin` and `end` are ring indices) show that
  the fuel given by `reach_bitmap_push_new` is never used up, so the loops
  leave through their own condition.
-/

namespace ReachBitmap

set_option autoImplicit false
set_option linter.unusedVariables false

/-! ## Constants of `reach_bitmap.h` -/

/-- Macro `MAX_HIST_BYTES`. -/
abbrev MAX_HIST_BYTES : Int := 16
/-- Macro `MAX_HIST_BITS`. -/
abbrev MAX_HIST_BITS : Int := MAX_HIST_BYTES * 8
/-- Macro `HIST_SIZE_BYTES`. -/
abbrev HIST_SIZE_BYTES : Int := MAX_HIST_BYTES + 4
/-- Macro `HIST_SIZE_BITS`. -/
abbrev HIST_SIZE_BITS : Int := HIST_SIZE_BYTES * 8
/-- Macro `CHAR_BIT` of `limits.h`. -/
abbrev CHAR_BIT : Nat := 8

/-! ## C integer conversions -/

/-- Conversion of an `int` to `unsigned long` (64 bits). -/
def to_ulong (x : Int) : Nat := (x % 2 ^ 64).toNat

/-- Conversion of an `unsigned long` to `int` (32 bits, two's complement). -/
def to_int (n : Nat) : Int :=
  if n % 2 ^ 32 < 2 ^ 31 then ((n % 2 ^ 32 : Nat) : Int) else ((n % 2 ^ 32 : Nat) : Int) - 2 ^ 32

/-- Store into an `unsigned char`. -/
def to_uchar (n : Nat) : Nat := n % 256

/-- Store into an `unsigned short`. -/
def to_ushort (n : Nat) : Nat := n % 65536

/-- Array store `a[i] = v`. -/
def arr_set {α : Type} (a : Nat → α) (i : Nat) (v : α) : Nat → α :=
  fun j => if j = i then v else a j

/-! ## The data structure -/

/-- The `struct reach_bitmap`. The pointers `begin1`, `end1`, `begin2`, `end2`
are kept as indices into `hex`. -/
structure reach_bitmap where
  /-- Field `unsigned char bitmap[HIST_SIZE_BYTES]`. -/
  bitmap : Nat → Nat
  /-- Field `char hex[HIST_SIZE_BYTES * 2 + 4]`. -/
  hex : Nat → Char
  /-- Field `char dump[9]`, the characters before the terminator. -/
  dump : List Char
  /-- Index of the oldest bit. -/
  begin : Int
  /-- Index of the next bit inserted. -/
  end_ : Int
  /-- Number of bits stored. -/
  count : Int
  /-- Number of bits set. -/
  count_set : Int
  begin1 : Int
  end1 : Int
  begin2 : Int
  end2 : Int
  begin_mask : Char
  end_mask : Char
  /-- Field `unsigned short old_reach`. -/
  old_reach : Nat

/-- Table `hex_map`: the sixteen lowercase hexadecimal digits in order. -/
def hex_map : List Char := "0123456789abcdef".toList

/-- Function `get_begin_mask`. -/
def get_begin_mask (begin : Int) : Char :=
  ['F', '7', '3', '1'].getD (begin.tmod 4).toNat 'F'

/-- Function `get_end_mask`. -/
def get_end_mask (end_ : Int) : Char :=
  ['F', '8', 'C', 'E'].getD (end_.tmod 4).toNat 'F'

/-- Function `distance`. -/
def distance (begin end_ length : Int) : Int :=
  (end_ - begin + length).tmod length

/-- Function `at_abs`: the bit stored at ring position `offset`. -/
def at_abs (s : reach_bitmap) (offset : Int) : Int :=
  if s.bitmap (offset.tdiv 8).toNat &&& (1 <<< (7 - offset.tmod 8).toNat) ≠ 0 then 1 else 0

/-- Function `at_rel`: the bit `offset` places before `end`, counted from 1. -/
def at_rel (s : reach_bitmap) (offset : Int) : Int :=
  if offset > s.count then 0
  else
    let abs_offset := s.end_ - offset
    at_abs s ((abs_offset + HIST_SIZE_BITS).tmod HIST_SIZE_BITS)

/-- Function `countset_byte`. -/
def countset_byte (byte : Nat) : Int :=
  let byte := to_uchar byte
  let byte := to_uchar ((byte &&& 0x55) + ((byte &&& 0xAA) >>> 1))
  let byte := to_uchar ((byte &&& 0x33) + ((byte &&& 0xCC) >>> 2))
  let byte := to_uchar ((byte &&& 0x0F) + ((byte &&& 0xF0) >>> 4))
  (byte : Int)

/-- Function `reach_bitmap_get_mask`. -/
def reach_bitmap_get_mask (s : reach_bitmap) (mask : Nat) : Nat :=
  if s.count = 0 then 0
  else
    let byte_index : Int := (s.end_ + 7).tdiv 8 - 1
    let byte_index := (byte_index + HIST_SIZE_BYTES).tmod HIST_SIZE_BYTES
    let result : Nat := s.bitmap byte_index.toNat
    let byte_index := byte_index - 1
    let byte_index := (byte_index + HIST_SIZE_BYTES).tmod HIST_SIZE_BYTES
    let result := result ||| (s.bitmap byte_index.toNat <<< 8)
    let byte_index := byte_index - 1
    let byte_index := (byte_index + HIST_SIZE_BYTES).tmod HIST_SIZE_BYTES
    let result := result ||| (s.bitmap byte_index.toNat <<< 16)
    let shift := s.end_.tmod 8
    let shift := (8 - shift).tmod 8
    let result := result >>> shift.toNat
    let result :=
      if to_ulong s.count < CHAR_BIT * 8 then
        let length_mask : Nat := 2 ^ 64 - 1
        let length_mask := length_mask >>> (CHAR_BIT * 8 - to_ulong s.count)
        result &&& length_mask
      else result
    to_ushort (result &&& mask)

/-- First part of `update_ends`: the recomputation of `count`. The constant
`CHAR_BIT * sizeof(bitmap->bitmap)` is an `unsigned long`, so both the sum and
the remainder are taken on `unsigned long` and stored back into the `int`. -/
def update_count (s : reach_bitmap) : reach_bitmap :=
  let count := s.end_ - s.begin
  let count := to_int ((to_ulong count + CHAR_BIT * 20) % 2 ^ 64)
  let count := to_int (to_ulong count % (CHAR_BIT * 20))
  { s with begin_mask := get_begin_mask s.begin, count := count }

/-- Second part of `update_ends`: `dump`, the two runs of the hex rendering
with their terminators, and the nibble masks. -/
def update_hex_ends (s : reach_bitmap) : reach_bitmap :=
  let s := { s with dump := Nat.toDigits 16 (reach_bitmap_get_mask s 0xffff) }
  let s :=
    if s.count ≠ 0 then
      let s :=
        if s.begin ≤ s.end_ then
          { s with begin1 := s.begin.tdiv 4, end1 := (s.end_ + 3).tdiv 4,
                   begin2 := (s.end_ + 3).tdiv 4, end2 := (s.end_ + 3).tdiv 4 }
        else
          { s with begin1 := s.begin.tdiv 4, end1 := MAX_HIST_BYTES * 2 + 8,
                   begin2 := 0, end2 := (s.end_ + 3).tdiv 4 }
      let s := { s with hex := arr_set s.hex s.end1.toNat (Char.ofNat 0) }
      { s with hex := arr_set s.hex s.end2.toNat (Char.ofNat 0) }
    else
      { s with begin1 := HIST_SIZE_BYTES * 2 + 2, begin2 := HIST_SIZE_BYTES * 2 + 3,
               end2 := (s.end_ + 3).tdiv 4 }
  { s with begin_mask := get_begin_mask s.begin, end_mask := get_end_mask s.end_ }

/-- The four swap steps applied to `old_reach` at the end of `update_ends`. -/
def swap_bits (x : Nat) : Nat :=
  let x := to_ushort (((x &&& 0x5555) <<< 1) ||| ((x &&& 0xAAAA) >>> 1))
  let x := to_ushort (((x &&& 0x3333) <<< 2) ||| ((x &&& 0xCCCC) >>> 2))
  let x := to_ushort (((x &&& 0x0F0F) <<< 4) ||| ((x &&& 0xF0F0) >>> 4))
  to_ushort (((x &&& 0x00FF) <<< 8) ||| ((x &&& 0xFF00) >>> 8))

/-- Function `update_ends`: recomputes `count` and the derived fields. -/
def update_ends (s : reach_bitmap) : reach_bitmap :=
  let s := update_count s
  let s := update_hex_ends s
  let s := { s with old_reach := reach_bitmap_get_mask s 0xFFFF }
  { s with old_reach := swap_bits s.old_reach }

/-- Function `reach_bitmap_init`. -/
def reach_bitmap_init (s : reach_bitmap) : reach_bitmap :=
  let s := { s with begin := 0, end_ := 0, count_set := 0 }
  let s := update_ends s
  let s := { s with hex := arr_set s.hex (HIST_SIZE_BYTES * 2 + 2).toNat '-' }
  { s with hex := arr_set s.hex (HIST_SIZE_BYTES * 2 + 3).toNat (Char.ofNat 0) }

/-- The "drop bits" loop of `reach_bitmap_push_new`: one unit of fuel per
iteration. -/
def evict_loop : Nat → reach_bitmap → Int → reach_bitmap
  | 0, s, _ => s
  | fuel + 1, s, length =>
    if distance s.begin (s.end_ + length) HIST_SIZE_BITS > MAX_HIST_BITS then
      let count_set := s.count_set - at_abs s s.begin
      let begin := s.begin + 1
      let begin := begin.tmod HIST_SIZE_BITS
      evict_loop fuel { s with count_set := count_set, begin := begin } length
    else s

/-- The insertion loop of `reach_bitmap_push_new`: one unit of fuel per
iteration; every iteration moves `cur_bits` bits of `value` into the byte
holding `end`. -/
def insert_loop : Nat → reach_bitmap → Nat → Int → reach_bitmap
  | 0, s, _, _ => s
  | fuel + 1, s, value, length =>
    if length > 0 then
      let exist_bits := s.end_.tmod 8
      let cur_bits := 8 - exist_bits
      let cur_bits := if cur_bits > length then length else cur_bits
      let t := to_uchar (value >>> (length - cur_bits).toNat)
      let t := to_uchar (t &&& (0xFF >>> (8 - cur_bits).toNat))
      let t := to_uchar (t <<< (8 - cur_bits - exist_bits).toNat)
      let byte_index := s.end_.tdiv 8
      let cur := to_uchar (s.bitmap byte_index.toNat &&& (0xFF <<< (8 - exist_bits).toNat))
      let cur := to_uchar (cur ||| t)
      let bitmap := arr_set s.bitmap byte_index.toNat cur
      let count_set := s.count_set + countset_byte t
      let hex := arr_set s.hex (byte_index * 2).toNat (hex_map.getD (cur / 16) '0')
      let hex := arr_set hex (byte_index * 2 + 1).toNat (hex_map.getD (cur % 16) '0')
      let end_ := s.end_ + cur_bits
      let end_ := end_.tmod HIST_SIZE_BITS
      insert_loop fuel
        { s with bitmap := bitmap, count_set := count_set, hex := hex, end_ := end_ }
        value (length - cur_bits)
    else s

/-- Function `reach_bitmap_push_new`. The eviction loop gets `HIST_SIZE_BITS`
units of fuel and the insertion loop `length` units. -/
def reach_bitmap_push_new (s : reach_bitmap) (value : Nat) (length : Int) : reach_bitmap :=
  if length ≤ 0 ∨ to_ulong length > CHAR_BIT * 2 then s
  else
    let value := to_ushort (value &&& (0xFFFF >>> (CHAR_BIT * 2 - to_ulong length)))
    let s := evict_loop HIST_SIZE_BITS.toNat s length
    let s := insert_loop length.toNat s value length
    update_ends s

/-- The `for` loop of `reach_bitmap_pop_new`, run `n` times. -/
def pop_loop : Nat → reach_bitmap → reach_bitmap
  | 0, s => s
  | n + 1, s =>
    let end_ := (s.end_ + HIST_SIZE_BITS - 1).tmod HIST_SIZE_BITS
    let count_set := s.count_set - at_abs s end_
    pop_loop n { s with end_ := end_, count_set := count_set }

/-- Function `reach_bitmap_pop_new`; `for (i = 0; i < length; ++i)` runs
`max(length, 0)` times. -/
def reach_bitmap_pop_new (s : reach_bitmap) (length : Int) : reach_bitmap :=
  let length := if s.count < length then s.count else length
  let s := pop_loop length.toNat s
  update_ends s

/-- Function `reach_bitmap_two_three`. -/
def reach_bitmap_two_three (s : reach_bitmap) : Bool :=
  decide (at_rel s 1 + at_rel s 2 + at_rel s 3 ≥ 2)

/-! ## The metric -/

/-- Result of an `int` operation (32 bits, two's complement). -/
def wrap_int (x : Int) : Int := (x + 2 ^ 31) % 2 ^ 32 - 2 ^ 31

/-- Result of a `long` or `long long` operation (64 bits, two's complement). -/
def wrap_llong (x : Int) : Int := (x + 2 ^ 63) % 2 ^ 64 - 2 ^ 63

/-- Conversion of a `long long` to `unsigned` (32 bits). -/
def to_uint (x : Int) : Nat := (x % 2 ^ 32).toNat

/-- Local variable `last_bits` of `reach_bitmap_metric`. -/
def last_bits (s : reach_bitmap) : Int :=
  countset_byte (s.old_reach >>> 8) + countset_byte s.old_reach

/-- Local variable `last_minval` of `reach_bitmap_metric`. -/
def last_minval (s : reach_bitmap) : Int :=
  if last_bits s < 14 then 10000 + 20000 * (14 - last_bits s) else 10000

/-- Local variable `drop_of_1e4` of `reach_bitmap_metric`; the division is the
C division of `long long` (for `count == 0` the C behaviour is undefined, the
embedding then yields 0). -/
def drop_of_1e4 (s : reach_bitmap) : Int :=
  (wrap_llong (wrap_int (s.count - s.count_set) * 10000)).tdiv s.count

/-- The four branches of `reach_bitmap_metric` that turn `drop_of_1e4` into
`multipler_1e4`. -/
def drop_multiplier (drop : Int) : Int :=
  if drop < 1000 then wrap_llong (10000 + 10 * drop)
  else if drop < 1600 then wrap_llong (20000 + 100 * (drop - 1000))
  else if drop < 2000 then wrap_llong (80000 + 80000 * (drop - 1600))
  else wrap_llong (400000 + 120000 * (drop - 2000))

/-- Local variable `multipler_1e4` of `reach_bitmap_metric` after the
comparison with `last_minval`. -/
def multipler_1e4 (s : reach_bitmap) : Int :=
  if drop_multiplier (drop_of_1e4 s) < last_minval s then last_minval s
  else drop_multiplier (drop_of_1e4 s)

/-- Local variable `cost` of `reach_bitmap_metric` before the delay test:
`line_cost * multipler_1e4 / 10000`. -/
def metric_cost (s : reach_bitmap) (line_cost : Int) : Int :=
  (wrap_llong (line_cost * multipler_1e4 s)).tdiv 10000

/-- Function `reach_bitmap_metric`; `line_cost` is a `short`, `delay` an
`unsigned int`, the result an `unsigned`. -/
def reach_bitmap_metric (s : reach_bitmap) (line_cost : Int) (delay : Nat) : Nat :=
  let cost := metric_cost s line_cost
  let cost :=
    if delay > 40000 then
      (wrap_llong (cost * (((delay - 20000 : Nat)) : Int) + 10000)).tdiv 20000
    else cost
  if cost > 0xffff then 0xffff else to_uint cost

/-! ## Vocabulary of the specification -/

/-- The stored bit at ring position `i`: bit `7 - i % 8` of `bitmap[i / 8]`. -/
def ring_bit (s : reach_bitmap) (i : Nat) : Bool :=
  (s.bitmap (i / 8)).testBit (7 - i % 8)

/-- The bits of `f` at the `n` ring positions `b`, `b + 1`, ... taken modulo
160. -/
def window (f : Nat → Bool) (b n : Nat) : List Bool :=
  (List.range n).map (fun k => f ((b + k) % 160))

/-- The history as a list: the stored bits from the oldest (ring position
`begin`) to the newest (ring position `end - 1`). -/
def stored (s : reach_bitmap) : List Bool :=
  window (ring_bit s) s.begin.toNat s.count.toNat

/-- The lowest `n` bits of `v`, most significant first:
bit `n - 1`, ..., bit 1, bit 0. -/
def value_bits (v : Nat) : Nat → List Bool
  | 0 => []
  | n + 1 => v.testBit n :: value_bits v n

/-- Every element of `bitmap` is an `unsigned char`. -/
def byte_typed (s : reach_bitmap) : Prop := ∀ i, s.bitmap i < 256

/-- The values of the C type `int` (32 bits). -/
def is_int (x : Int) : Prop := -2 ^ 31 ≤ x ∧ x < 2 ^ 31

/-- The histories the daemon can hold: `reach_bitmap_init` applied to any
memory whose `bitmap` elements are bytes, followed by pushes of any value with
any `int` length and pops of any length. -/
inductive Reachable : reach_bitmap → Prop
  | init (s0 : reach_bitmap) (h : byte_typed s0) : Reachable (reach_bitmap_init s0)
  | push (s : reach_bitmap) (value : Nat) (length : Int) (hl : is_int length)
      (h : Reachable s) : Reachable (reach_bitmap_push_new s value length)
  | pop (s : reach_bitmap) (length : Int) (h : Reachable s) :
      Reachable (reach_bitmap_pop_new s length)

/-- The data-model invariant carried by every reachable history. -/
structure Inv (s : reach_bitmap) : Prop where
  bytes : byte_typed s
  begin_lo : 0 ≤ s.begin
  begin_hi : s.begin < 160
  end_lo : 0 ≤ s.end_
  end_hi : s.end_ < 160
  count_eq : s.count = (s.end_ - s.begin) % 160
  count_le : s.count ≤ 128
  count_set_eq : s.count_set = (((stored s).count true : Nat) : Int)

/-- Number of bits moved by one iteration of the insertion loop when `end` is
`e` and `L` bits remain (`cur_bits`). -/
def ins_cur (e L : Nat) : Nat := if 8 - e % 8 > L then L else 8 - e % 8

/-- The byte `t` built by one iteration of the insertion loop. -/
def ins_t (v e L : Nat) : Nat :=
  to_uchar (to_uchar (to_uchar (v >>> (L - ins_cur e L)) &&& (0xFF >>> (8 - ins_cur e L)))
    <<< (8 - ins_cur e L - e % 8))

/-- The byte stored by one iteration of the insertion loop over the old
content `c`. -/
def ins_byte (c v e L : Nat) : Nat :=
  to_uchar (to_uchar (c &&& (0xFF <<< (8 - e % 8))) ||| ins_t v e L)

/-- A memory with every byte zero, used to exhibit concrete histories. -/
def zero_state : reach_bitmap :=
  { bitmap := fun _ => 0, hex := fun _ => '0', dump := [], begin := 0, end_ := 0, count := 0,
    count_set := 0, begin1 := 0, end1 := 0, begin2 := 0, end2 := 0, begin_mask := 'F',
    end_mask := 'F', old_reach := 0 }

/-- The values of the C type `short` (16 bits). -/
def is_short (x : Int) : Prop := -2 ^ 15 ≤ x ∧ x < 2 ^ 15

/-- Number of set bits among the 16 low bits of `x`. -/
def popcount16 (x : Nat) : Nat := (value_bits x 16).count true

/-- The first two segments of the drop-rate curve as the specification words
them. -/
def spec_low_curve (d : Int) : Int :=
  if d < 1000 then 10000 + 10 * d else 20000 + 100 * (d - 1000)

/-- The floor `last_minval` as the specification words it, from the number of
recent ones. -/
def spec_last_minval (n : Int) : Int :=
  if 14 ≤ n then 10000 else 10000 + 20000 * (14 - n)

/-- The history obtained from the zeroed memory by `init` and
`push_new(0x48, 8)`. -/
def scenario_a : reach_bitmap := reach_bitmap_push_new (reach_bitmap_init zero_state) 0x48 8

/-- The history obtained from the zeroed memory by `init` and
`push_new(0xFFFF, 16)`: sixteen received Hellos. -/
def all_received : reach_bitmap :=
  reach_bitmap_push_new (reach_bitmap_init zero_state) 0xFFFF 16

/-- The history obtained from the zeroed memory by `init` and
`push_new(0, 16)`: sixteen missed Hellos. -/
def all_missed : reach_bitmap := reach_bitmap_push_new (reach_bitmap_init zero_state) 0 16

/-- A history of 48 bits, oldest first: ten 0 bits, then thirty-eight 1 bits. -/
def ten_missed : reach_bitmap :=
  reach_bitmap_push_new
    (reach_bitmap_push_new
      (reach_bitmap_push_new (reach_bitmap_push_new (reach_bitmap_init zero_state) 0 10)
        0xFFFF 16) 0xFFFF 16) 0x3F 6

/-- The history `ten_missed` with its oldest bit set: one 1 bit, nine 0 bits,
then thirty-eight 1 bits. -/
def nine_missed : reach_bitmap :=
  reach_bitmap_push_new
    (reach_bitmap_push_new
      (reach_bitmap_push_new (reach_bitmap_push_new (reach_bitmap_init zero_state) 0x200 10)
        0xFFFF 16) 0xFFFF 16) 0x3F 6

/-! ## Vocabulary for the register, frame and rendering claims -/

/-- The history obtained from the zeroed memory by `init`, `push_new(0xFFFF, 16)`
and `push_new(1, 1)`: seventeen received Hellos. -/
def seventeen_received : reach_bitmap := reach_bitmap_push_new all_received 1 1

/-- Two states show the same history: equal `begin`, `end`, `count`, `count_set`,
`old_reach` and equal stored bits. -/
def same_history (s t : reach_bitmap) : Prop :=
  s.begin = t.begin ∧ s.end_ = t.end_ ∧ s.count = t.count ∧ s.count_set = t.count_set ∧
    s.old_reach = t.old_reach ∧ stored s = stored t

/-- The history `init; push_new(1, 1)` on zeroed memory. -/
def one_received : reach_bitmap := reach_bitmap_push_new (reach_bitmap_init zero_state) 1 1

/-- The history `init; push_new(1, 1); push_new(0xFF, 8); pop_new(8)`: the same
window as `one_received`, with eight stale 1 bits behind `end`. -/
def one_received_stale : reach_bitmap :=
  reach_bitmap_pop_new (reach_bitmap_push_new one_received 0xFF 8) 8

/-- Number of iterations the "drop bits" loop of `reach_bitmap_push_new` runs:
the recursion of `evict_loop`, counting one per pass through the loop body. -/
def evict_iterations : Nat → reach_bitmap → Int → Nat
  | 0, _, _ => 0
  | fuel + 1, s, length =>
    if distance s.begin (s.end_ + length) HIST_SIZE_BITS > MAX_HIST_BITS then
      let count_set := s.count_set - at_abs s s.begin
      let begin := s.begin + 1
      let begin := begin.tmod HIST_SIZE_BITS
      evict_iterations fuel { s with count_set := count_set, begin := begin } length + 1
    else 0

/-- Value of nibble `n` of the bitmap: the high half of byte `n / 2` for even `n`
(ring bits `4n .. 4n + 3`), the low half for odd `n`. -/
def nibble (s : reach_bitmap) (n : Nat) : Nat :=
  if n % 2 = 0 then s.bitmap (n / 2) / 16 else s.bitmap (n / 2) % 16

/-- Lowercase hexadecimal digit of nibble `n` of the bitmap. -/
def hex_digit (s : reach_bitmap) (n : Nat) : Char := hex_map.getD (nibble s n) '0'

/-- Invariant of the hex cache: every nibble that holds a stored bit shows the hex
digit of the bitmap, and on a non-empty history the run pointers are those computed
by `update_ends` with a terminator at `end1` and at `end2`. -/
def hex_ok (s : reach_bitmap) : Prop :=
  (∀ k, k < s.count.toNat →
    s.hex ((s.begin.toNat + k) % 160 / 4) = hex_digit s ((s.begin.toNat + k) % 160 / 4)) ∧
  (s.count ≠ 0 →
    s.begin1 = ((s.begin.toNat / 4 : Nat) : Int) ∧
    s.end1 =
      (((if s.begin.toNat ≤ s.end_.toNat then (s.end_.toNat + 3) / 4 else 40) : Nat) : Int) ∧
    s.begin2 =
      (((if s.begin.toNat ≤ s.end_.toNat then (s.end_.toNat + 3) / 4 else 0) : Nat) : Int) ∧
    s.end2 = (((s.end_.toNat + 3) / 4 : Nat) : Int) ∧
    s.hex s.end1.toNat = Char.ofNat 0 ∧ s.hex s.end2.toNat = Char.ofNat 0)

/-- The characters of `hex` from index `a` up to, not including, index `z`. -/
def hex_run (s : reach_bitmap) (a z : Int) : List Char :=
  (List.range (z - a).toNat).map (fun t => s.hex (a.toNat + t))

/-- The diagnostic rendering: the run `begin1 .. end1` followed by the run
`begin2 .. end2` (what `print_bitmap` shows between the two masks). -/
def rendering (s : reach_bitmap) : List Char :=
  hex_run s s.begin1 s.end1 ++ hex_run s s.begin2 s.end2

/-- Hex digits of the nibbles of the bitmap in ring order, from the nibble holding
bit `begin` through the nibble holding bit `end - 1`. -/
def window_digits (s : reach_bitmap) : List Char :=
  (List.range ((s.begin.toNat % 4 + s.count.toNat + 3) / 4)).map
    (fun t => hex_digit s ((s.begin.toNat / 4 + t) % 40))

/-! ## Vocabulary for the mask, composition and index claims -/

/-- Uppercase hexadecimal digit of `n`, as the specification words the masks. -/
def upper_hex_digit (n : Nat) : Char := "0123456789ABCDEF".toList.getD n '0'

/-- The begin mask as the specification words it: the uppercase hex digit of
`0xF >> (begin mod 4)`. -/
def spec_begin_mask (begin : Int) : Char := upper_hex_digit (0xF >>> (begin % 4).toNat)

/-- The end mask as the specification words it: `'F'` when `end mod 4 == 0`,
otherwise the uppercase hex digit of `(0xF << (4 - end mod 4)) & 0xF`. -/
def spec_end_mask (end_ : Int) : Char :=
  if end_ % 4 = 0 then 'F' else upper_hex_digit ((0xF <<< (4 - (end_ % 4).toNat)) &&& 0xF)

/-- Pushing the low `n` bits of `v` one at a time, most significant first:
`push_new(v >> (n - 1), 1)`, ..., `push_new(v >> 1, 1)`, `push_new(v, 1)`. -/
def push_bitwise (s : reach_bitmap) (v : Nat) : Nat → reach_bitmap
  | 0 => s
  | n + 1 => push_bitwise (reach_bitmap_push_new s (v >>> n) 1) v n

/-- Number of elements of the array `hex`: `HIST_SIZE_BYTES * 2 + 4`. -/
abbrev HEX_SIZE : Int := HIST_SIZE_BYTES * 2 + 4

/-- The three values of `byte_index` with which `reach_bitmap_get_mask` reads
`bitmap`. -/
def get_mask_indices (s : reach_bitmap) : List Int :=
  let byte_index : Int := (s.end_ + 7).tdiv 8 - 1
  let i1 := (byte_index + HIST_SIZE_BYTES).tmod HIST_SIZE_BYTES
  let byte_index := i1 - 1
  let i2 := (byte_index + HIST_SIZE_BYTES).tmod HIST_SIZE_BYTES
  let byte_index := i2 - 1
  let i3 := (byte_index + HIST_SIZE_BYTES).tmod HIST_SIZE_BYTES
  [i1, i2, i3]

/-- The index `offset / 8` with which `at_abs` reads `bitmap`. -/
def at_abs_index (offset : Int) : Int := offset.tdiv 8

/-- The index with which `at_rel` reads `bitmap` (through `at_abs`) when `offset`
does not exceed `count`. -/
def at_rel_index (s : reach_bitmap) (offset : Int) : Int :=
  let abs_offset := s.end_ - offset
  at_abs_index ((abs_offset + HIST_SIZE_BITS).tmod HIST_SIZE_BITS)

/-- The indices read by the "drop bits" loop of `reach_bitmap_push_new` (through
`at_abs(bitmap, bitmap->begin)`), one per iteration; they depend on `begin`, `end`
and `length` only. -/
def evict_indices : Nat → Int → Int → Int → List Int
  | 0, _, _, _ => []
  | fuel + 1, begin, end_, length =>
    if distance begin (end_ + length) HIST_SIZE_BITS > MAX_HIST_BITS then
      let i := at_abs_index begin
      let begin := begin + 1
      let begin := begin.tmod HIST_SIZE_BITS
      i :: evict_indices fuel begin end_ length
    else []

/-- The values of `byte_index` in the insertion loop of `reach_bitmap_push_new`,
one per iteration; they depend on `end` and `length` only. The loop writes
`bitmap[byte_index]`, `hex[byte_index * 2]` and `hex[byte_index * 2 + 1]`. -/
def insert_indices : Nat → Int → Int → List Int
  | 0, _, _ => []
  | fuel + 1, end_, length =>
    if length > 0 then
      let exist_bits := end_.tmod 8
      let cur_bits := 8 - exist_bits
      let cur_bits := if cur_bits > length then length else cur_bits
      let byte_index := end_.tdiv 8
      let end_ := end_ + cur_bits
      let end_ := end_.tmod HIST_SIZE_BITS
      byte_index :: insert_indices fuel end_ (length - cur_bits)
    else []

/-- The indices read by the loop of `reach_bitmap_pop_new` (through
`at_abs(bitmap, bitmap->end)`), one per iteration. -/
def pop_indices : Nat → Int → List Int
  | 0, _ => []
  | n + 1, end_ =>
    let end_ := (end_ + HIST_SIZE_BITS - 1).tmod HIST_SIZE_BITS
    at_abs_index end_ :: pop_indices n end_

/-! ## Integer conversions on in-range values -/

theorem to_ulong_nat (n : Nat) (h : n < 2 ^ 64) : to_ulong (n : Int) = n := by
  unfold to_ulong
  omega

theorem to_int_nat (n : Nat) (h : n < 2 ^ 31) : to_int n = (n : Int) := by
  unfold to_int
  have h1 : n % 2 ^ 32 = n := Nat.mod_eq_of_lt (by omega)
  rw [h1, if_pos h]

theorem tdiv_nat (a : Nat) (k : Nat) : ((a : Int).tdiv (k : Int)).toNat = a / k := by
  rw [← Int.ofNat_tdiv, Int.toNat_ofNat]

theorem tmod_nat (a : Nat) (k : Nat) : ((a : Int).tmod (k : Int)) = ((a % k : Nat) : Int) := by
  rw [Int.ofNat_tmod]

/-! ## Frame lemmas for `update_ends` -/

theorem update_hex_ends_frame (s : reach_bitmap) :
    (update_hex_ends s).bitmap = s.bitmap ∧ (update_hex_ends s).begin = s.begin ∧
    (update_hex_ends s).end_ = s.end_ ∧ (update_hex_ends s).count = s.count ∧
    (update_hex_ends s).count_set = s.count_set ∧
    (update_hex_ends s).old_reach = s.old_reach := by
  unfold update_hex_ends
  dsimp only
  split_ifs <;> simp

theorem update_count_count (s : reach_bitmap) :
    (update_count s).count =
      to_int (to_ulong (to_int ((to_ulong (s.end_ - s.begin) + 160) % 2 ^ 64)) % 160) := by
  simp only [update_count, CHAR_BIT, Nat.reduceMul]

theorem update_ends_bitmap (s : reach_bitmap) : (update_ends s).bitmap = s.bitmap := by
  have h : (update_ends s).bitmap = (update_hex_ends (update_count s)).bitmap := by
    simp only [update_ends]
  rw [h, (update_hex_ends_frame _).1]
  simp only [update_count]

theorem update_ends_begin (s : reach_bitmap) : (update_ends s).begin = s.begin := by
  have h : (update_ends s).begin = (update_hex_ends (update_count s)).begin := by
    simp only [update_ends]
  rw [h, (update_hex_ends_frame _).2.1]
  simp only [update_count]

theorem update_ends_end (s : reach_bitmap) : (update_ends s).end_ = s.end_ := by
  have h : (update_ends s).end_ = (update_hex_ends (update_count s)).end_ := by
    simp only [update_ends]
  rw [h, (update_hex_ends_frame _).2.2.1]
  simp only [update_count]

theorem update_ends_count_set (s : reach_bitmap) :
    (update_ends s).count_set = s.count_set := by
  have h : (update_ends s).count_set = (update_hex_ends (update_count s)).count_set := by
    simp only [update_ends]
  rw [h, (update_hex_ends_frame _).2.2.2.2.1]
  simp only [update_count]

theorem update_ends_count (s : reach_bitmap) :
    (update_ends s).count =
      to_int (to_ulong (to_int ((to_ulong (s.end_ - s.begin) + 160) % 2 ^ 64)) % 160) := by
  have h : (update_ends s).count = (update_hex_ends (update_count s)).count := by
    simp only [update_ends]
  rw [h, (update_hex_ends_frame _).2.2.2.1, update_count_count]

/-- On ring indices, `update_ends` sets `count` to `(end - begin) mod 160`. -/
theorem update_ends_count_nat (s : reach_bitmap) (b e : Nat) (hb : s.begin = b)
    (he : s.end_ = e) (hb160 : b < 160) (he160 : e < 160) :
    (update_ends s).count = (((e + 160 - b) % 160 : Nat) : Int) := by
  rw [update_ends_count, hb, he]
  have h1 : to_ulong ((e : Int) - (b : Int)) + 160 = e + 160 - b ∨
      to_ulong ((e : Int) - (b : Int)) + 160 = 2 ^ 64 + (e + 160 - b) := by
    unfold to_ulong
    omega
  have h2 : (to_ulong ((e : Int) - (b : Int)) + 160) % 2 ^ 64 = e + 160 - b := by
    rcases h1 with h1 | h1 <;> rw [h1] <;> omega
  rw [h2, to_int_nat (e + 160 - b) (by omega), to_ulong_nat _ (by omega),
    to_int_nat _ (by omega)]

/-! ## Reading bits -/

/-- On a ring index, `at_abs` is the stored bit. -/
theorem at_abs_nat (s : reach_bitmap) (p : Nat) :
    at_abs s (p : Int) = if ring_bit s p then 1 else 0 := by
  unfold at_abs ring_bit
  have h1 : ((p : Int).tdiv 8).toNat = p / 8 := tdiv_nat p 8
  have h2 : (7 - (p : Int).tmod 8).toNat = 7 - p % 8 := by
    rw [Int.tmod_eq_emod (by omega) (by omega)]
    omega
  rw [h1, h2, Nat.one_shiftLeft, Nat.and_two_pow]
  cases (s.bitmap (p / 8)).testBit (7 - p % 8) <;> simp

theorem byte_testBit_high (x j : Nat) (hx : x < 256) (hj : 8 ≤ j) : x.testBit j = false := by
  apply Nat.testBit_lt_two_pow
  calc x < 2 ^ 8 := hx
    _ ≤ 2 ^ j := Nat.pow_le_pow_right (by decide) hj

/-- Bit `i` of the result of `reach_bitmap_get_mask`, for a history whose `end`
is a ring index and whose `count` is at most 128. -/
theorem get_mask_testBit (s : reach_bitmap) (e c : Nat) (hbytes : byte_typed s)
    (he : s.end_ = e) (he160 : e < 160) (hc : s.count = c) (hc128 : c ≤ 128) (m i : Nat) :
    (reach_bitmap_get_mask s m).testBit i =
      (decide (i < 16) && decide (i < c) && m.testBit i &&
        ring_bit s ((e + 159 - i) % 160)) := by
  unfold reach_bitmap_get_mask
  by_cases hc0 : c = 0
  · subst hc0
    simp [hc]
  have hcne : ¬ s.count = 0 := by rw [hc]; omega
  rw [if_neg hcne]
  have i0 : ((((s.end_ + 7).tdiv 8 - 1 + HIST_SIZE_BYTES).tmod HIST_SIZE_BYTES)) =
      ((((e + 7) / 8 + 19) % 20 : Nat) : Int) := by
    rw [he]
    simp only [HIST_SIZE_BYTES, MAX_HIST_BYTES]
    rw [Int.tdiv_eq_ediv (by omega) (by omega), Int.tmod_eq_emod (by omega) (by omega)]
    omega
  have i1 : ∀ k : Nat, k < 20 →
      ((((k : Int) - 1 + HIST_SIZE_BYTES).tmod HIST_SIZE_BYTES)) = (((k + 19) % 20 : Nat) : Int) := by
    intro k hk
    simp only [HIST_SIZE_BYTES, MAX_HIST_BYTES]
    rw [Int.tmod_eq_emod (by omega) (by omega)]
    omega
  have hsh : ((8 - s.end_.tmod 8).tmod 8).toNat = (8 - e % 8) % 8 := by
    have h8 : (e : Int).tmod 8 = (e : Int) % 8 := Int.tmod_eq_emod (by omega) (by omega)
    rw [he, h8, Int.tmod_eq_emod (by omega) (by omega)]
    omega
  have hul : to_ulong s.count = c := by rw [hc]; exact to_ulong_nat c (by omega)
  simp only [i0, i1 _ (Nat.mod_lt _ (by decide : 0 < 20)), hsh, hul, Int.toNat_ofNat, to_ushort,
    CHAR_BIT, Nat.reduceMul]
  rw [show (65536 : Nat) = 2 ^ 16 from rfl, Nat.testBit_mod_two_pow, Nat.testBit_and]
  by_cases hi : i < 16
  swap
  · simp [hi]
  have hB0 := hbytes (((e + 7) / 8 + 19) % 20)
  have hB1 := hbytes ((((e + 7) / 8 + 19) % 20 + 19) % 20)
  have hB2 := hbytes (((((e + 7) / 8 + 19) % 20 + 19) % 20 + 19) % 20)
  have hmask : ∀ x : Nat, (if c < 64 then x &&& (2 ^ 64 - 1) >>> (64 - c) else x).testBit i =
      (decide (i < c) && x.testBit i) := by
    intro x
    split_ifs with h64
    · rw [Nat.testBit_and, Nat.testBit_shiftRight, Nat.testBit_two_pow_sub_one]
      by_cases hic : i < c
      · have : 64 - c + i < 64 := by omega
        simp [hic, this]
      · have : ¬ 64 - c + i < 64 := by omega
        simp [hic, this]
    · have : i < c := by omega
      simp [this]
  rw [hmask, Nat.testBit_shiftRight, Nat.testBit_or, Nat.testBit_or, Nat.testBit_shiftLeft,
    Nat.testBit_shiftLeft]
  unfold ring_bit
  have key : ((s.bitmap (((e + 7) / 8 + 19) % 20)).testBit ((8 - e % 8) % 8 + i) ||
      (decide ((8 - e % 8) % 8 + i ≥ 8) &&
        (s.bitmap ((((e + 7) / 8 + 19) % 20 + 19) % 20)).testBit ((8 - e % 8) % 8 + i - 8)) ||
      (decide ((8 - e % 8) % 8 + i ≥ 16) &&
        (s.bitmap (((((e + 7) / 8 + 19) % 20 + 19) % 20 + 19) % 20)).testBit
          ((8 - e % 8) % 8 + i - 16))) =
      (s.bitmap ((e + 159 - i) % 160 / 8)).testBit (7 - (e + 159 - i) % 160 % 8) := by
    by_cases h8 : (8 - e % 8) % 8 + i < 8
    · have a1 : (e + 159 - i) % 160 / 8 = ((e + 7) / 8 + 19) % 20 := by omega
      have a2 : 7 - (e + 159 - i) % 160 % 8 = (8 - e % 8) % 8 + i := by omega
      have a3 : ¬ (8 - e % 8) % 8 + i ≥ 8 := by omega
      have a4 : ¬ (8 - e % 8) % 8 + i ≥ 16 := by omega
      simp [a1, a2, a3, a4]
    by_cases h16 : (8 - e % 8) % 8 + i < 16
    · have a1 : (e + 159 - i) % 160 / 8 = (((e + 7) / 8 + 19) % 20 + 19) % 20 := by omega
      have a2 : 7 - (e + 159 - i) % 160 % 8 = (8 - e % 8) % 8 + i - 8 := by omega
      have a3 : (8 - e % 8) % 8 + i ≥ 8 := by omega
      have a4 : ¬ (8 - e % 8) % 8 + i ≥ 16 := by omega
      rw [byte_testBit_high _ _ hB0 a3]
      simp [a1, a2, a3, a4]
    · have a1 : (e + 159 - i) % 160 / 8 =
          ((((e + 7) / 8 + 19) % 20 + 19) % 20 + 19) % 20 := by omega
      have a2 : 7 - (e + 159 - i) % 160 % 8 = (8 - e % 8) % 8 + i - 16 := by omega
      have a3 : (8 - e % 8) % 8 + i ≥ 8 := by omega
      have a4 : (8 - e % 8) % 8 + i ≥ 16 := by omega
      have a5 : (8 - e % 8) % 8 + i - 8 ≥ 8 := by omega
      rw [byte_testBit_high _ _ hB0 a3, byte_testBit_high _ _ hB1 a5]
      simp [a1, a2, a3, a4]
  rw [key]
  simp only [hi, decide_True, Bool.true_and]
  cases decide (i < c) <;> cases m.testBit i <;> simp

/-! ## One iteration of each loop, on ring indices -/

theorem insert_loop_step (fuel : Nat) (s : reach_bitmap) (v e L : Nat) (he : s.end_ = e)
    (hL : 0 < L) :
    insert_loop (fuel + 1) s v (L : Int) =
      insert_loop fuel
        { s with
          bitmap := arr_set s.bitmap (e / 8) (ins_byte (s.bitmap (e / 8)) v e L)
          count_set := s.count_set + countset_byte (ins_t v e L)
          hex := arr_set
            (arr_set s.hex (e / 8 * 2)
              (hex_map.getD (ins_byte (s.bitmap (e / 8)) v e L / 16) '0'))
            (e / 8 * 2 + 1) (hex_map.getD (ins_byte (s.bitmap (e / 8)) v e L % 16) '0')
          end_ := (((e + ins_cur e L) % 160 : Nat) : Int) }
        v ((L - ins_cur e L : Nat) : Int) := by
  have hpos : (L : Int) > 0 := by omega
  have hx : (e : Int).tmod 8 = ((e % 8 : Nat) : Int) := tmod_nat e 8
  have hk : (if 8 - ((e % 8 : Nat) : Int) > (L : Int) then (L : Int)
      else 8 - ((e % 8 : Nat) : Int)) = ((ins_cur e L : Nat) : Int) := by
    unfold ins_cur
    split_ifs <;> omega
  have hkle : ins_cur e L ≤ L ∧ ins_cur e L + e % 8 ≤ 8 := by
    unfold ins_cur
    split_ifs <;> omega
  have h1 : ((L : Int) - (ins_cur e L : Int)).toNat = L - ins_cur e L := by omega
  have h2 : ((8 : Int) - (ins_cur e L : Int)).toNat = 8 - ins_cur e L := by omega
  have h3 : ((8 : Int) - (ins_cur e L : Int) - ((e % 8 : Nat) : Int)).toNat =
      8 - ins_cur e L - e % 8 := by omega
  have h4 : ((e : Int).tdiv 8).toNat = e / 8 := tdiv_nat e 8
  have h5 : ((8 : Int) - ((e % 8 : Nat) : Int)).toNat = 8 - e % 8 := by omega
  have h6 : ((e : Int).tdiv 8 * 2).toNat = e / 8 * 2 := by
    rw [Int.tdiv_eq_ediv (by omega) (by omega)]
    omega
  have h7 : ((e : Int).tdiv 8 * 2 + 1).toNat = e / 8 * 2 + 1 := by
    rw [Int.tdiv_eq_ediv (by omega) (by omega)]
    omega
  have h8 : ((e : Int) + (ins_cur e L : Int)).tmod HIST_SIZE_BITS =
      (((e + ins_cur e L) % 160 : Nat) : Int) := by
    simp only [HIST_SIZE_BITS, HIST_SIZE_BYTES, MAX_HIST_BYTES]
    rw [Int.tmod_eq_emod (by omega) (by omega)]
    omega
  have h9 : (L : Int) - (ins_cur e L : Int) = ((L - ins_cur e L : Nat) : Int) := by omega
  rw [insert_loop, if_pos hpos]
  simp only [he, hx, hk, h1, h2, h3, h4, h5, h6, h7, h8, h9, ins_byte, ins_t, Int.toNat_ofNat]

theorem insert_loop_zero (fuel : Nat) (s : reach_bitmap) (v : Nat) :
    insert_loop fuel s v 0 = s := by
  cases fuel with
  | zero => rfl
  | succ n => rw [insert_loop, if_neg (by omega)]

theorem evict_loop_step (fuel : Nat) (s : reach_bitmap) (b e L : Nat) (hb : s.begin = b)
    (he : s.end_ = e) (hb160 : b < 160) :
    evict_loop (fuel + 1) s (L : Int) =
      if (e + L + 160 - b) % 160 > 128 then
        evict_loop fuel
          { s with
            count_set := s.count_set - (if ring_bit s b then 1 else 0)
            begin := (((b + 1) % 160 : Nat) : Int) } (L : Int)
      else s := by
  have hd : distance s.begin (s.end_ + (L : Int)) HIST_SIZE_BITS =
      (((e + L + 160 - b) % 160 : Nat) : Int) := by
    unfold distance
    simp only [HIST_SIZE_BITS, HIST_SIZE_BYTES, MAX_HIST_BYTES, hb, he]
    rw [Int.tmod_eq_emod (by omega) (by omega)]
    omega
  have hn : ((b : Int) + 1).tmod HIST_SIZE_BITS = (((b + 1) % 160 : Nat) : Int) := by
    simp only [HIST_SIZE_BITS, HIST_SIZE_BYTES, MAX_HIST_BYTES]
    rw [Int.tmod_eq_emod (by omega) (by omega)]
    omega
  rw [evict_loop, hd]
  simp only [MAX_HIST_BITS, MAX_HIST_BYTES]
  by_cases h : (e + L + 160 - b) % 160 > 128
  · have h' : (((e + L + 160 - b) % 160 : Nat) : Int) > 16 * 8 := by omega
    rw [if_pos h', if_pos h, hb, hn, at_abs_nat]
  · have h' : ¬ (((e + L + 160 - b) % 160 : Nat) : Int) > 16 * 8 := by omega
    rw [if_neg h', if_neg h]

theorem pop_loop_step (n : Nat) (s : reach_bitmap) (e : Nat) (he : s.end_ = e)
    (he160 : e < 160) :
    pop_loop (n + 1) s =
      pop_loop n
        { s with
          end_ := (((e + 159) % 160 : Nat) : Int)
          count_set := s.count_set - (if ring_bit s ((e + 159) % 160) then 1 else 0) } := by
  have hn : (s.end_ + HIST_SIZE_BITS - 1).tmod HIST_SIZE_BITS = (((e + 159) % 160 : Nat) : Int) := by
    simp only [HIST_SIZE_BITS, HIST_SIZE_BYTES, MAX_HIST_BYTES, he]
    rw [Int.tmod_eq_emod (by omega) (by omega)]
    omega
  rw [pop_loop]
  simp only [hn, at_abs_nat]

/-! ## Bits of a value -/

theorem value_bits_length (v n : Nat) : (value_bits v n).length = n := by
  induction n with
  | zero => rfl
  | succ n ih => simp [value_bits, ih]

theorem value_bits_congr (v w n : Nat) (h : ∀ i, i < n → v.testBit i = w.testBit i) :
    value_bits v n = value_bits w n := by
  induction n with
  | zero => rfl
  | succ n ih =>
    simp only [value_bits]
    rw [h n (by omega), ih (fun i hi => h i (by omega))]

theorem value_bits_zero_bits (v n : Nat) (h : ∀ i, i < n → v.testBit i = false) :
    value_bits v n = List.replicate n false := by
  induction n with
  | zero => rfl
  | succ n ih =>
    simp only [value_bits, List.replicate_succ]
    rw [h n (by omega), ih (fun i hi => h i (by omega))]

theorem value_bits_add (v m c : Nat) :
    value_bits v (m + c) = value_bits (v >>> m) c ++ value_bits v m := by
  induction c with
  | zero => simp [value_bits]
  | succ c ih =>
    rw [← Nat.add_assoc]
    simp only [value_bits, List.cons_append, Nat.testBit_shiftRight]
    rw [ih]

theorem value_bits_getElem? (v n j : Nat) :
    (value_bits v n)[j]? = if j < n then some (v.testBit (n - 1 - j)) else none := by
  induction n generalizing j with
  | zero => simp [value_bits]
  | succ n ih =>
    cases j with
    | zero => simp [value_bits]
    | succ j =>
      simp only [value_bits, List.getElem?_cons_succ, ih]
      have h : n + 1 - 1 - (j + 1) = n - 1 - j := by omega
      rw [h]
      by_cases hj : j < n
      · rw [if_pos hj, if_pos (by omega)]
      · rw [if_neg hj, if_neg (by omega)]

set_option maxRecDepth 100000 in
theorem countset_byte_eq (t : Nat) (ht : t < 256) :
    countset_byte t = (((value_bits t 8).count true : Nat) : Int) := by
  revert t
  decide

/-- A byte whose set bits lie in the field `[sh, sh + k)` and copy the low `k`
bits of `w` has as many set bits as those `k` bits. -/
theorem count_field (t w sh k : Nat) (h : sh + k ≤ 8)
    (hbit : ∀ i, t.testBit i = (decide (sh ≤ i) && decide (i < sh + k) && w.testBit (i - sh))) :
    (value_bits t 8).count true = (value_bits w k).count true := by
  have e8 : 8 = sh + (k + (8 - sh - k)) := by omega
  rw [e8, value_bits_add t sh, value_bits_add (t >>> sh) k]
  have z1 : value_bits t sh = List.replicate sh false := by
    apply value_bits_zero_bits
    intro i hi
    rw [hbit]
    have : ¬ sh ≤ i := by omega
    simp [this]
  have z2 : value_bits (t >>> sh >>> k) (8 - sh - k) = List.replicate (8 - sh - k) false := by
    apply value_bits_zero_bits
    intro i hi
    rw [Nat.testBit_shiftRight, Nat.testBit_shiftRight, hbit]
    have : ¬ sh + (k + i) < sh + k := by omega
    simp [this]
  have z3 : value_bits (t >>> sh) k = value_bits w k := by
    apply value_bits_congr
    intro i hi
    rw [Nat.testBit_shiftRight, hbit]
    have a1 : sh ≤ sh + i := by omega
    have a2 : sh + i < sh + k := by omega
    have a3 : sh + i - sh = i := by omega
    simp [a1, a2, a3]
  rw [z1, z2, z3]
  simp [List.count_append, List.count_replicate]

/-! ## The insertion loop -/

theorem ins_cur_bounds (e L : Nat) (hL : 0 < L) :
    1 ≤ ins_cur e L ∧ ins_cur e L ≤ L ∧ e % 8 + ins_cur e L ≤ 8 := by
  unfold ins_cur
  split_ifs <;> omega

theorem ins_t_testBit (v e L i : Nat) (hL : 0 < L) :
    (ins_t v e L).testBit i =
      (decide (8 - ins_cur e L - e % 8 ≤ i) &&
        decide (i < 8 - ins_cur e L - e % 8 + ins_cur e L) &&
        (v >>> (L - ins_cur e L)).testBit (i - (8 - ins_cur e L - e % 8))) := by
  obtain ⟨hk1, hk2, hk3⟩ := ins_cur_bounds e L hL
  unfold ins_t to_uchar
  generalize ins_cur e L = k at *
  rw [show (256 : Nat) = 2 ^ 8 from rfl, show (0xFF : Nat) = 2 ^ 8 - 1 from rfl]
  simp only [Nat.testBit_mod_two_pow, Nat.testBit_and, Nat.testBit_shiftLeft,
    Nat.testBit_shiftRight, Nat.testBit_two_pow_sub_one]
  by_cases h1 : 8 - k - e % 8 ≤ i
  · by_cases h2 : i < 8 - k - e % 8 + k
    · have a1 : i < 8 := by omega
      have a2 : i - (8 - k - e % 8) < 8 := by omega
      have a3 : 8 - k + (i - (8 - k - e % 8)) < 8 := by omega
      simp [h1, h2, a1, a2, a3]
    · have a3 : ¬ 8 - k + (i - (8 - k - e % 8)) < 8 := by omega
      simp [h1, h2, a3]
  · simp [h1]

theorem ins_t_count (v e L : Nat) (hL : 0 < L) :
    countset_byte (ins_t v e L) =
      (((value_bits (v >>> (L - ins_cur e L)) (ins_cur e L)).count true : Nat) : Int) := by
  obtain ⟨hk1, hk2, hk3⟩ := ins_cur_bounds e L hL
  have hlt : ins_t v e L < 256 := by
    unfold ins_t to_uchar
    exact Nat.mod_lt _ (by decide)
  rw [countset_byte_eq _ hlt,
    count_field (ins_t v e L) (v >>> (L - ins_cur e L)) (8 - ins_cur e L - e % 8) (ins_cur e L)
      (by omega) (fun i => ins_t_testBit v e L i hL)]

theorem ins_byte_lt (c v e L : Nat) : ins_byte c v e L < 256 := by
  unfold ins_byte to_uchar
  exact Nat.mod_lt _ (by decide)

theorem ins_byte_testBit (c v e L j : Nat) (hL : 0 < L) (hj : j < 8) :
    (ins_byte c v e L).testBit (7 - j) =
      if j < e % 8 then c.testBit (7 - j)
      else if j < e % 8 + ins_cur e L then v.testBit (L - 1 - (j - e % 8)) else false := by
  obtain ⟨hk1, hk2, hk3⟩ := ins_cur_bounds e L hL
  have hx : e % 8 < 8 := Nat.mod_lt _ (by decide)
  unfold ins_byte
  rw [to_uchar, show (256 : Nat) = 2 ^ 8 from rfl, Nat.testBit_mod_two_pow, Nat.testBit_or,
    ins_t_testBit v e L _ hL, to_uchar, show (256 : Nat) = 2 ^ 8 from rfl,
    Nat.testBit_mod_two_pow, Nat.testBit_and, show (0xFF : Nat) = 2 ^ 8 - 1 from rfl,
    Nat.testBit_shiftLeft, Nat.testBit_two_pow_sub_one, Nat.testBit_shiftRight]
  generalize ins_cur e L = k at *
  generalize e % 8 = x at *
  by_cases h1 : j < x
  · have a1 : 7 - j < 8 := by omega
    have a2 : 7 - j ≥ 8 - x := by omega
    have a3 : 7 - j - (8 - x) < 8 := by omega
    have a5 : ¬ 7 - j < 8 - k - x + k := by omega
    simp [h1, a1, a2, a3, a5]
  · by_cases h2 : j < x + k
    · have a1 : 7 - j < 8 := by omega
      have a2 : ¬ 7 - j ≥ 8 - x := by omega
      have a4 : 8 - k - x ≤ 7 - j := by omega
      have a5 : 7 - j < 8 - k - x + k := by omega
      have a7 : L - k + (7 - j - (8 - k - x)) = L - 1 - (j - x) := by omega
      simp [h1, h2, a1, a2, a4, a5, a7]
    · have a1 : 7 - j < 8 := by omega
      have a2 : ¬ 7 - j ≥ 8 - x := by omega
      have a4 : ¬ 8 - k - x ≤ 7 - j := by omega
      simp [h1, h2, a1, a2, a4]

/-- Effect of one iteration of the insertion loop on the ring bits. -/
theorem ring_bit_step (s s1 : reach_bitmap) (v e L p : Nat) (hL : 0 < L)
    (h : s1.bitmap = arr_set s.bitmap (e / 8) (ins_byte (s.bitmap (e / 8)) v e L)) :
    ring_bit s1 p =
      if p / 8 = e / 8 then
        (if p % 8 < e % 8 then ring_bit s p
         else if p % 8 < e % 8 + ins_cur e L then v.testBit (L - 1 - (p % 8 - e % 8))
         else false)
      else ring_bit s p := by
  unfold ring_bit
  rw [h]
  unfold arr_set
  by_cases hp : p / 8 = e / 8
  · rw [if_pos hp, if_pos hp, ins_byte_testBit _ _ _ _ _ hL (Nat.mod_lt _ (by decide)), hp]
  · rw [if_neg hp, if_neg hp]

theorem step_byte_typed (s s1 : reach_bitmap) (v e L : Nat) (hs : byte_typed s)
    (h : s1.bitmap = arr_set s.bitmap (e / 8) (ins_byte (s.bitmap (e / 8)) v e L)) :
    byte_typed s1 := by
  intro i
  rw [h]
  unfold arr_set
  split_ifs
  · exact ins_byte_lt _ _ _ _
  · exact hs i

/-- The insertion loop, run with enough fuel on `L ≤ 16` bits from a ring
index `e`: it advances `end` by `L`, writes the low `L` bits of `v` most
significant first at the ring positions `e`, `e + 1`, ..., adds their number of
ones to `count_set`, and leaves every ring position at distance `L + 7` or more
from `e` as it was. -/
theorem insert_loop_spec (fuel : Nat) :
    ∀ (s : reach_bitmap) (v e L : Nat), s.end_ = e → e < 160 → L ≤ fuel → L ≤ 16 →
      byte_typed s →
      (insert_loop fuel s v (L : Int)).end_ = (((e + L) % 160 : Nat) : Int) ∧
      (insert_loop fuel s v (L : Int)).begin = s.begin ∧
      (insert_loop fuel s v (L : Int)).count_set =
        s.count_set + (((value_bits v L).count true : Nat) : Int) ∧
      byte_typed (insert_loop fuel s v (L : Int)) ∧
      (∀ p, p < 160 → (p + 160 - e) % 160 < L →
        ring_bit (insert_loop fuel s v (L : Int)) p = v.testBit (L - 1 - (p + 160 - e) % 160)) ∧
      (∀ p, p < 160 → L + 7 ≤ (p + 160 - e) % 160 →
        ring_bit (insert_loop fuel s v (L : Int)) p = ring_bit s p) := by
  induction fuel with
  | zero =>
    intro s v e L he he160 hfuel hL hs
    have hL0 : L = 0 := by omega
    subst hL0
    rw [Nat.cast_zero, insert_loop_zero]
    refine ⟨by rw [he]; omega, rfl, by simp [value_bits], hs, ?_, fun _ _ _ => rfl⟩
    intro p _ hp
    omega
  | succ fuel ih =>
    intro s v e L he he160 hfuel hL hs
    by_cases hL0 : L = 0
    · subst hL0
      rw [Nat.cast_zero, insert_loop_zero]
      refine ⟨by rw [he]; omega, rfl, by simp [value_bits], hs, ?_, fun _ _ _ => rfl⟩
      intro p _ hp
      omega
    have hLpos : 0 < L := by omega
    obtain ⟨hk1, hk2, hk3⟩ := ins_cur_bounds e L hLpos
    rw [insert_loop_step fuel s v e L he hLpos]
    generalize hs1 : ({ s with
          bitmap := arr_set s.bitmap (e / 8) (ins_byte (s.bitmap (e / 8)) v e L)
          count_set := s.count_set + countset_byte (ins_t v e L)
          hex := arr_set
            (arr_set s.hex (e / 8 * 2)
              (hex_map.getD (ins_byte (s.bitmap (e / 8)) v e L / 16) '0'))
            (e / 8 * 2 + 1) (hex_map.getD (ins_byte (s.bitmap (e / 8)) v e L % 16) '0')
          end_ := (((e + ins_cur e L) % 160 : Nat) : Int) } : reach_bitmap) = s1
    have hbm : s1.bitmap = arr_set s.bitmap (e / 8) (ins_byte (s.bitmap (e / 8)) v e L) := by
      rw [← hs1]
    have hend : s1.end_ = (((e + ins_cur e L) % 160 : Nat) : Int) := by rw [← hs1]
    have hbeg : s1.begin = s.begin := by rw [← hs1]
    have hcs : s1.count_set = s.count_set + countset_byte (ins_t v e L) := by rw [← hs1]
    have hbt : byte_typed s1 := step_byte_typed s s1 v e L hs hbm
    obtain ⟨r1, r2, r3, r4, r5, r6⟩ :=
      ih s1 v ((e + ins_cur e L) % 160) (L - ins_cur e L) hend (Nat.mod_lt _ (by decide))
        (by omega) (by omega) hbt
    refine ⟨?_, ?_, ?_, r4, ?_, ?_⟩
    · rw [r1]
      congr 1
      omega
    · rw [r2, hbeg]
    · rw [r3, hcs, ins_t_count v e L hLpos]
      have hsplit : value_bits v L =
          value_bits (v >>> (L - ins_cur e L)) (ins_cur e L) ++ value_bits v (L - ins_cur e L) := by
        rw [← value_bits_add]
        congr 1
        omega
      rw [hsplit, List.count_append]
      push_cast
      ring
    · intro p hp hd
      by_cases hdk : (p + 160 - e) % 160 < ins_cur e L
      · rw [r6 p hp (by omega), ring_bit_step s s1 v e L p hLpos hbm]
        have hp8 : p / 8 = e / 8 := by omega
        have hnl : ¬ p % 8 < e % 8 := by omega
        have hlt : p % 8 < e % 8 + ins_cur e L := by omega
        rw [if_pos hp8, if_neg hnl, if_pos hlt]
        congr 1
        omega
      · rw [r5 p hp (by omega)]
        congr 1
        omega
    · intro p hp hd
      rw [r6 p hp (by omega), ring_bit_step s s1 v e L p hLpos hbm]
      by_cases hp8 : p / 8 = e / 8
      · have hl : p % 8 < e % 8 := by omega
        rw [if_pos hp8, if_pos hl]
      · rw [if_neg hp8]

/-! ## Windows of the ring -/

theorem window_length (f : Nat → Bool) (b n : Nat) : (window f b n).length = n := by
  simp [window]

theorem window_getElem? (f : Nat → Bool) (b n j : Nat) :
    (window f b n)[j]? = if j < n then some (f ((b + j) % 160)) else none := by
  unfold window
  rw [List.getElem?_map]
  by_cases h : j < n
  · rw [List.getElem?_range h, if_pos h]
    rfl
  · rw [List.getElem?_eq_none (by simpa using h), if_neg h]
    rfl

theorem window_congr (f g : Nat → Bool) (b n : Nat)
    (h : ∀ j, j < n → f ((b + j) % 160) = g ((b + j) % 160)) : window f b n = window g b n := by
  apply List.ext_getElem?
  intro j
  rw [window_getElem?, window_getElem?]
  by_cases hj : j < n
  · rw [if_pos hj, if_pos hj, h j hj]
  · rw [if_neg hj, if_neg hj]

theorem window_base_congr (f : Nat → Bool) (b b1 n : Nat) (h : b % 160 = b1 % 160) :
    window f b n = window f b1 n := by
  apply List.ext_getElem?
  intro j
  rw [window_getElem?, window_getElem?]
  have : (b + j) % 160 = (b1 + j) % 160 := by omega
  rw [this]

theorem window_cons (f : Nat → Bool) (b n : Nat) :
    window f b (n + 1) = f (b % 160) :: window f (b + 1) n := by
  apply List.ext_getElem?
  intro j
  cases j with
  | zero => simp [window_getElem?]
  | succ j =>
    rw [List.getElem?_cons_succ, window_getElem?, window_getElem?]
    have : (b + (j + 1)) % 160 = (b + 1 + j) % 160 := by omega
    rw [this]
    by_cases hj : j < n
    · rw [if_pos hj, if_pos (by omega)]
    · rw [if_neg hj, if_neg (by omega)]

theorem window_snoc (f : Nat → Bool) (b n : Nat) :
    window f b (n + 1) = window f b n ++ [f ((b + n) % 160)] := by
  unfold window
  rw [List.range_succ, List.map_append]
  rfl

theorem window_take (f : Nat → Bool) (b n k : Nat) (hk : k ≤ n) :
    (window f b n).take k = window f b k := by
  apply List.ext_getElem?
  intro j
  rw [List.getElem?_take, window_getElem?, window_getElem?]
  by_cases hj : j < k
  · have hjn : j < n := by omega
    simp [hj, hjn]
  · simp [hj]

theorem window_drop (f : Nat → Bool) (b n k : Nat) :
    (window f b n).drop k = window f (b + k) (n - k) := by
  apply List.ext_getElem?
  intro j
  rw [List.getElem?_drop, window_getElem?, window_getElem?]
  have : (b + (k + j)) % 160 = (b + k + j) % 160 := by omega
  rw [this]
  by_cases hj : j < n - k
  · rw [if_pos hj, if_pos (by omega)]
  · rw [if_neg hj, if_neg (by omega)]

theorem count_true_cons (x : Bool) (l : List Bool) :
    (((x :: l).count true : Nat) : Int) = (if x then 1 else 0) + ((l.count true : Nat) : Int) := by
  cases x
  · simp
  · simp
    ring

theorem count_true_snoc (x : Bool) (l : List Bool) :
    (((l ++ [x]).count true : Nat) : Int) = ((l.count true : Nat) : Int) + (if x then 1 else 0) := by
  cases x <;> simp

/-! ## The eviction loop and the pop loop -/

/-- The eviction loop on a history holding `d` bits, `d + L < 160`: it leaves
through its own condition after `k = d + L - 128` iterations (any fuel `≥ k`
gives the same state), advances `begin` by `k` and subtracts the ones among the
`k` oldest bits from `count_set`. -/
theorem evict_loop_spec (k : Nat) :
    ∀ (fuel : Nat) (s : reach_bitmap) (b e L : Nat), s.begin = b → s.end_ = e → b < 160 →
      e < 160 → (e + 160 - b) % 160 + L < 160 → L ≤ 128 → (e + 160 - b) % 160 + L - 128 = k →
      k ≤ fuel →
      evict_loop fuel s (L : Int) =
        { s with
          begin := (((b + k) % 160 : Nat) : Int)
          count_set := s.count_set - (((window (ring_bit s) b k).count true : Nat) : Int) } := by
  induction k with
  | zero =>
    intro fuel s b e L hb he hb160 he160 hd hL hk hfuel
    have hs : ({ s with
          begin := (((b + 0) % 160 : Nat) : Int)
          count_set := s.count_set - (((window (ring_bit s) b 0).count true : Nat) : Int) }
          : reach_bitmap) = s := by
      have h1 : (((b + 0) % 160 : Nat) : Int) = s.begin := by rw [hb]; omega
      have hw : window (ring_bit s) b 0 = [] := rfl
      rw [h1, hw, List.count_nil, Nat.cast_zero, sub_zero]
    rw [hs]
    cases fuel with
    | zero => rfl
    | succ fuel =>
      rw [evict_loop_step fuel s b e L hb he hb160, if_neg (by omega)]
  | succ k ih =>
    intro fuel s b e L hb he hb160 he160 hd hL hk hfuel
    obtain ⟨fuel, rfl⟩ : ∃ f, fuel = f + 1 := ⟨fuel - 1, by omega⟩
    rw [evict_loop_step fuel s b e L hb he hb160, if_pos (by omega)]
    have h := ih fuel { s with
        count_set := s.count_set - (if ring_bit s b then 1 else 0)
        begin := (((b + 1) % 160 : Nat) : Int) } ((b + 1) % 160) e L rfl he
      (Nat.mod_lt _ (by decide)) he160 (by omega) hL (by omega) (by omega)
    rw [h]
    have hf : ring_bit { s with
        count_set := s.count_set - (if ring_bit s b then 1 else 0)
        begin := (((b + 1) % 160 : Nat) : Int) } = ring_bit s := rfl
    rw [hf, window_cons, Nat.mod_eq_of_lt hb160, count_true_cons,
      window_base_congr (ring_bit s) ((b + 1) % 160) (b + 1) k (by omega)]
    have hbk : (((b + 1) % 160 + k) % 160 : Nat) = (b + (k + 1)) % 160 := by omega
    rw [hbk]
    simp only [reach_bitmap.mk.injEq, true_and, and_true]
    omega

/-- The loop of `reach_bitmap_pop_new` run `n ≤ 160` times from a ring index:
it moves `end` back by `n` and subtracts the ones among the `n` bits it walks
over from `count_set`. -/
theorem pop_loop_spec (n : Nat) :
    ∀ (s : reach_bitmap) (e : Nat), s.end_ = e → e < 160 → n ≤ 160 →
      pop_loop n s =
        { s with
          end_ := (((e + 160 - n) % 160 : Nat) : Int)
          count_set := s.count_set -
            (((window (ring_bit s) ((e + 160 - n) % 160) n).count true : Nat) : Int) } := by
  induction n with
  | zero =>
    intro s e he he160 hn
    have h1 : (((e + 160 - 0) % 160 : Nat) : Int) = s.end_ := by rw [he]; omega
    have hw : window (ring_bit s) ((e + 160 - 0) % 160) 0 = [] := rfl
    rw [h1, hw, List.count_nil, Nat.cast_zero, sub_zero]
    rfl
  | succ n ih =>
    intro s e he he160 hn
    rw [pop_loop_step n s e he he160]
    have h := ih { s with
        end_ := (((e + 159) % 160 : Nat) : Int)
        count_set := s.count_set - (if ring_bit s ((e + 159) % 160) then 1 else 0) }
      ((e + 159) % 160) rfl (Nat.mod_lt _ (by decide)) (by omega)
    rw [h]
    have hf : ring_bit { s with
        end_ := (((e + 159) % 160 : Nat) : Int)
        count_set := s.count_set - (if ring_bit s ((e + 159) % 160) then 1 else 0) } =
        ring_bit s := rfl
    have he1 : ((e + 159) % 160 + 160 - n) % 160 = (e + 160 - (n + 1)) % 160 := by omega
    have he2 : ((e + 160 - (n + 1)) % 160 + n) % 160 = (e + 159) % 160 := by omega
    rw [hf, he1, window_snoc, count_true_snoc, he2]
    simp only [reach_bitmap.mk.injEq, true_and, and_true]
    omega

/-! ## `reach_bitmap_push_new` on ring indices -/

theorem push_new_eq (s : reach_bitmap) (v L : Nat) (h1 : 1 ≤ L) (h16 : L ≤ 16) :
    reach_bitmap_push_new s v (L : Int) =
      update_ends (insert_loop L (evict_loop 160 s (L : Int))
        (to_ushort (v &&& (0xFFFF >>> (16 - L)))) (L : Int)) := by
  have hu : to_ulong (L : Int) = L := to_ulong_nat L (by omega)
  have hf : HIST_SIZE_BITS.toNat = 160 := rfl
  unfold reach_bitmap_push_new
  rw [if_neg (by rw [hu]; simp only [CHAR_BIT]; omega)]
  simp only [hu, hf, Int.toNat_ofNat, CHAR_BIT, Nat.reduceMul]

theorem push_new_noop (s : reach_bitmap) (v : Nat) (L : Int) (hl : is_int L)
    (h : L ≤ 0 ∨ 16 < L) : reach_bitmap_push_new s v L = s := by
  unfold reach_bitmap_push_new
  rw [if_pos]
  rcases h with h | h
  · exact Or.inl h
  · right
    have hu : to_ulong L = L.toNat := by
      unfold to_ulong is_int at *
      omega
    rw [hu]
    simp only [CHAR_BIT]
    omega

theorem masked_value_bits (v L : Nat) (h16 : L ≤ 16) :
    value_bits (to_ushort (v &&& (0xFFFF >>> (16 - L)))) L = value_bits v L := by
  apply value_bits_congr
  intro i hi
  rw [to_ushort, show (65536 : Nat) = 2 ^ 16 from rfl, Nat.testBit_mod_two_pow, Nat.testBit_and,
    show (0xFFFF : Nat) = 2 ^ 16 - 1 from rfl, Nat.testBit_shiftRight,
    Nat.testBit_two_pow_sub_one]
  have a1 : i < 16 := by omega
  have a2 : 16 - L + i < 16 := by omega
  simp [a1, a2]

/-- The effect of an in-range push on a history whose `begin` and `end` are
ring indices `b`, `e` with `(e - b) mod 160 ≤ 128`. -/
theorem push_spec (s : reach_bitmap) (b e v L : Nat) (hs : byte_typed s) (hb : s.begin = b)
    (he : s.end_ = e) (hb160 : b < 160) (he160 : e < 160) (hc : (e + 160 - b) % 160 ≤ 128)
    (h1 : 1 ≤ L) (h16 : L ≤ 16) :
    (reach_bitmap_push_new s v (L : Int)).begin =
        (((b + ((e + 160 - b) % 160 + L - 128)) % 160 : Nat) : Int) ∧
    (reach_bitmap_push_new s v (L : Int)).end_ = (((e + L) % 160 : Nat) : Int) ∧
    (reach_bitmap_push_new s v (L : Int)).count =
        (((e + 160 - b) % 160 + L - ((e + 160 - b) % 160 + L - 128) : Nat) : Int) ∧
    (reach_bitmap_push_new s v (L : Int)).count_set =
        s.count_set -
          (((window (ring_bit s) b ((e + 160 - b) % 160 + L - 128)).count true : Nat) : Int) +
          (((value_bits v L).count true : Nat) : Int) ∧
    byte_typed (reach_bitmap_push_new s v (L : Int)) ∧
    (∀ p, p < 160 → (p + 160 - e) % 160 < L →
      ring_bit (reach_bitmap_push_new s v (L : Int)) p =
        v.testBit (L - 1 - (p + 160 - e) % 160)) ∧
    (∀ p, p < 160 → L + 7 ≤ (p + 160 - e) % 160 →
      ring_bit (reach_bitmap_push_new s v (L : Int)) p = ring_bit s p) := by
  rw [push_new_eq s v L h1 h16]
  have hev := evict_loop_spec ((e + 160 - b) % 160 + L - 128) 160 s b e L hb he hb160 he160
    (by omega) (by omega) rfl (by omega)
  rw [hev]
  generalize hs1 : ({ s with
      begin := (((b + ((e + 160 - b) % 160 + L - 128)) % 160 : Nat) : Int)
      count_set := s.count_set -
        (((window (ring_bit s) b ((e + 160 - b) % 160 + L - 128)).count true : Nat) : Int) }
      : reach_bitmap) = s1
  have e1 : s1.end_ = e := by rw [← hs1]; exact he
  have b1 : s1.begin = (((b + ((e + 160 - b) % 160 + L - 128)) % 160 : Nat) : Int) := by
    rw [← hs1]
  have c1 : s1.count_set = s.count_set -
      (((window (ring_bit s) b ((e + 160 - b) % 160 + L - 128)).count true : Nat) : Int) := by
    rw [← hs1]
  have t1 : byte_typed s1 := by rw [← hs1]; exact hs
  have f1 : ring_bit s1 = ring_bit s := by rw [← hs1]; rfl
  obtain ⟨r1, r2, r3, r4, r5, r6⟩ :=
    insert_loop_spec L s1 (to_ushort (v &&& (0xFFFF >>> (16 - L)))) e L e1 he160 (le_refl _)
      h16 t1
  generalize insert_loop L s1 (to_ushort (v &&& (0xFFFF >>> (16 - L)))) (L : Int) = s2 at *
  have hbm : (update_ends s2).bitmap = s2.bitmap := update_ends_bitmap s2
  have hrb : ring_bit (update_ends s2) = ring_bit s2 := by
    funext p
    unfold ring_bit
    rw [hbm]
  refine ⟨?_, ?_, ?_, ?_, ?_, ?_, ?_⟩
  · rw [update_ends_begin, r2, b1]
  · rw [update_ends_end, r1]
  · rw [update_ends_count_nat s2 _ _ (r2.trans b1) r1 (Nat.mod_lt _ (by decide))
      (Nat.mod_lt _ (by decide))]
    omega
  · rw [update_ends_count_set, r3, c1, masked_value_bits v L h16]
  · intro i
    rw [hbm]
    exact r4 i
  · intro p hp hd
    rw [hrb, r5 p hp hd]
    have hvb := masked_value_bits v L h16
    have hbit : ∀ i, i < L →
        (to_ushort (v &&& (0xFFFF >>> (16 - L)))).testBit i = v.testBit i := by
      intro i hi
      rw [to_ushort, show (65536 : Nat) = 2 ^ 16 from rfl, Nat.testBit_mod_two_pow,
        Nat.testBit_and, show (0xFFFF : Nat) = 2 ^ 16 - 1 from rfl, Nat.testBit_shiftRight,
        Nat.testBit_two_pow_sub_one]
      have a1 : i < 16 := by omega
      have a2 : 16 - L + i < 16 := by omega
      simp [a1, a2]
    exact hbit _ (by omega)
  · intro p hp hd
    rw [hrb, r6 p hp hd, f1]

/-- The insertion loop leaves through its own condition within `length`
iterations, from every state: fuel beyond `length` is never used. -/
theorem insert_loop_fuel (fuel : Nat) :
    ∀ (extra : Nat) (s : reach_bitmap) (v : Nat) (L : Int), L ≤ fuel →
      insert_loop (fuel + extra) s v L = insert_loop fuel s v L := by
  induction fuel with
  | zero =>
    intro extra s v L hL
    cases extra with
    | zero => rfl
    | succ n =>
      have h0 : ¬ L > 0 := by omega
      rw [Nat.zero_add, insert_loop, insert_loop, if_neg h0]
  | succ fuel ih =>
    intro extra s v L hL
    have hf : fuel + 1 + extra = (fuel + extra) + 1 := by omega
    rw [hf, insert_loop, insert_loop]
    by_cases hpos : L > 0
    · rw [if_pos hpos, if_pos hpos]
      dsimp only
      apply ih
      have ht := Int.tmod_lt_of_pos s.end_ (by decide : (0 : Int) < 8)
      split_ifs <;> omega
    · rw [if_neg hpos, if_neg hpos]

/-! ## The invariant -/

theorem Inv.nat {s : reach_bitmap} (h : Inv s) :
    ∃ b e : Nat, s.begin = b ∧ s.end_ = e ∧ b < 160 ∧ e < 160 ∧
      s.count = (((e + 160 - b) % 160 : Nat) : Int) ∧ (e + 160 - b) % 160 ≤ 128 := by
  obtain ⟨_, h1, h2, h3, h4, h5, h6, _⟩ := h
  refine ⟨s.begin.toNat, s.end_.toNat, by omega, by omega, by omega, by omega, ?_, ?_⟩
  · rw [h5]
    omega
  · omega

theorem stored_nat (s : reach_bitmap) (b c : Nat) (hb : s.begin = b) (hc : s.count = c) :
    stored s = window (ring_bit s) b c := by
  unfold stored
  rw [hb, hc, Int.toNat_ofNat, Int.toNat_ofNat]

theorem Inv.of_nat (s : reach_bitmap) (b e : Nat) (hs : byte_typed s) (hb : s.begin = b)
    (he : s.end_ = e) (hb160 : b < 160) (he160 : e < 160)
    (hc : s.count = (((e + 160 - b) % 160 : Nat) : Int)) (hc128 : (e + 160 - b) % 160 ≤ 128)
    (hcs : s.count_set =
      (((window (ring_bit s) b ((e + 160 - b) % 160)).count true : Nat) : Int)) : Inv s := by
  refine ⟨hs, by omega, by omega, by omega, by omega, ?_, by omega, ?_⟩
  · rw [hc, hb, he]
    omega
  · rw [stored_nat s b _ hb hc, hcs]

theorem Inv.count_set_nat {s : reach_bitmap} (h : Inv s) (b c : Nat) (hb : s.begin = b)
    (hc : s.count = c) :
    s.count_set = (((window (ring_bit s) b c).count true : Nat) : Int) := by
  rw [h.count_set_eq, stored_nat s b c hb hc]

/-- Bit `i` of `reach_bitmap_get_mask` is read off the list of stored bits,
counted from its newest end. -/
theorem get_mask_stored (s : reach_bitmap) (h : Inv s) (m i : Nat) :
    (reach_bitmap_get_mask s m).testBit i =
      (decide (i < 16) && m.testBit i && ((stored s).reverse[i]?).getD false) := by
  obtain ⟨b, e, hb, he, hb160, he160, hc, hc128⟩ := h.nat
  rw [get_mask_testBit s e _ h.bytes he he160 hc hc128, stored_nat s b _ hb hc]
  by_cases hi : i < (e + 160 - b) % 160
  · rw [List.getElem?_reverse (by rw [window_length]; exact hi), window_length, window_getElem?,
      if_pos (by omega)]
    have hp : (b + ((e + 160 - b) % 160 - 1 - i)) % 160 = (e + 159 - i) % 160 := by omega
    rw [hp]
    simp only [hi, decide_True, Bool.and_true, Option.getD_some]
  · rw [List.getElem?_eq_none (by rw [List.length_reverse, window_length]; omega)]
    simp [hi]

/-! ## Pushing, on the list of stored bits -/

/-- An in-range push appends the low `L` bits of the value, most significant
first, and drops the `count + L - 128` oldest bits. -/
theorem push_stored (s : reach_bitmap) (h : Inv s) (v L : Nat) (h1 : 1 ≤ L) (h16 : L ≤ 16) :
    stored (reach_bitmap_push_new s v (L : Int)) =
      (stored s ++ value_bits v L).drop (s.count.toNat + L - 128) := by
  obtain ⟨b, e, hb, he, hb160, he160, hc, hc128⟩ := h.nat
  obtain ⟨p1, p2, p3, p4, p5, p6, p7⟩ :=
    push_spec s b e v L h.bytes hb he hb160 he160 hc128 h1 h16
  generalize reach_bitmap_push_new s v (L : Int) = s' at *
  rw [stored_nat _ _ _ p1 p3, stored_nat s b _ hb hc, hc, Int.toNat_ofNat]
  generalize hcc : (e + 160 - b) % 160 = c at *
  apply List.ext_getElem?
  intro j
  rw [window_getElem?, List.getElem?_drop, List.getElem?_append, window_length,
    window_getElem?, value_bits_getElem?]
  have hp160 : ((b + (c + L - 128)) % 160 + j) % 160 < 160 := Nat.mod_lt _ (by decide)
  clear p1 p2 p3 p4 p5 hb he hc h
  by_cases hj : j < c + L - (c + L - 128)
  · rw [if_pos hj]
    by_cases hk : c + L - 128 + j < c
    · have hd : L + 7 ≤ (((b + (c + L - 128)) % 160 + j) % 160 + 160 - e) % 160 := by
        clear p6 p7
        omega
      have hq : ((b + (c + L - 128)) % 160 + j) % 160 = (b + (c + L - 128 + j)) % 160 := by
        clear p6 p7
        omega
      rw [if_pos hk, if_pos hk, p7 _ hp160 hd, hq]
    · have hd : (((b + (c + L - 128)) % 160 + j) % 160 + 160 - e) % 160 < L := by
        clear p6 p7
        omega
      have hq : L - 1 - (((b + (c + L - 128)) % 160 + j) % 160 + 160 - e) % 160 =
          L - 1 - (c + L - 128 + j - c) := by
        clear p6 p7
        omega
      have hlt : c + L - 128 + j - c < L := by
        clear p6 p7
        omega
      rw [if_neg hk, if_pos hlt, p6 _ hp160 hd, hq]
  · have a1 : ¬ c + L - 128 + j < c := by
      clear p6 p7
      omega
    have a2 : ¬ c + L - 128 + j - c < L := by
      clear p6 p7
      omega
    rw [if_neg hj, if_neg a1, if_neg a2]

theorem push_inv_nat (s : reach_bitmap) (h : Inv s) (v L : Nat) (h1 : 1 ≤ L) (h16 : L ≤ 16) :
    Inv (reach_bitmap_push_new s v (L : Int)) := by
  have hst := push_stored s h v L h1 h16
  obtain ⟨b, e, hb, he, hb160, he160, hc, hc128⟩ := h.nat
  obtain ⟨p1, p2, p3, p4, p5, p6, p7⟩ :=
    push_spec s b e v L h.bytes hb he hb160 he160 hc128 h1 h16
  have hcs := h.count_set_nat b _ hb hc
  generalize reach_bitmap_push_new s v (L : Int) = s' at *
  refine ⟨p5, by omega, by omega, by omega, by omega, ?_, by omega, ?_⟩
  · rw [p3, p1, p2]
    omega
  · rw [hst, p4, hcs, stored_nat s b _ hb hc, hc, Int.toNat_ofNat]
    generalize hcc : (e + 160 - b) % 160 = c at *
    rw [List.drop_append_of_le_length (by rw [window_length]; omega), List.count_append]
    have hsplit : (window (ring_bit s) b c).count true =
        ((window (ring_bit s) b c).take (c + L - 128)).count true +
        ((window (ring_bit s) b c).drop (c + L - 128)).count true := by
      rw [← List.count_append, List.take_append_drop]
    rw [window_take _ _ _ _ (by omega)] at hsplit
    rw [hsplit]
    push_cast
    ring

theorem push_inv (s : reach_bitmap) (h : Inv s) (v : Nat) (L : Int) (hl : is_int L) :
    Inv (reach_bitmap_push_new s v L) := by
  by_cases hr : L ≤ 0 ∨ 16 < L
  · rw [push_new_noop s v L hl hr]
    exact h
  · obtain ⟨n, rfl⟩ := Int.eq_ofNat_of_zero_le (by omega : 0 ≤ L)
    exact push_inv_nat s h v n (by omega) (by omega)

/-! ## `reach_bitmap_init` -/

theorem init_fields (s : reach_bitmap) :
    (reach_bitmap_init s).bitmap = s.bitmap ∧ (reach_bitmap_init s).begin = 0 ∧
    (reach_bitmap_init s).end_ = 0 ∧ (reach_bitmap_init s).count = 0 ∧
    (reach_bitmap_init s).count_set = 0 := by
  simp only [reach_bitmap_init]
  refine ⟨update_ends_bitmap _, update_ends_begin _, update_ends_end _, ?_, update_ends_count_set _⟩
  rw [update_ends_count_nat _ 0 0 rfl rfl (by decide) (by decide)]
  rfl

theorem init_inv (s : reach_bitmap) (h : byte_typed s) : Inv (reach_bitmap_init s) := by
  obtain ⟨f1, f2, f3, f4, f5⟩ := init_fields s
  refine ⟨?_, by omega, by omega, by omega, by omega, ?_, by omega, ?_⟩
  · intro i
    rw [f1]
    exact h i
  · rw [f4, f2, f3]
    rfl
  · rw [f5, stored_nat _ 0 0 f2 f4]
    rfl

/-! ## `reach_bitmap_pop_new` on ring indices -/

theorem pop_spec (s : reach_bitmap) (b e n : Nat) (length : Int) (hb : s.begin = b)
    (he : s.end_ = e) (hb160 : b < 160) (he160 : e < 160)
    (hc : s.count = (((e + 160 - b) % 160 : Nat) : Int))
    (hn : (if s.count < length then s.count else length).toNat = n) :
    n ≤ (e + 160 - b) % 160 ∧
    (reach_bitmap_pop_new s length).begin = s.begin ∧
    (reach_bitmap_pop_new s length).end_ = (((e + 160 - n) % 160 : Nat) : Int) ∧
    (reach_bitmap_pop_new s length).count = ((((e + 160 - b) % 160 - n : Nat)) : Int) ∧
    (reach_bitmap_pop_new s length).bitmap = s.bitmap ∧
    (reach_bitmap_pop_new s length).count_set =
      s.count_set -
        (((window (ring_bit s) ((e + 160 - n) % 160) n).count true : Nat) : Int) := by
  have hle : n ≤ (e + 160 - b) % 160 := by
    rw [← hn, hc]
    split_ifs <;> omega
  have hp := pop_loop_spec n s e he he160 (by omega)
  have hpb : (pop_loop n s).begin = s.begin := by rw [hp]
  have hpe : (pop_loop n s).end_ = (((e + 160 - n) % 160 : Nat) : Int) := by rw [hp]
  have hpm : (pop_loop n s).bitmap = s.bitmap := by rw [hp]
  have hpc : (pop_loop n s).count_set = s.count_set -
      (((window (ring_bit s) ((e + 160 - n) % 160) n).count true : Nat) : Int) := by rw [hp]
  simp only [reach_bitmap_pop_new, hn]
  generalize pop_loop n s = s1 at *
  refine ⟨hle, ?_, ?_, ?_, ?_, ?_⟩
  · rw [update_ends_begin, hpb]
  · rw [update_ends_end, hpe]
  · rw [update_ends_count_nat s1 b ((e + 160 - n) % 160) (hpb.trans hb) hpe hb160
      (Nat.mod_lt _ (by decide))]
    omega
  · rw [update_ends_bitmap, hpm]
  · rw [update_ends_count_set, hpc]

/-- A pop removes the `n` newest stored bits. -/
theorem pop_stored (s : reach_bitmap) (h : Inv s) (length : Int) :
    stored (reach_bitmap_pop_new s length) =
      (stored s).take
        (s.count.toNat - (if s.count < length then s.count else length).toNat) := by
  obtain ⟨b, e, hb, he, hb160, he160, hc, hc128⟩ := h.nat
  obtain ⟨q0, q1, q2, q3, q4, q5⟩ := pop_spec s b e _ length hb he hb160 he160 hc rfl
  generalize (if s.count < length then s.count else length).toNat = n at *
  generalize reach_bitmap_pop_new s length = s' at *
  have hrb : ring_bit s' = ring_bit s := by
    funext p
    unfold ring_bit
    rw [q4]
  rw [stored_nat _ b _ (q1.trans hb) q3, stored_nat s b _ hb hc, hc, Int.toNat_ofNat, hrb,
    window_take _ _ _ _ (by omega)]

theorem pop_inv (s : reach_bitmap) (h : Inv s) (length : Int) :
    Inv (reach_bitmap_pop_new s length) := by
  obtain ⟨b, e, hb, he, hb160, he160, hc, hc128⟩ := h.nat
  obtain ⟨q0, q1, q2, q3, q4, q5⟩ := pop_spec s b e _ length hb he hb160 he160 hc rfl
  have hcs := h.count_set_nat b _ hb hc
  generalize (if s.count < length then s.count else length).toNat = n at *
  generalize reach_bitmap_pop_new s length = s' at *
  have hrb : ring_bit s' = ring_bit s := by
    funext p
    unfold ring_bit
    rw [q4]
  generalize hcc : (e + 160 - b) % 160 = c at *
  apply Inv.of_nat _ b ((e + 160 - n) % 160) _ (q1.trans hb) q2 hb160 (Nat.mod_lt _ (by decide))
  · rw [q3]
    omega
  · omega
  · have hcn : ((e + 160 - n) % 160 + 160 - b) % 160 = c - n := by omega
    rw [q5, hcs, hrb, hcn]
    have hsplit : (window (ring_bit s) b c).count true =
        ((window (ring_bit s) b c).take (c - n)).count true +
        ((window (ring_bit s) b c).drop (c - n)).count true := by
      rw [← List.count_append, List.take_append_drop]
    rw [window_take _ _ _ _ (by omega), window_drop,
      window_base_congr (ring_bit s) (b + (c - n)) ((e + 160 - n) % 160) (c - (c - n))
        (by omega)] at hsplit
    have hnn : c - (c - n) = n := by omega
    rw [hnn] at hsplit
    rw [hsplit]
    push_cast
    ring
  · intro i
    rw [q4]
    exact h.bytes i

/-- Every reachable history satisfies the data-model invariant. -/
theorem reachable_inv (s : reach_bitmap) (h : Reachable s) : Inv s := by
  induction h with
  | init s0 h0 => exact init_inv s0 h0
  | push s v L hl _ ih => exact push_inv s ih v L hl
  | pop s L _ ih => exact pop_inv s ih L

/-! ## Empty histories -/

theorem get_mask_empty (s : reach_bitmap) (h : s.count = 0) (m : Nat) :
    reach_bitmap_get_mask s m = 0 := by
  unfold reach_bitmap_get_mask
  rw [if_pos h]

theorem two_three_empty (s : reach_bitmap) (h : s.count = 0) :
    reach_bitmap_two_three s = false := by
  unfold reach_bitmap_two_three at_rel
  rw [h]
  simp

theorem get_mask_congr (s t : reach_bitmap) (h1 : s.bitmap = t.bitmap) (h2 : s.end_ = t.end_)
    (h3 : s.count = t.count) (m : Nat) :
    reach_bitmap_get_mask s m = reach_bitmap_get_mask t m := by
  unfold reach_bitmap_get_mask
  rw [h1, h2, h3]

/-- After `update_ends`, `old_reach` is the result of the four swap steps on
`reach_bitmap_get_mask(bitmap, 0xFFFF)`. -/
theorem update_ends_old_reach (s : reach_bitmap) :
    (update_ends s).old_reach = swap_bits (reach_bitmap_get_mask (update_ends s) 0xFFFF) := by
  have h1 : (update_ends s).old_reach =
      swap_bits (reach_bitmap_get_mask (update_hex_ends (update_count s)) 0xFFFF) := by
    simp only [update_ends]
  have h2 : (update_ends s).bitmap = (update_hex_ends (update_count s)).bitmap := by
    simp only [update_ends]
  have h3 : (update_ends s).end_ = (update_hex_ends (update_count s)).end_ := by
    simp only [update_ends]
  have h4 : (update_ends s).count = (update_hex_ends (update_count s)).count := by
    simp only [update_ends]
  rw [h1, get_mask_congr _ _ h2 h3 h4]

theorem init_old_reach (s : reach_bitmap) : (reach_bitmap_init s).old_reach = 0 := by
  have h0 : (update_ends { s with begin := 0, end_ := 0, count_set := 0 }).count = 0 := by
    rw [update_ends_count_nat _ 0 0 rfl rfl (by decide) (by decide)]
    rfl
  simp only [reach_bitmap_init]
  rw [update_ends_old_reach, get_mask_empty _ h0]
  rfl

theorem zero_state_typed : byte_typed zero_state := fun _ => Nat.zero_lt_succ _

theorem is_int_small (L : Int) (h1 : 0 ≤ L) (h2 : L ≤ 1000) : is_int L := by
  unfold is_int
  omega

theorem inv_count_bounds (s : reach_bitmap) (inv : Inv s) :
    0 ≤ s.count_set ∧ s.count_set ≤ s.count ∧ s.count ≤ 128 := by
  obtain ⟨b, e, hb, he, hb160, he160, hc, hc128⟩ := inv.nat
  have hcs := inv.count_set_nat b _ hb hc
  have hle := List.count_le_length true (window (ring_bit s) b ((e + 160 - b) % 160))
  rw [window_length] at hle
  refine ⟨by omega, by omega, by omega⟩

/-! ## The claims C1 to C10 -/

/-- C1: after `reach_bitmap_init` followed by any finite sequence of
`reach_bitmap_push_new` and `reach_bitmap_pop_new` calls, the state satisfies
`0 ≤ count_set ≤ count ≤ 128`. -/
theorem C1_count_bounds (s : reach_bitmap) (h : Reachable s) :
    0 ≤ s.count_set ∧ s.count_set ≤ s.count ∧ s.count ≤ 128 :=
  inv_count_bounds s (reachable_inv s h)

/-- Witness of C1 on the history obtained from the zeroed memory by
`init`, `push_new(0x48, 8)`, `pop_new(3)`. -/
theorem C1_count_bounds_witness :
    0 ≤ (reach_bitmap_pop_new (reach_bitmap_push_new (reach_bitmap_init zero_state) 0x48 8)
        3).count_set ∧
    (reach_bitmap_pop_new (reach_bitmap_push_new (reach_bitmap_init zero_state) 0x48 8)
        3).count_set ≤
      (reach_bitmap_pop_new (reach_bitmap_push_new (reach_bitmap_init zero_state) 0x48 8)
        3).count ∧
    (reach_bitmap_pop_new (reach_bitmap_push_new (reach_bitmap_init zero_state) 0x48 8)
        3).count ≤ 128 :=
  C1_count_bounds _
    (Reachable.pop _ 3
      (Reachable.push _ 0x48 8 (is_int_small 8 (by decide) (by decide))
        (Reachable.init zero_state zero_state_typed)))

/-- C2: in every reachable state `count` equals `(end - begin) mod 160` and
`count_set` equals the number of 1 bits stored at the ring positions `begin`,
`begin + 1`, ..., `end - 1` (indices mod 160, bit `i` of the ring being bit
`7 - (i mod 8)` of `bitmap[i / 8]`). -/
theorem C2_count_and_count_set (s : reach_bitmap) (h : Reachable s) :
    s.count = (s.end_ - s.begin) % 160 ∧
    s.count_set =
      ((((List.range s.count.toNat).map
        (fun k => ring_bit s ((s.begin.toNat + k) % 160))).count true : Nat) : Int) := by
  have inv := reachable_inv s h
  exact ⟨inv.count_eq, inv.count_set_eq⟩

/-- Witness of C2 on the history obtained by `init`, `push_new(0x48, 8)`. -/
theorem C2_count_and_count_set_witness :
    (reach_bitmap_push_new (reach_bitmap_init zero_state) 0x48 8).count =
      ((reach_bitmap_push_new (reach_bitmap_init zero_state) 0x48 8).end_ -
        (reach_bitmap_push_new (reach_bitmap_init zero_state) 0x48 8).begin) % 160 ∧
    (reach_bitmap_push_new (reach_bitmap_init zero_state) 0x48 8).count_set =
      ((((List.range
          (reach_bitmap_push_new (reach_bitmap_init zero_state) 0x48 8).count.toNat).map
        (fun k => ring_bit (reach_bitmap_push_new (reach_bitmap_init zero_state) 0x48 8)
          (((reach_bitmap_push_new (reach_bitmap_init zero_state) 0x48 8).begin.toNat + k)
            % 160))).count true : Nat) : Int) :=
  C2_count_and_count_set _
    (Reachable.push _ 0x48 8 (is_int_small 8 (by decide) (by decide))
      (Reachable.init zero_state zero_state_typed))

/-- C3: for every reachable history and every `i` in `0..15`, bit `i` of
`reach_bitmap_get_mask(h, 0xFFFF)` is the stored bit at ring position
`(end - 1 - i) mod 160` when `i < count` and 0 when `i ≥ count`; the result has
no bit above bit 15, and it is 0 for every mask when `count == 0`. -/
theorem C3_get_mask_newest (s : reach_bitmap) (h : Reachable s) :
    (∀ i : Nat, i < 16 →
      (reach_bitmap_get_mask s 0xFFFF).testBit i =
        if (i : Int) < s.count then ring_bit s ((s.end_ - 1 - (i : Int)) % 160).toNat
        else false) ∧
    reach_bitmap_get_mask s 0xFFFF < 2 ^ 16 ∧
    (s.count = 0 → ∀ m, reach_bitmap_get_mask s m = 0) := by
  have inv := reachable_inv s h
  obtain ⟨b, e, hb, he, hb160, he160, hc, hc128⟩ := inv.nat
  refine ⟨?_, ?_, fun h0 m => get_mask_empty s h0 m⟩
  · intro i hi
    rw [get_mask_testBit s e _ inv.bytes he he160 hc hc128, hc, he,
      show (0xFFFF : Nat) = 2 ^ 16 - 1 from rfl, Nat.testBit_two_pow_sub_one]
    have hpos : (((e : Int) - 1 - (i : Int)) % 160).toNat = (e + 159 - i) % 160 := by omega
    rw [hpos]
    by_cases hic : i < (e + 160 - b) % 160
    · rw [if_pos (by omega)]
      simp [hi, hic]
    · rw [if_neg (by omega)]
      simp [hic]
  · apply Nat.lt_pow_two_of_testBit
    intro i hi
    rw [get_mask_testBit s e _ inv.bytes he he160 hc hc128]
    have : ¬ i < 16 := by omega
    simp [this]

/-- Witness of C3 on the history obtained by `init`, `push_new(0x48, 8)`. -/
theorem C3_get_mask_newest_witness :
    (∀ i : Nat, i < 16 →
      (reach_bitmap_get_mask (reach_bitmap_push_new (reach_bitmap_init zero_state) 0x48 8)
          0xFFFF).testBit i =
        if (i : Int) < (reach_bitmap_push_new (reach_bitmap_init zero_state) 0x48 8).count then
          ring_bit (reach_bitmap_push_new (reach_bitmap_init zero_state) 0x48 8)
            (((reach_bitmap_push_new (reach_bitmap_init zero_state) 0x48 8).end_ - 1 - (i : Int))
              % 160).toNat
        else false) ∧
    reach_bitmap_get_mask (reach_bitmap_push_new (reach_bitmap_init zero_state) 0x48 8) 0xFFFF
      < 2 ^ 16 ∧
    ((reach_bitmap_push_new (reach_bitmap_init zero_state) 0x48 8).count = 0 →
      ∀ m, reach_bitmap_get_mask (reach_bitmap_push_new (reach_bitmap_init zero_state) 0x48 8) m
        = 0) :=
  C3_get_mask_newest _
    (Reachable.push _ 0x48 8 (is_int_small 8 (by decide) (by decide))
      (Reachable.init zero_state zero_state_typed))

/-- C4: with the history viewed as the list of stored bits from oldest to
newest, an in-range push (`1 ≤ length ≤ 16`) on a reachable history leaves the
last 128 elements of the old list followed by bit `length - 1`, ..., bit 1,
bit 0 of the value, so eviction is oldest first; and in every reachable
history `reach_bitmap_get_mask` is read off the list of stored bits from its
newest end, so a bit that was evicted is in no later result. -/
theorem C4_push_fifo (s : reach_bitmap) (h : Reachable s) (v : Nat) (L : Int) (h1 : 1 ≤ L)
    (h16 : L ≤ 16) :
    stored (reach_bitmap_push_new s v L) =
      (stored s ++ value_bits v L.toNat).drop
        ((stored s ++ value_bits v L.toNat).length - 128) ∧
    (∀ t : reach_bitmap, Reachable t → ∀ m i : Nat,
      (reach_bitmap_get_mask t m).testBit i =
        (decide (i < 16) && m.testBit i && ((stored t).reverse[i]?).getD false)) := by
  have inv := reachable_inv s h
  refine ⟨?_, fun t ht m i => get_mask_stored t (reachable_inv t ht) m i⟩
  obtain ⟨n, rfl⟩ := Int.eq_ofNat_of_zero_le (by omega : 0 ≤ L)
  rw [push_stored s inv v n (by omega) (by omega), Int.toNat_ofNat, List.length_append,
    value_bits_length]
  unfold stored
  rw [window_length]

/-- Witness of C4: `push_new(0x2ac, 11)` after `init`, `push_new(0x48, 8)`. -/
theorem C4_push_fifo_witness :
    stored (reach_bitmap_push_new
        (reach_bitmap_push_new (reach_bitmap_init zero_state) 0x48 8) 0x2ac 11) =
      (stored (reach_bitmap_push_new (reach_bitmap_init zero_state) 0x48 8) ++
          value_bits 0x2ac (11 : Int).toNat).drop
        ((stored (reach_bitmap_push_new (reach_bitmap_init zero_state) 0x48 8) ++
          value_bits 0x2ac (11 : Int).toNat).length - 128) ∧
    (∀ t : reach_bitmap, Reachable t → ∀ m i : Nat,
      (reach_bitmap_get_mask t m).testBit i =
        (decide (i < 16) && m.testBit i && ((stored t).reverse[i]?).getD false)) :=
  C4_push_fifo _
    (Reachable.push _ 0x48 8 (is_int_small 8 (by decide) (by decide))
      (Reachable.init zero_state zero_state_typed))
    0x2ac 11 (by decide) (by decide)

/-- C5: for every reachable history and every length with `1 ≤ length ≤ 16`,
the count after `reach_bitmap_push_new(value, length)` is
`min(count_before + length, 128)`; once `count + length ≥ 128` the count is
exactly 128 and stays 128 under further in-range pushes. -/
theorem C5_push_count (s : reach_bitmap) (h : Reachable s) (v : Nat) (L : Int) (h1 : 1 ≤ L)
    (h16 : L ≤ 16) :
    (reach_bitmap_push_new s v L).count = min (s.count + L) 128 ∧
    (128 ≤ s.count + L →
      (reach_bitmap_push_new s v L).count = 128 ∧
      ∀ (v2 : Nat) (L2 : Int), 1 ≤ L2 → L2 ≤ 16 →
        (reach_bitmap_push_new (reach_bitmap_push_new s v L) v2 L2).count = 128) := by
  have key : ∀ (t : reach_bitmap), Inv t → ∀ (w : Nat) (K : Int), 1 ≤ K → K ≤ 16 →
      (reach_bitmap_push_new t w K).count = min (t.count + K) 128 := by
    intro t inv w K k1 k16
    obtain ⟨b, e, hb, he, hb160, he160, hc, hc128⟩ := inv.nat
    obtain ⟨n, rfl⟩ := Int.eq_ofNat_of_zero_le (by omega : 0 ≤ K)
    obtain ⟨p1, p2, p3, p4, p5, p6, p7⟩ :=
      push_spec t b e w n inv.bytes hb he hb160 he160 hc128 (by omega) (by omega)
    rw [p3, hc]
    omega
  have inv := reachable_inv s h
  have inv1 := push_inv s inv v L (is_int_small L (by omega) (by omega))
  have hk := key s inv v L h1 h16
  refine ⟨hk, fun hfull => ⟨by omega, ?_⟩⟩
  intro v2 L2 k1 k16
  rw [key _ inv1 v2 L2 k1 k16, hk]
  omega

/-- Witness of C5: `push_new(0x2ac, 11)` after `init`, `push_new(0x48, 8)`. -/
theorem C5_push_count_witness :
    (reach_bitmap_push_new
        (reach_bitmap_push_new (reach_bitmap_init zero_state) 0x48 8) 0x2ac 11).count =
      min ((reach_bitmap_push_new (reach_bitmap_init zero_state) 0x48 8).count + 11) 128 ∧
    (128 ≤ (reach_bitmap_push_new (reach_bitmap_init zero_state) 0x48 8).count + 11 →
      (reach_bitmap_push_new
        (reach_bitmap_push_new (reach_bitmap_init zero_state) 0x48 8) 0x2ac 11).count = 128 ∧
      ∀ (v2 : Nat) (L2 : Int), 1 ≤ L2 → L2 ≤ 16 →
        (reach_bitmap_push_new
          (reach_bitmap_push_new
            (reach_bitmap_push_new (reach_bitmap_init zero_state) 0x48 8) 0x2ac 11)
          v2 L2).count = 128) :=
  C5_push_count _
    (Reachable.push _ 0x48 8 (is_int_small 8 (by decide) (by decide))
      (Reachable.init zero_state zero_state_typed))
    0x2ac 11 (by decide) (by decide)

/-- C6: for every reachable history with `g = get_mask(0xFFFF)` before the
call, every value and every length with `1 ≤ length ≤ 16`, after
`reach_bitmap_push_new(value, length)` the result of `get_mask(m)` is
`(((g << length) | (value & (2^length - 1))) mod 2^16) & m` for every mask
`m`. -/
theorem C6_push_shift_register (s : reach_bitmap) (h : Reachable s) (v : Nat) (L : Int)
    (h1 : 1 ≤ L) (h16 : L ≤ 16) (m : Nat) :
    reach_bitmap_get_mask (reach_bitmap_push_new s v L) m =
      (((reach_bitmap_get_mask s 0xFFFF <<< L.toNat) ||| (v &&& (2 ^ L.toNat - 1))) % 2 ^ 16)
        &&& m := by
  have inv := reachable_inv s h
  obtain ⟨b, e, hb, he, hb160, he160, hc, hc128⟩ := inv.nat
  obtain ⟨n, rfl⟩ := Int.eq_ofNat_of_zero_le (by omega : 0 ≤ L)
  obtain ⟨p1, p2, p3, p4, p5, p6, p7⟩ :=
    push_spec s b e v n inv.bytes hb he hb160 he160 hc128 (by omega) (by omega)
  have hg := get_mask_testBit s e _ inv.bytes he he160 hc hc128 0xFFFF
  generalize reach_bitmap_get_mask s 0xFFFF = g at *
  have hm := get_mask_testBit (reach_bitmap_push_new s v (n : Int)) ((e + n) % 160) _ p5 p2
    (Nat.mod_lt _ (by decide)) p3 (by omega) m
  generalize reach_bitmap_push_new s v (n : Int) = s' at *
  rw [Int.toNat_ofNat]
  apply Nat.eq_of_testBit_eq
  intro i
  rw [hm, Nat.testBit_and, Nat.testBit_mod_two_pow, Nat.testBit_or, Nat.testBit_shiftLeft,
    Nat.testBit_and, Nat.testBit_two_pow_sub_one, hg,
    show (0xFFFF : Nat) = 2 ^ 16 - 1 from rfl, Nat.testBit_two_pow_sub_one]
  clear hm hg p1 p2 p3 p4 p5 hb he hc inv h
  generalize hcc : (e + 160 - b) % 160 = c at *
  by_cases hi : i < 16
  swap
  · simp [hi]
  by_cases hin : i < n
  · have hpos : (((e + n) % 160 + 159 - i) % 160 + 160 - e) % 160 < n := by
      clear p6 p7
      omega
    have hidx : n - 1 - (((e + n) % 160 + 159 - i) % 160 + 160 - e) % 160 = i := by
      clear p6 p7
      omega
    have hlt : i < c + n - (c + n - 128) := by
      clear p6 p7
      omega
    have hge : ¬ i ≥ n := by omega
    rw [p6 _ (Nat.mod_lt _ (by decide)) hpos, hidx]
    simp [hi, hin, hlt, hge]
    cases m.testBit i <;> simp
  · have hpos : n + 7 ≤ (((e + n) % 160 + 159 - i) % 160 + 160 - e) % 160 := by
      clear p6 p7
      omega
    have hidx : ((e + n) % 160 + 159 - i) % 160 = (e + 159 - (i - n)) % 160 := by
      clear p6 p7
      omega
    have hge : i ≥ n := by omega
    have h16' : i - n < 16 := by omega
    rw [p7 _ (Nat.mod_lt _ (by decide)) hpos, hidx]
    by_cases hic : i - n < c
    · have hlt : i < c + n - (c + n - 128) := by
        clear p6 p7
        omega
      simp [hi, hin, hlt, hge, h16', hic]
      cases m.testBit i <;> simp
    · have hlt : ¬ i < c + n - (c + n - 128) := by
        clear p6 p7
        omega
      simp [hi, hin, hlt, hge, h16', hic]

/-- Witness of C6: `push_new(0x2ac, 11)` after `init`, `push_new(0x48, 8)`,
read with the mask `0xFFFF`. -/
theorem C6_push_shift_register_witness :
    reach_bitmap_get_mask
        (reach_bitmap_push_new
          (reach_bitmap_push_new (reach_bitmap_init zero_state) 0x48 8) 0x2ac 11) 0xFFFF =
      (((reach_bitmap_get_mask (reach_bitmap_push_new (reach_bitmap_init zero_state) 0x48 8)
            0xFFFF <<< (11 : Int).toNat) ||| (0x2ac &&& (2 ^ (11 : Int).toNat - 1))) % 2 ^ 16)
        &&& 0xFFFF :=
  C6_push_shift_register _
    (Reachable.push _ 0x48 8 (is_int_small 8 (by decide) (by decide))
      (Reachable.init zero_state zero_state_typed))
    0x2ac 11 (by decide) (by decide) 0xFFFF

/-- C7: for every reachable history and every length,
`reach_bitmap_pop_new(length)` removes exactly the newest
`min(max(length, 0), count)` bits: `begin` is unchanged, `count` drops by that
number, the remaining stored bits (oldest first) are the old list without that
many elements at its newest end; when `length ≥ count` the history becomes
empty (`count = 0`, `count_set = 0`, `get_mask = 0` for every mask, `two_three`
false); and popping an empty history leaves it empty. -/
theorem C7_pop_newest (s : reach_bitmap) (h : Reachable s) (L : Int) :
    (reach_bitmap_pop_new s L).begin = s.begin ∧
    (reach_bitmap_pop_new s L).count = s.count - min (max L 0) s.count ∧
    stored (reach_bitmap_pop_new s L) =
      (stored s).take ((stored s).length - (min (max L 0) s.count).toNat) ∧
    (s.count ≤ L →
      (reach_bitmap_pop_new s L).count = 0 ∧ (reach_bitmap_pop_new s L).count_set = 0 ∧
      (∀ m, reach_bitmap_get_mask (reach_bitmap_pop_new s L) m = 0) ∧
      reach_bitmap_two_three (reach_bitmap_pop_new s L) = false) ∧
    (s.count = 0 →
      (reach_bitmap_pop_new s L).count = 0 ∧ (reach_bitmap_pop_new s L).count_set = 0) := by
  have inv := reachable_inv s h
  have hst := pop_stored s inv L
  have c1 := inv_count_bounds (reach_bitmap_pop_new s L) (pop_inv s inv L)
  obtain ⟨b, e, hb, he, hb160, he160, hc, hc128⟩ := inv.nat
  obtain ⟨q0, q1, q2, q3, q4, q5⟩ := pop_spec s b e _ L hb he hb160 he160 hc rfl
  have hn : (if s.count < L then s.count else L).toNat = (min (max L 0) s.count).toNat := by
    rw [hc]
    split_ifs <;> omega
  have hlen : (stored s).length = s.count.toNat := by
    unfold stored
    rw [window_length]
  rw [hn] at hst q3 q0
  rw [hlen]
  generalize reach_bitmap_pop_new s L = s' at *
  have hcount : s'.count = s.count - min (max L 0) s.count := by
    rw [q3, hc]
    omega
  refine ⟨q1, hcount, hst, ?_, ?_⟩
  · intro hfull
    have h0 : s'.count = 0 := by
      rw [hcount]
      omega
    exact ⟨h0, by omega, fun m => get_mask_empty s' h0 m, two_three_empty s' h0⟩
  · intro hempty
    have h0 : s'.count = 0 := by
      rw [hcount]
      omega
    exact ⟨h0, by omega⟩

/-- Witness of C7: `pop_new(6)` after `init`, `push_new(0x48, 8)`,
`push_new(0, 5)`. -/
theorem C7_pop_newest_witness :
    (reach_bitmap_pop_new
      (reach_bitmap_push_new (reach_bitmap_push_new (reach_bitmap_init zero_state) 0x48 8) 0 5)
      6).count = 7 :=
  (C7_pop_newest
    (reach_bitmap_push_new (reach_bitmap_push_new (reach_bitmap_init zero_state) 0x48 8) 0 5)
    (Reachable.push _ 0 5 (is_int_small 5 (by decide) (by decide))
      (Reachable.push _ 0x48 8 (is_int_small 8 (by decide) (by decide))
        (Reachable.init zero_state zero_state_typed)))
    6).2.1.trans (by decide)

/-- C8: for every reachable history, every value and every length with
`1 ≤ length ≤ 16` and `count + length ≤ 128` (no eviction),
`reach_bitmap_push_new(value, length)` followed by
`reach_bitmap_pop_new(length)` restores `begin`, `end`, `count` and
`count_set`, and `get_mask(m)` returns its prior result for every mask. -/
theorem C8_push_pop_roundtrip (s : reach_bitmap) (h : Reachable s) (v : Nat) (L : Int)
    (h1 : 1 ≤ L) (h16 : L ≤ 16) (hroom : s.count + L ≤ 128) :
    (reach_bitmap_pop_new (reach_bitmap_push_new s v L) L).begin = s.begin ∧
    (reach_bitmap_pop_new (reach_bitmap_push_new s v L) L).end_ = s.end_ ∧
    (reach_bitmap_pop_new (reach_bitmap_push_new s v L) L).count = s.count ∧
    (reach_bitmap_pop_new (reach_bitmap_push_new s v L) L).count_set = s.count_set ∧
    (∀ m, reach_bitmap_get_mask (reach_bitmap_pop_new (reach_bitmap_push_new s v L) L) m =
      reach_bitmap_get_mask s m) := by
  have inv := reachable_inv s h
  have inv1 := push_inv s inv v L (is_int_small L (by omega) (by omega))
  have inv2 := pop_inv _ inv1 L
  have hst2 := pop_stored _ inv1 L
  obtain ⟨b, e, hb, he, hb160, he160, hc, hc128⟩ := inv.nat
  obtain ⟨n, rfl⟩ := Int.eq_ofNat_of_zero_le (by omega : 0 ≤ L)
  have hst1 := push_stored s inv v n (by omega) (by omega)
  obtain ⟨p1, p2, p3, p4, p5, p6, p7⟩ :=
    push_spec s b e v n inv.bytes hb he hb160 he160 hc128 (by omega) (by omega)
  have hk : (e + 160 - b) % 160 + n - 128 = 0 := by omega
  rw [hk] at p1 p3
  have hb1 : (reach_bitmap_push_new s v (n : Int)).begin = (b : Int) := by
    rw [p1]
    omega
  have hc1 : (reach_bitmap_push_new s v (n : Int)).count =
      ((((e + n) % 160 + 160 - b) % 160 : Nat) : Int) := by
    rw [p3]
    omega
  obtain ⟨q0, q1, q2, q3, q4, q5⟩ :=
    pop_spec (reach_bitmap_push_new s v (n : Int)) b ((e + n) % 160) n (n : Int) hb1 p2 hb160
      (Nat.mod_lt _ (by decide)) hc1 (by rw [p3]; split_ifs <;> omega)
  have hl : (if (reach_bitmap_push_new s v (n : Int)).count < (n : Int) then
      (reach_bitmap_push_new s v (n : Int)).count else (n : Int)).toNat = n := by
    rw [p3]
    split_ifs <;> omega
  rw [hl, hst1, p3, hc] at hst2
  have hdrop : (e + 160 - b) % 160 + n - 128 = 0 := hk
  have hst : stored (reach_bitmap_pop_new (reach_bitmap_push_new s v (n : Int)) (n : Int)) =
      stored s := by
    rw [hst2]
    simp only [Int.toNat_ofNat]
    rw [hdrop, List.drop_zero]
    have hlen : (stored s).length = (e + 160 - b) % 160 := by
      unfold stored
      rw [window_length, hc, Int.toNat_ofNat]
    have : (e + 160 - b) % 160 + n - 0 - n = (stored s).length := by omega
    rw [this, List.take_left]
  have hcs2 := inv2.count_set_eq
  rw [hst, ← inv.count_set_eq] at hcs2
  generalize reach_bitmap_pop_new (reach_bitmap_push_new s v (n : Int)) (n : Int) = s2 at *
  generalize reach_bitmap_push_new s v (n : Int) = s1 at *
  refine ⟨by rw [q1, hb1, hb], by rw [q2, he]; omega, by rw [q3, hc]; omega, hcs2, ?_⟩
  intro m
  apply Nat.eq_of_testBit_eq
  intro i
  rw [get_mask_stored s2 inv2, get_mask_stored s inv, hst]

/-- Witness of C8: `push_new(0x2ac, 11)` then `pop_new(11)` after `init`,
`push_new(0x48, 8)`. -/
theorem C8_push_pop_roundtrip_witness :
    (reach_bitmap_pop_new
      (reach_bitmap_push_new (reach_bitmap_push_new (reach_bitmap_init zero_state) 0x48 8)
        0x2ac 11) 11).count_set =
      (reach_bitmap_push_new (reach_bitmap_init zero_state) 0x48 8).count_set :=
  (C8_push_pop_roundtrip (reach_bitmap_push_new (reach_bitmap_init zero_state) 0x48 8)
    (Reachable.push _ 0x48 8 (is_int_small 8 (by decide) (by decide))
      (Reachable.init zero_state zero_state_typed))
    0x2ac 11 (by decide) (by decide) (by decide)).2.2.2.1

/-- C9: from every prior state whatsoever, `reach_bitmap_init` yields
`begin = end = 0`, `count = 0`, `count_set = 0` and `old_reach = 0`, after
which `get_mask` returns 0 for every mask and `two_three` returns false. -/
theorem C9_init_resets (s0 : reach_bitmap) :
    (reach_bitmap_init s0).begin = 0 ∧ (reach_bitmap_init s0).end_ = 0 ∧
    (reach_bitmap_init s0).count = 0 ∧ (reach_bitmap_init s0).count_set = 0 ∧
    (reach_bitmap_init s0).old_reach = 0 ∧
    (∀ m, reach_bitmap_get_mask (reach_bitmap_init s0) m = 0) ∧
    reach_bitmap_two_three (reach_bitmap_init s0) = false := by
  obtain ⟨f1, f2, f3, f4, f5⟩ := init_fields s0
  exact ⟨f2, f3, f4, f5, init_old_reach s0, fun m => get_mask_empty _ f4 m,
    two_three_empty _ f4⟩

/-- C10: for every state, every value and every `int` length with
`length ≤ 0` or `length > 16`, `reach_bitmap_push_new(value, length)` leaves the
entire state unchanged. -/
theorem C10_push_out_of_range (s : reach_bitmap) (v : Nat) (L : Int) (hl : is_int L)
    (h : L ≤ 0 ∨ 16 < L) : reach_bitmap_push_new s v L = s :=
  push_new_noop s v L hl h

/-- Witness of C10: a push of length 17 on the history obtained by `init`,
`push_new(0x48, 8)`. -/
theorem C10_push_out_of_range_witness :
    reach_bitmap_push_new (reach_bitmap_push_new (reach_bitmap_init zero_state) 0x48 8)
        0xFFFF 17 =
      reach_bitmap_push_new (reach_bitmap_init zero_state) 0x48 8 :=
  C10_push_out_of_range _ 0xFFFF 17 (is_int_small 17 (by decide) (by decide))
    (Or.inr (by decide))

/-! ## Masks -/

theorem ushort_and_mask (r m : Nat) : to_ushort (r &&& 0xFFFF) &&& m = to_ushort (r &&& m) := by
  apply Nat.eq_of_testBit_eq
  intro i
  rw [Nat.testBit_and, to_ushort, to_ushort, show (65536 : Nat) = 2 ^ 16 from rfl,
    Nat.testBit_mod_two_pow, Nat.testBit_mod_two_pow, Nat.testBit_and, Nat.testBit_and,
    show (0xFFFF : Nat) = 2 ^ 16 - 1 from rfl, Nat.testBit_two_pow_sub_one]
  cases decide (i < 16) <;> cases r.testBit i <;> cases m.testBit i <;> rfl

/-- In-range push and `reach_bitmap_get_mask`: the 16-bit view shifts left by
the length and takes the low bits of the value. -/
theorem push_get_mask (s : reach_bitmap) (inv : Inv s) (v n : Nat) (h1 : 1 ≤ n) (h16 : n ≤ 16)
    (m : Nat) :
    reach_bitmap_get_mask (reach_bitmap_push_new s v (n : Int)) m =
      (((reach_bitmap_get_mask s 0xFFFF <<< n) ||| (v &&& (2 ^ n - 1))) % 2 ^ 16) &&& m := by
  obtain ⟨b, e, hb, he, hb160, he160, hc, hc128⟩ := inv.nat
  obtain ⟨p1, p2, p3, p4, p5, p6, p7⟩ :=
    push_spec s b e v n inv.bytes hb he hb160 he160 hc128 h1 h16
  have hg := get_mask_testBit s e _ inv.bytes he he160 hc hc128 0xFFFF
  generalize reach_bitmap_get_mask s 0xFFFF = g at *
  have hm := get_mask_testBit (reach_bitmap_push_new s v (n : Int)) ((e + n) % 160) _ p5 p2
    (Nat.mod_lt _ (by decide)) p3 (by omega) m
  generalize reach_bitmap_push_new s v (n : Int) = s' at *
  apply Nat.eq_of_testBit_eq
  intro i
  rw [hm, Nat.testBit_and, Nat.testBit_mod_two_pow, Nat.testBit_or, Nat.testBit_shiftLeft,
    Nat.testBit_and, Nat.testBit_two_pow_sub_one, hg,
    show (0xFFFF : Nat) = 2 ^ 16 - 1 from rfl, Nat.testBit_two_pow_sub_one]
  clear hm hg p1 p2 p3 p4 p5 hb he hc inv
  generalize hcc : (e + 160 - b) % 160 = c at *
  by_cases hi : i < 16
  swap
  · simp [hi]
  by_cases hin : i < n
  · have hpos : (((e + n) % 160 + 159 - i) % 160 + 160 - e) % 160 < n := by
      clear p6 p7
      omega
    have hidx : n - 1 - (((e + n) % 160 + 159 - i) % 160 + 160 - e) % 160 = i := by
      clear p6 p7
      omega
    have hlt : i < c + n - (c + n - 128) := by
      clear p6 p7
      omega
    have hge : ¬ i ≥ n := by omega
    rw [p6 _ (Nat.mod_lt _ (by decide)) hpos, hidx]
    simp [hi, hin, hlt, hge]
    cases m.testBit i <;> simp
  · have hpos : n + 7 ≤ (((e + n) % 160 + 159 - i) % 160 + 160 - e) % 160 := by
      clear p6 p7
      omega
    have hidx : ((e + n) % 160 + 159 - i) % 160 = (e + 159 - (i - n)) % 160 := by
      clear p6 p7
      omega
    have hge : i ≥ n := by omega
    have h16' : i - n < 16 := by omega
    rw [p7 _ (Nat.mod_lt _ (by decide)) hpos, hidx]
    by_cases hic : i - n < c
    · have hlt : i < c + n - (c + n - 128) := by
        clear p6 p7
        omega
      simp [hi, hin, hlt, hge, h16', hic]
      cases m.testBit i <;> simp
    · have hlt : ¬ i < c + n - (c + n - 128) := by
        clear p6 p7
        omega
      simp [hi, hin, hlt, hge, h16', hic]

/-! ## The two-of-three test -/

/-- On a history satisfying the invariant, `at_rel` of the `k`-th newest bit
(`k = i + 1`) is bit `i` of `reach_bitmap_get_mask`. -/
theorem at_rel_get_mask (s : reach_bitmap) (inv : Inv s) (i : Nat) (hi : i < 16) :
    at_rel s ((i : Int) + 1) =
      if (reach_bitmap_get_mask s 0xFFFF).testBit i then 1 else 0 := by
  obtain ⟨b, e, hb, he, hb160, he160, hc, hc128⟩ := inv.nat
  rw [get_mask_testBit s e _ inv.bytes he he160 hc hc128,
    show (0xFFFF : Nat) = 2 ^ 16 - 1 from rfl, Nat.testBit_two_pow_sub_one]
  unfold at_rel
  rw [hc, he]
  by_cases hic : i < (e + 160 - b) % 160
  · have hpos : ((e : Int) - ((i : Int) + 1) + HIST_SIZE_BITS).tmod HIST_SIZE_BITS =
        (((e + 159 - i) % 160 : Nat) : Int) := by
      simp only [HIST_SIZE_BITS, HIST_SIZE_BYTES, MAX_HIST_BYTES]
      rw [Int.tmod_eq_emod (by omega) (by omega)]
      omega
    rw [if_neg (by omega)]
    simp only [hpos, at_abs_nat, hi, hic, decide_True, Bool.true_and]
  · rw [if_pos (by omega)]
    simp [hic]

theorem get_mask_and_mask (s : reach_bitmap) (m : Nat) :
    reach_bitmap_get_mask s 0xFFFF &&& m = reach_bitmap_get_mask s m := by
  unfold reach_bitmap_get_mask
  by_cases h : s.count = 0
  · rw [if_pos h, if_pos h, Nat.zero_and]
  · rw [if_neg h, if_neg h]
    exact ushort_and_mask _ m

theorem testBit_seven (i : Nat) : (7 : Nat).testBit i = decide (i < 3) := by
  rw [show (7 : Nat) = 2 ^ 3 - 1 from rfl, Nat.testBit_two_pow_sub_one]

theorem popcount16_and_seven (g : Nat) :
    popcount16 (g &&& 7) =
      (if g.testBit 0 then 1 else 0) + (if g.testBit 1 then 1 else 0) +
        (if g.testBit 2 then 1 else 0) := by
  unfold popcount16
  simp only [value_bits, Nat.testBit_and, testBit_seven]
  cases g.testBit 0 <;> cases g.testBit 1 <;> cases g.testBit 2 <;> simp

theorem two_three_inv (s : reach_bitmap) (inv : Inv s) :
    reach_bitmap_two_three s = decide (popcount16 (reach_bitmap_get_mask s 0x7) ≥ 2) := by
  have a1 : at_rel s 1 = if (reach_bitmap_get_mask s 0xFFFF).testBit 0 then 1 else 0 := by
    simpa using at_rel_get_mask s inv 0 (by decide)
  have a2 : at_rel s 2 = if (reach_bitmap_get_mask s 0xFFFF).testBit 1 then 1 else 0 := by
    simpa using at_rel_get_mask s inv 1 (by decide)
  have a3 : at_rel s 3 = if (reach_bitmap_get_mask s 0xFFFF).testBit 2 then 1 else 0 := by
    simpa using at_rel_get_mask s inv 2 (by decide)
  unfold reach_bitmap_two_three
  rw [a1, a2, a3, ← get_mask_and_mask s 7, popcount16_and_seven]
  generalize reach_bitmap_get_mask s 0xFFFF = g
  cases g.testBit 0 <;> cases g.testBit 1 <;> cases g.testBit 2 <;> decide

/-! ## `old_reach` and the number of recent ones -/

theorem swap_masks :
    (∀ j, j < 32 → Nat.testBit 0x5555 j = decide (j < 16 ∧ j % 2 = 0)) ∧
    (∀ j, j < 32 → Nat.testBit 0xAAAA j = decide (j < 16 ∧ j % 2 = 1)) ∧
    (∀ j, j < 32 → Nat.testBit 0x3333 j = decide (j < 16 ∧ j % 4 < 2)) ∧
    (∀ j, j < 32 → Nat.testBit 0xCCCC j = decide (j < 16 ∧ 2 ≤ j % 4)) ∧
    (∀ j, j < 32 → Nat.testBit 0x0F0F j = decide (j < 16 ∧ j % 8 < 4)) ∧
    (∀ j, j < 32 → Nat.testBit 0xF0F0 j = decide (j < 16 ∧ 4 ≤ j % 8)) ∧
    (∀ j, j < 32 → Nat.testBit 0x00FF j = decide (j < 16 ∧ j < 8)) ∧
    (∀ j, j < 32 → Nat.testBit 0xFF00 j = decide (j < 16 ∧ 8 ≤ j)) := by
  decide

/-- The four swap steps reverse the order of the 16 low bits. -/
theorem swap_bits_testBit (x i : Nat) (hi : i < 16) :
    (swap_bits x).testBit i = x.testBit (15 - i) := by
  obtain ⟨m1, m2, m3, m4, m5, m6, m7, m8⟩ := swap_masks
  unfold swap_bits
  simp only [to_ushort, show (65536 : Nat) = 2 ^ 16 from rfl, Nat.testBit_mod_two_pow,
    Nat.testBit_or, Nat.testBit_shiftLeft, Nat.testBit_shiftRight, Nat.testBit_and]
  interval_cases i <;> simp [m1, m2, m3, m4, m5, m6, m7, m8]

theorem swap_bits_lt (x : Nat) : swap_bits x < 2 ^ 16 := by
  unfold swap_bits to_ushort
  exact Nat.mod_lt _ (by decide)


theorem value_bits_reverse_swap (g : Nat) :
    value_bits (swap_bits g) 16 = (value_bits g 16).reverse := by
  apply List.ext_getElem?
  intro j
  by_cases hj : j < 16
  · rw [List.getElem?_reverse (by rw [value_bits_length]; exact hj), value_bits_length,
      value_bits_getElem?, value_bits_getElem?, if_pos hj, if_pos (by omega),
      swap_bits_testBit g _ (by omega)]
  · rw [List.getElem?_eq_none (by rw [value_bits_length]; omega),
      List.getElem?_eq_none (by rw [List.length_reverse, value_bits_length]; omega)]

theorem popcount16_swap (g : Nat) : popcount16 (swap_bits g) = popcount16 g := by
  unfold popcount16
  rw [value_bits_reverse_swap, List.count_reverse]

theorem popcount16_le (x : Nat) : popcount16 x ≤ 16 := by
  unfold popcount16
  have h := List.count_le_length true (value_bits x 16)
  rw [value_bits_length] at h
  exact h

theorem countset_byte_low (x : Nat) :
    countset_byte x = (((value_bits x 8).count true : Nat) : Int) := by
  have h1 : countset_byte x = countset_byte (x % 256) := by
    unfold countset_byte to_uchar
    rw [Nat.mod_mod]
  have h2 : value_bits (x % 256) 8 = value_bits x 8 := by
    apply value_bits_congr
    intro i hi
    rw [show (256 : Nat) = 2 ^ 8 from rfl, Nat.testBit_mod_two_pow]
    simp [hi]
  rw [h1, countset_byte_eq _ (Nat.mod_lt _ (by decide)), h2]

/-- The sum `last_bits` computed by `reach_bitmap_metric` is the number of set
bits among the 16 low bits of `old_reach`. -/
theorem last_bits_eq (s : reach_bitmap) : last_bits s = ((popcount16 s.old_reach : Nat) : Int) := by
  unfold last_bits popcount16
  rw [countset_byte_low, countset_byte_low, show (16 : Nat) = 8 + 8 from rfl, value_bits_add,
    List.count_append]
  push_cast
  ring

/-- In every reachable history `old_reach` is the result of the four swap
steps on `reach_bitmap_get_mask(bitmap, 0xFFFF)`. -/
theorem reachable_old_reach (s : reach_bitmap) (h : Reachable s) :
    s.old_reach = swap_bits (reach_bitmap_get_mask s 0xFFFF) := by
  induction h with
  | init s0 h0 =>
    rw [init_old_reach, get_mask_empty _ (init_fields s0).2.2.2.1]
    rfl
  | push s v L hl _ ih =>
    by_cases hr : L ≤ 0 ∨ 16 < L
    · rw [push_new_noop s v L hl hr]
      exact ih
    · obtain ⟨n, rfl⟩ := Int.eq_ofNat_of_zero_le (by omega : 0 ≤ L)
      rw [push_new_eq s v n (by omega) (by omega)]
      exact update_ends_old_reach _
  | pop s L _ ih =>
    simp only [reach_bitmap_pop_new]
    exact update_ends_old_reach _

theorem reachable_last_bits (s : reach_bitmap) (h : Reachable s) :
    last_bits s = ((popcount16 (reach_bitmap_get_mask s 0xFFFF) : Nat) : Int) := by
  rw [last_bits_eq, reachable_old_reach s h, popcount16_swap]

/-! ## The metric on histories satisfying the invariant -/

theorem wrap_llong_eq (x : Int) (h1 : -2 ^ 63 ≤ x) (h2 : x < 2 ^ 63) : wrap_llong x = x := by
  unfold wrap_llong
  omega

theorem wrap_int_eq (x : Int) (h1 : -2 ^ 31 ≤ x) (h2 : x < 2 ^ 31) : wrap_int x = x := by
  unfold wrap_int
  omega

theorem to_uint_eq (x : Int) (h1 : 0 ≤ x) (h2 : x < 2 ^ 32) : ((to_uint x : Nat) : Int) = x := by
  unfold to_uint
  omega

theorem last_minval_bounds (s : reach_bitmap) :
    10000 ≤ last_minval s ∧ last_minval s ≤ 290000 := by
  have h := last_bits_eq s
  unfold last_minval
  split_ifs <;> omega

theorem drop_of_1e4_inv (s : reach_bitmap) (inv : Inv s) (hc : 0 < s.count) :
    drop_of_1e4 s = (s.count - s.count_set) * 10000 / s.count ∧
    0 ≤ drop_of_1e4 s ∧ drop_of_1e4 s ≤ 10000 := by
  obtain ⟨b1, b2, b3⟩ := inv_count_bounds s inv
  have e : drop_of_1e4 s = (s.count - s.count_set) * 10000 / s.count := by
    unfold drop_of_1e4
    rw [wrap_int_eq _ (by omega) (by omega), wrap_llong_eq _ (by omega) (by omega),
      Int.tdiv_eq_ediv (by omega) (by omega)]
  refine ⟨e, ?_, ?_⟩
  · rw [e]
    exact Int.ediv_nonneg (by omega) (by omega)
  · rw [e]
    exact Int.ediv_le_of_le_mul hc (by omega)

theorem drop_multiplier_bounds (d : Int) (h0 : 0 ≤ d) (h1 : d ≤ 10000) :
    10000 ≤ drop_multiplier d ∧ drop_multiplier d ≤ 960400000 := by
  unfold drop_multiplier
  split_ifs
  · rw [wrap_llong_eq _ (by omega) (by omega)]
    omega
  · rw [wrap_llong_eq _ (by omega) (by omega)]
    omega
  · rw [wrap_llong_eq _ (by omega) (by omega)]
    omega
  · rw [wrap_llong_eq _ (by omega) (by omega)]
    omega

theorem multipler_1e4_max (s : reach_bitmap) :
    multipler_1e4 s = max (drop_multiplier (drop_of_1e4 s)) (last_minval s) := by
  unfold multipler_1e4
  split_ifs <;> omega

theorem multipler_1e4_bounds (s : reach_bitmap) (inv : Inv s) (hc : 0 < s.count) :
    10000 ≤ multipler_1e4 s ∧ multipler_1e4 s ≤ 960400000 := by
  obtain ⟨_, d0, d1⟩ := drop_of_1e4_inv s inv hc
  obtain ⟨m0, m1⟩ := drop_multiplier_bounds _ d0 d1
  obtain ⟨l0, l1⟩ := last_minval_bounds s
  rw [multipler_1e4_max]
  omega

/-- For a non-negative `short` line cost and a multiplier in the range the
curve can produce, `line_cost * multipler_1e4 / 10000` does not overflow. -/
theorem metric_cost_eq (s : reach_bitmap) (lc : Int) (h0 : 0 ≤ lc) (h1 : lc ≤ 32767)
    (m0 : 10000 ≤ multipler_1e4 s) (m1 : multipler_1e4 s ≤ 960400000) :
    metric_cost s lc = lc * multipler_1e4 s / 10000 ∧ 0 ≤ metric_cost s lc ∧
    metric_cost s lc ≤ 3146942680 := by
  have p0 : 0 ≤ lc * multipler_1e4 s := Int.mul_nonneg h0 (by omega)
  have p1 : lc * multipler_1e4 s ≤ 32767 * 960400000 :=
    Int.mul_le_mul h1 m1 (by omega) (by omega)
  have e : metric_cost s lc = lc * multipler_1e4 s / 10000 := by
    unfold metric_cost
    rw [wrap_llong_eq _ (by omega) (by omega), Int.tdiv_eq_ediv p0 (by omega)]
  refine ⟨e, ?_, ?_⟩
  · rw [e]
    exact Int.ediv_nonneg p0 (by omega)
  · rw [e]
    exact Int.ediv_le_of_le_mul (by omega) (by omega)

theorem metric_small_delay (s : reach_bitmap) (lc : Int) (delay : Nat) (hd : delay ≤ 40000) :
    reach_bitmap_metric s lc delay =
      if metric_cost s lc > 0xffff then 0xffff else to_uint (metric_cost s lc) := by
  unfold reach_bitmap_metric
  simp only [if_neg (by omega : ¬ delay > 40000)]

theorem metric_small_delay_int (s : reach_bitmap) (lc : Int) (delay : Nat) (hd : delay ≤ 40000)
    (h0 : 0 ≤ metric_cost s lc) :
    ((reach_bitmap_metric s lc delay : Nat) : Int) = min 65535 (metric_cost s lc) := by
  rw [metric_small_delay s lc delay hd]
  split_ifs with h
  · omega
  · rw [to_uint_eq _ h0 (by omega)]
    omega

/-! ## The claims C11 to C20 -/

theorem scenario_a_reachable : Reachable scenario_a :=
  Reachable.push _ 0x48 8 (is_int_small 8 (by decide) (by decide))
    (Reachable.init zero_state zero_state_typed)

theorem all_received_reachable : Reachable all_received :=
  Reachable.push _ 0xFFFF 16 (is_int_small 16 (by decide) (by decide))
    (Reachable.init zero_state zero_state_typed)

theorem all_missed_reachable : Reachable all_missed :=
  Reachable.push _ 0 16 (is_int_small 16 (by decide) (by decide))
    (Reachable.init zero_state zero_state_typed)

/-- C11: for every history and every mask `m`,
`reach_bitmap_get_mask(h, 0xFFFF) & m == reach_bitmap_get_mask(h, m)`. -/
theorem C11_get_mask_masking (s : reach_bitmap) (m : Nat) :
    reach_bitmap_get_mask s 0xFFFF &&& m = reach_bitmap_get_mask s m :=
  get_mask_and_mask s m

/-- C12: for every reachable history, `reach_bitmap_two_three(h)` is true
exactly when at least two of the bits of `reach_bitmap_get_mask(h, 0x7)` are
set, that is when at least two of the three newest bits are set, a missing
sample (`count < 3`) reading as 0. -/
theorem C12_two_three_agreement (s : reach_bitmap) (h : Reachable s) :
    reach_bitmap_two_three s = true ↔ 2 ≤ popcount16 (reach_bitmap_get_mask s 0x7) := by
  rw [two_three_inv s (reachable_inv s h)]
  simp

/-- Witness of C12 on the history obtained by `init`, `push_new(0x48, 8)`. -/
theorem C12_two_three_agreement_witness :
    reach_bitmap_two_three scenario_a = true ↔
      2 ≤ popcount16 (reach_bitmap_get_mask scenario_a 0x7) :=
  C12_two_three_agreement scenario_a scenario_a_reachable

/-- C13 as stated fails: after `push_new(0x48, 8)` on the freshly initialised
zeroed memory `count_set` is not 3. -/
theorem C13_scenario_a_counterexample :
    ¬ (scenario_a.count = 8 ∧ scenario_a.count_set = 3 ∧
        reach_bitmap_get_mask scenario_a 0xFFFF = 0x48) := by
  decide

/-- C13 amended: starting from a freshly initialised (empty) history,
`reach_bitmap_push_new(0x48, 8)` yields `count = 8`, `count_set = 2` (the
value `0x48` has two set bits) and `get_mask(0xFFFF) = 0x48`. -/
theorem C13_scenario_a (s0 : reach_bitmap) (h : byte_typed s0) :
    (reach_bitmap_push_new (reach_bitmap_init s0) 0x48 8).count = 8 ∧
    (reach_bitmap_push_new (reach_bitmap_init s0) 0x48 8).count_set = 2 ∧
    reach_bitmap_get_mask (reach_bitmap_push_new (reach_bitmap_init s0) 0x48 8) 0xFFFF
      = 0x48 := by
  have inv0 := init_inv s0 h
  obtain ⟨f1, f2, f3, f4, f5⟩ := init_fields s0
  obtain ⟨p1, p2, p3, p4, p5, p6, p7⟩ :=
    push_spec (reach_bitmap_init s0) 0 0 0x48 8 inv0.bytes f2 f3 (by decide) (by decide)
      (by decide) (by decide) (by decide)
  have hg := push_get_mask (reach_bitmap_init s0) inv0 0x48 8 (by decide) (by decide) 0xFFFF
  rw [get_mask_empty _ f4] at hg
  have e8 : (((8 : Nat)) : Int) = 8 := rfl
  rw [e8] at p3 p4 hg
  have hk : (0 + 160 - 0) % 160 + 8 - 128 = 0 := by decide
  have hw : window (ring_bit (reach_bitmap_init s0)) 0 0 = [] := rfl
  have hv : (value_bits 0x48 8).count true = 2 := by decide
  refine ⟨?_, ?_, ?_⟩
  · rw [p3]
  · rw [p4, hk, hw, hv, f5]
    rfl
  · rw [hg]
    decide

/-- Witness of C13 amended on the zeroed memory. -/
theorem C13_scenario_a_witness :
    (reach_bitmap_push_new (reach_bitmap_init zero_state) 0x48 8).count = 8 ∧
    (reach_bitmap_push_new (reach_bitmap_init zero_state) 0x48 8).count_set = 2 ∧
    reach_bitmap_get_mask (reach_bitmap_push_new (reach_bitmap_init zero_state) 0x48 8) 0xFFFF
      = 0x48 :=
  C13_scenario_a zero_state zero_state_typed

theorem last_minval_spec (s : reach_bitmap) : last_minval s = spec_last_minval (last_bits s) := by
  unfold last_minval spec_last_minval
  split_ifs <;> omega

theorem value_bits_one_bits (v n : Nat) (h : ∀ i, i < n → v.testBit i = true) :
    value_bits v n = List.replicate n true := by
  induction n with
  | zero => rfl
  | succ n ih =>
    simp only [value_bits, List.replicate_succ]
    rw [h n (by omega), ih (fun i hi => h i (by omega))]

theorem popcount16_ge (x : Nat) (h : ∀ i, i < 14 → x.testBit i = true) : 14 ≤ popcount16 x := by
  unfold popcount16
  rw [show (16 : Nat) = 14 + 2 from rfl, value_bits_add, value_bits_one_bits x 14 h,
    List.count_append, List.count_replicate_self]
  omega

/-- When `count_set = count` every stored bit is set. -/
theorem all_set_ring (s : reach_bitmap) (inv : Inv s) (b c : Nat) (hb : s.begin = b)
    (hc : s.count = c) (hall : s.count_set = s.count) (k : Nat) (hk : k < c) :
    ring_bit s ((b + k) % 160) = true := by
  have hcs := inv.count_set_nat b c hb hc
  rw [hall, hc] at hcs
  have hlen : (window (ring_bit s) b c).count true = (window (ring_bit s) b c).length := by
    rw [window_length]
    omega
  have hmem : ring_bit s ((b + k) % 160) ∈ window (ring_bit s) b c :=
    List.mem_map.2 ⟨k, List.mem_range.2 hk, rfl⟩
  exact (List.count_eq_length.1 hlen _ hmem).symm

theorem all_set_last_bits (s : reach_bitmap) (h : Reachable s) (hall : s.count_set = s.count)
    (h14 : 14 ≤ s.count) : 14 ≤ last_bits s := by
  have inv := reachable_inv s h
  obtain ⟨b, e, hb, he, hb160, he160, hc, hc128⟩ := inv.nat
  rw [reachable_last_bits s h]
  have hbits : ∀ i, i < 14 → (reach_bitmap_get_mask s 0xFFFF).testBit i = true := by
    intro i hi
    rw [get_mask_testBit s e _ inv.bytes he he160 hc hc128,
      show (0xFFFF : Nat) = 2 ^ 16 - 1 from rfl, Nat.testBit_two_pow_sub_one]
    have hpos : (e + 159 - i) % 160 = (b + ((e + 160 - b) % 160 - 1 - i)) % 160 := by omega
    have hic : i < (e + 160 - b) % 160 := by omega
    rw [hpos, all_set_ring s inv b _ hb hc hall _ (by omega)]
    have hi16 : i < 16 := by omega
    simp [hi16, hic]
  have := popcount16_ge _ hbits
  omega

/-- C14 as stated fails: on the reachable history of sixteen received Hellos
the `short` line cost `-1` gives a result above 65535. -/
theorem C14_metric_bounds_counterexample :
    Reachable all_received ∧ 0 < all_received.count ∧ is_short (-1) ∧
      ¬ reach_bitmap_metric all_received (-1) 0 ≤ 65535 :=
  ⟨all_received_reachable, by decide, ⟨by decide, by decide⟩, by decide⟩

/-- C14 amended: for every reachable history with `count > 0`, every line
cost with `0 ≤ line_cost ≤ 32767` and every delay for which the penalty
`cost * (delay - 20000) + 10000` stays below `2^63` (every `delay ≤ 40000` in
particular), the value returned by `reach_bitmap_metric` lies in
`[0, 65535]`. -/
theorem C14_metric_bounds (s : reach_bitmap) (h : Reachable s) (hc : 0 < s.count) (lc : Int)
    (h0 : 0 ≤ lc) (h1 : lc ≤ 32767) (delay : Nat)
    (hno : delay ≤ 40000 ∨
      metric_cost s lc * (((delay - 20000 : Nat)) : Int) + 10000 < 2 ^ 63) :
    reach_bitmap_metric s lc delay ≤ 65535 := by
  have inv := reachable_inv s h
  obtain ⟨m0, m1⟩ := multipler_1e4_bounds s inv hc
  obtain ⟨_, c0, c1⟩ := metric_cost_eq s lc h0 h1 m0 m1
  have key : ∀ cost : Int, 0 ≤ cost → (if cost > 0xffff then 0xffff else to_uint cost) ≤ 65535 := by
    intro cost hcost
    split_ifs with hbig
    · omega
    · have := to_uint_eq cost hcost (by omega)
      omega
  unfold reach_bitmap_metric
  by_cases hd : delay > 40000
  · simp only [if_pos hd]
    apply key
    have hprod : 0 ≤ metric_cost s lc * (((delay - 20000 : Nat)) : Int) :=
      Int.mul_nonneg c0 (by omega)
    have hlt : metric_cost s lc * (((delay - 20000 : Nat)) : Int) + 10000 < 2 ^ 63 := by
      rcases hno with hno | hno
      · omega
      · exact hno
    rw [wrap_llong_eq _ (by omega) hlt]
    exact Int.tdiv_nonneg (by omega) (by omega)
  · simp only [if_neg hd]
    exact key _ c0

/-- Witness of C14 amended: sixteen received Hellos, line cost 100, delay
50000. -/
theorem C14_metric_bounds_witness : reach_bitmap_metric all_received 100 50000 ≤ 65535 :=
  C14_metric_bounds all_received all_received_reachable (by decide) 100 (by decide) (by decide)
    50000 (Or.inr (by decide))

/-- With a lossy history, the largest `short` line cost and the largest
`unsigned int` delay, the product `cost * (delay - 20000)` passes `2^63` and
the result is above 65535. -/
theorem metric_delay_overflow :
    2 ^ 63 ≤ metric_cost all_missed 32767 * (((4294967295 - 20000 : Nat)) : Int) + 10000 ∧
      reach_bitmap_metric all_missed 32767 4294967295 = 156588818 := by
  set_option maxRecDepth 100000 in
  decide

theorem ten_missed_reachable : Reachable ten_missed :=
  Reachable.push _ 0x3F 6 (is_int_small 6 (by decide) (by decide))
    (Reachable.push _ 0xFFFF 16 (is_int_small 16 (by decide) (by decide))
      (Reachable.push _ 0xFFFF 16 (is_int_small 16 (by decide) (by decide))
        (Reachable.push _ 0 10 (is_int_small 10 (by decide) (by decide))
          (Reachable.init zero_state zero_state_typed))))

theorem nine_missed_reachable : Reachable nine_missed :=
  Reachable.push _ 0x3F 6 (is_int_small 6 (by decide) (by decide))
    (Reachable.push _ 0xFFFF 16 (is_int_small 16 (by decide) (by decide))
      (Reachable.push _ 0xFFFF 16 (is_int_small 16 (by decide) (by decide))
        (Reachable.push _ 0x200 10 (is_int_small 10 (by decide) (by decide))
          (Reachable.init zero_state zero_state_typed))))

/-- C15 at its failing input: `ten_missed` and `nine_missed` are reachable
histories with the same `begin`, `end` and `count` whose stored bits differ
only in the oldest one, 0 in the first and 1 in the second, and with line cost
1 and delay 0 the history with more set bits has the larger metric. -/
theorem C15_metric_not_monotone :
    Reachable ten_missed ∧ Reachable nine_missed ∧
    ten_missed.begin = nine_missed.begin ∧ ten_missed.end_ = nine_missed.end_ ∧
    ten_missed.count = nine_missed.count ∧
    stored ten_missed = false :: (stored ten_missed).tail ∧
    stored nine_missed = true :: (stored ten_missed).tail ∧
    drop_of_1e4 ten_missed = 2083 ∧ drop_of_1e4 nine_missed = 1875 ∧
    multipler_1e4 ten_missed = 10360000 ∧ multipler_1e4 nine_missed = 22080000 ∧
    reach_bitmap_metric ten_missed 1 0 = 1036 ∧ reach_bitmap_metric nine_missed 1 0 = 2208 := by
  refine ⟨ten_missed_reachable, nine_missed_reachable, ?_⟩
  set_option maxRecDepth 100000 in
  decide

/-- C16 at its failing input: the curve of `reach_bitmap_metric` meets the
calibration points at 0, 1000, 1600 and 2000, but at `drop_of_1e4 = 10000` it
gives 960400000 and not 10000000; on the history of sixteen missed Hellos the
metric of line cost 1 is saturated where a multiplier 1000.0 gives 1000. -/
theorem C16_curve_calibration :
    drop_multiplier 0 = 10000 ∧ drop_multiplier 1000 = 20000 ∧ drop_multiplier 1600 = 80000 ∧
    drop_multiplier 2000 = 400000 ∧ drop_multiplier 10000 = 960400000 ∧
    drop_multiplier 1999 = 32000000 ∧
    drop_of_1e4 all_missed = 10000 ∧ multipler_1e4 all_missed = 960400000 ∧
    reach_bitmap_metric all_missed 1 0 = 65535 := by
  decide

/-- C17: for every reachable history in which all stored bits are set
(`count_set == count`) and `count ≥ 14`, and every line cost with
`0 ≤ line_cost ≤ 32767`, `reach_bitmap_metric(h, line_cost, 0) == line_cost`. -/
theorem C17_metric_all_received (s : reach_bitmap) (h : Reachable s)
    (hall : s.count_set = s.count) (h14 : 14 ≤ s.count) (lc : Int) (h0 : 0 ≤ lc)
    (h1 : lc ≤ 32767) : ((reach_bitmap_metric s lc 0 : Nat) : Int) = lc := by
  have inv := reachable_inv s h
  have hc : 0 < s.count := by omega
  obtain ⟨d, _, _⟩ := drop_of_1e4_inv s inv hc
  have hd0 : drop_of_1e4 s = 0 := by
    rw [d, hall, sub_self, zero_mul, Int.zero_ediv]
  have hl := all_set_last_bits s h hall h14
  have hm : multipler_1e4 s = 10000 := by
    have hcurve : drop_multiplier 0 = 10000 := by decide
    have hmin : last_minval s = 10000 := by
      unfold last_minval
      rw [if_neg (by omega)]
    rw [multipler_1e4_max, hd0, hcurve, hmin]
    rfl
  obtain ⟨c, c0, _⟩ := metric_cost_eq s lc h0 h1 (by omega) (by omega)
  rw [hm, Int.mul_ediv_cancel _ (by decide)] at c
  rw [metric_small_delay_int s lc 0 (by decide) c0, c]
  omega

/-- Witness of C17, the second part of the claim: from empty,
`push_new(0xFFFF, 16)` then `metric(100, 0)` returns 100. -/
theorem C17_metric_all_received_witness :
    ((reach_bitmap_metric all_received 100 0 : Nat) : Int) = 100 :=
  C17_metric_all_received all_received all_received_reachable (by decide) (by decide) 100
    (by decide) (by decide)

/-- C18: for every reachable history with `count > 0` and `count_set == 0`,
`drop_of_1e4` is 10000 and `reach_bitmap_metric(h, 100, 0)` returns the
saturated value 65535. -/
theorem C18_metric_all_missed (s : reach_bitmap) (h : Reachable s) (hc : 0 < s.count)
    (hz : s.count_set = 0) :
    drop_of_1e4 s = 10000 ∧ reach_bitmap_metric s 100 0 = 65535 := by
  have inv := reachable_inv s h
  obtain ⟨d, _, _⟩ := drop_of_1e4_inv s inv hc
  have hd : drop_of_1e4 s = 10000 := by
    rw [d, hz, sub_zero, Int.mul_ediv_cancel_left _ (by omega)]
  obtain ⟨l0, l1⟩ := last_minval_bounds s
  have hm : multipler_1e4 s = 960400000 := by
    have hcurve : drop_multiplier 10000 = 960400000 := by decide
    rw [multipler_1e4_max, hd, hcurve]
    omega
  obtain ⟨c, _, _⟩ := metric_cost_eq s 100 (by decide) (by decide) (by omega) (by omega)
  rw [hm] at c
  have hcost : metric_cost s 100 = 9604000 := by
    rw [c]
    decide
  refine ⟨hd, ?_⟩
  rw [metric_small_delay s 100 0 (by decide), hcost]
  decide

/-- Witness of C18, the second part of the claim: the history obtained from
empty by `push_new(0, 16)`. -/
theorem C18_metric_all_missed_witness :
    drop_of_1e4 all_missed = 10000 ∧ reach_bitmap_metric all_missed 100 0 = 65535 :=
  C18_metric_all_missed all_missed all_missed_reachable (by decide) (by decide)

/-- C19: for every reachable history with `count > 0` whose
`d = floor((count - count_set) * 10000 / count)` is below 1600, every line
cost with `0 ≤ line_cost ≤ 32767` and every `delay ≤ 40000`,
`reach_bitmap_metric` returns
`min(65535, floor(line_cost * max(P(d), L) / 10000))` with `P` the first two
segments of the curve, `L` the floor computed from `last_bits`, and
`last_bits` the number of set bits of `get_mask(0xFFFF)`. -/
theorem C19_metric_low_drop (s : reach_bitmap) (h : Reachable s) (hc : 0 < s.count)
    (hd : (s.count - s.count_set) * 10000 / s.count < 1600) (lc : Int) (h0 : 0 ≤ lc)
    (h1 : lc ≤ 32767) (delay : Nat) (hdelay : delay ≤ 40000) :
    ((reach_bitmap_metric s lc delay : Nat) : Int) =
      min 65535
        (lc * max (spec_low_curve ((s.count - s.count_set) * 10000 / s.count))
            (spec_last_minval ((popcount16 (reach_bitmap_get_mask s 0xFFFF) : Nat) : Int))
          / 10000) := by
  have inv := reachable_inv s h
  obtain ⟨d, d0, d1⟩ := drop_of_1e4_inv s inv hc
  obtain ⟨m0, m1⟩ := multipler_1e4_bounds s inv hc
  obtain ⟨c, c0, _⟩ := metric_cost_eq s lc h0 h1 m0 m1
  have hcurve : drop_multiplier (drop_of_1e4 s) = spec_low_curve (drop_of_1e4 s) := by
    rw [d] at d0
    unfold drop_multiplier spec_low_curve
    rw [d]
    split_ifs <;> first | omega | rw [wrap_llong_eq _ (by omega) (by omega)]
  rw [metric_small_delay_int s lc delay hdelay c0, c, multipler_1e4_max, hcurve,
    last_minval_spec, reachable_last_bits s h, d]

/-- Witness of C19 on the history of sixteen received Hellos with line cost
100 and delay 0. -/
theorem C19_metric_low_drop_witness :
    ((reach_bitmap_metric all_received 100 0 : Nat) : Int) =
      min 65535
        (100 * max
            (spec_low_curve
              ((all_received.count - all_received.count_set) * 10000 / all_received.count))
            (spec_last_minval
              ((popcount16 (reach_bitmap_get_mask all_received 0xFFFF) : Nat) : Int))
          / 10000) :=
  C19_metric_low_drop all_received all_received_reachable (by decide) (by decide) 100
    (by decide) (by decide) 0 (by decide)

/-- C20: for every reachable history with `count > 0` and every line cost
with `0 ≤ line_cost ≤ 32767`, the final multiplier is at least `last_minval`:
`reach_bitmap_metric(h, line_cost, 0) ≥ min(65535, floor(line_cost * L / 10000))`
where `L` is computed from `last_bits`, the number of set bits among the
newest `min(count, 16)` stored bits, which is the number of set bits of
`old_reach`. -/
theorem C20_metric_recent_floor (s : reach_bitmap) (h : Reachable s) (hc : 0 < s.count)
    (lc : Int) (h0 : 0 ≤ lc) (h1 : lc ≤ 32767) :
    min 65535
        (lc * spec_last_minval ((popcount16 (reach_bitmap_get_mask s 0xFFFF) : Nat) : Int)
          / 10000) ≤ ((reach_bitmap_metric s lc 0 : Nat) : Int) ∧
    spec_last_minval ((popcount16 (reach_bitmap_get_mask s 0xFFFF) : Nat) : Int) ≤
      multipler_1e4 s ∧
    popcount16 s.old_reach = popcount16 (reach_bitmap_get_mask s 0xFFFF) := by
  have inv := reachable_inv s h
  obtain ⟨m0, m1⟩ := multipler_1e4_bounds s inv hc
  obtain ⟨c, c0, _⟩ := metric_cost_eq s lc h0 h1 m0 m1
  have hle : spec_last_minval ((popcount16 (reach_bitmap_get_mask s 0xFFFF) : Nat) : Int) ≤
      multipler_1e4 s := by
    rw [← reachable_last_bits s h, ← last_minval_spec, multipler_1e4_max]
    omega
  have hdiv : lc * spec_last_minval ((popcount16 (reach_bitmap_get_mask s 0xFFFF) : Nat) : Int)
      / 10000 ≤ metric_cost s lc := by
    rw [c]
    exact Int.ediv_le_ediv (by decide) (Int.mul_le_mul_of_nonneg_left hle h0)
  refine ⟨?_, hle, ?_⟩
  · rw [metric_small_delay_int s lc 0 (by decide) c0]
    omega
  · rw [reachable_old_reach s h, popcount16_swap]

/-- Witness of C20 on the history obtained by `init`, `push_new(0x48, 8)` with
line cost 100. -/
theorem C20_metric_recent_floor_witness :
    min 65535
        (100 * spec_last_minval ((popcount16 (reach_bitmap_get_mask scenario_a 0xFFFF) : Nat) : Int)
          / 10000) ≤ ((reach_bitmap_metric scenario_a 100 0 : Nat) : Int) ∧
    spec_last_minval ((popcount16 (reach_bitmap_get_mask scenario_a 0xFFFF) : Nat) : Int) ≤
      multipler_1e4 scenario_a ∧
    popcount16 scenario_a.old_reach = popcount16 (reach_bitmap_get_mask scenario_a 0xFFFF) :=
  C20_metric_recent_floor scenario_a scenario_a_reachable (by decide) 100 (by decide)
    (by decide)

/-! ## Delay penalty -/

/-- An unsaturated zero-delay metric is the cost itself. -/
theorem metric_unsaturated (s : reach_bitmap) (lc : Int)
    (h0 : 0 ≤ metric_cost s lc) (hu : reach_bitmap_metric s lc 0 < 65535) :
    metric_cost s lc = ((reach_bitmap_metric s lc 0 : Nat) : Int) ∧
      metric_cost s lc < 65535 := by
  have h := metric_small_delay_int s lc 0 (by decide) h0
  have hu2 : ((reach_bitmap_metric s lc 0 : Nat) : Int) < 65535 := by exact_mod_cast hu
  rw [h] at hu2 ⊢
  omega

/-- The delay branch of `reach_bitmap_metric` on a cost below 65535: the 64-bit
product does not wrap for a 32-bit delay. -/
theorem metric_delay_branch (s : reach_bitmap) (lc : Int) (delay : Nat)
    (h0 : 0 ≤ metric_cost s lc) (hlt : metric_cost s lc < 65535) (hd : 40000 < delay)
    (hd32 : delay < 2 ^ 32) :
    ((reach_bitmap_metric s lc delay : Nat) : Int) =
      min 65535 ((metric_cost s lc * ((delay : Int) - 20000) + 10000) / 20000) := by
  have hsub : (((delay - 20000 : Nat)) : Int) = (delay : Int) - 20000 := by omega
  have hd0 : (0 : Int) ≤ (delay : Int) - 20000 := by omega
  have hd1 : (delay : Int) - 20000 ≤ 4294967296 := by
    have : (delay : Int) < 4294967296 := by exact_mod_cast hd32
    omega
  have hp0 : 0 ≤ metric_cost s lc * ((delay : Int) - 20000) := Int.mul_nonneg h0 hd0
  have hp1 : metric_cost s lc * ((delay : Int) - 20000) ≤ 65535 * 4294967296 :=
    Int.mul_le_mul (by omega) hd1 hd0 (by decide)
  have hw : wrap_llong (metric_cost s lc * ((delay : Int) - 20000) + 10000) =
      metric_cost s lc * ((delay : Int) - 20000) + 10000 :=
    wrap_llong_eq _ (by omega) (by omega)
  have hq0 : 0 ≤ (metric_cost s lc * ((delay : Int) - 20000) + 10000) / 20000 :=
    Int.ediv_nonneg (by omega) (by decide)
  have ht : (metric_cost s lc * ((delay : Int) - 20000) + 10000).tdiv 20000 =
      (metric_cost s lc * ((delay : Int) - 20000) + 10000) / 20000 :=
    Int.tdiv_eq_ediv (by omega) (by decide)
  unfold reach_bitmap_metric
  simp only [if_pos hd]
  rw [hsub, hw, ht]
  split_ifs with hbig
  · simp only [Nat.cast_ofNat]; omega
  · rw [to_uint_eq _ hq0 (by omega)]
    omega

/-- Claim C21: on a reachable history with `count > 0`, for a `short` line cost
`>= 0` whose zero-delay metric `c` is below 65535 and a 32-bit delay above 40000, the
metric is `min(65535, floor((c * (delay - 20000) + 10000) / 20000))`. -/
theorem C21_delay_penalty (s : reach_bitmap) (h : Reachable s) (hc : 0 < s.count)
    (lc : Int) (h0 : 0 ≤ lc) (h1 : lc ≤ 32767)
    (hu : reach_bitmap_metric s lc 0 < 65535) (delay : Nat) (hd : 40000 < delay)
    (hd32 : delay < 2 ^ 32) :
    ((reach_bitmap_metric s lc delay : Nat) : Int) =
      min 65535
        ((((reach_bitmap_metric s lc 0 : Nat) : Int) * ((delay : Int) - 20000) + 10000) /
          20000) := by
  have inv := reachable_inv s h
  have hm := multipler_1e4_bounds s inv hc
  have hcost := metric_cost_eq s lc h0 h1 hm.1 hm.2
  have hun := metric_unsaturated s lc hcost.2.1 hu
  rw [← hun.1]
  exact metric_delay_branch s lc delay hcost.2.1 hun.2 hd hd32

theorem C21_delay_penalty_witness :
    ((reach_bitmap_metric all_received 96 50000 : Nat) : Int) =
      min 65535
        ((((reach_bitmap_metric all_received 96 0 : Nat) : Int) * (((50000 : Nat) : Int) - 20000)
          + 10000) / 20000) :=
  C21_delay_penalty all_received all_received_reachable (by decide) 96 (by decide) (by decide)
    (by set_option maxRecDepth 100000 in decide) 50000 (by decide) (by decide)

/-- Claim C22: for every state, line cost and delay of at most 40000 the metric equals
the metric at delay 0; the delay penalty applies only above 40000. -/
theorem C22_no_penalty_small_delay (s : reach_bitmap) (lc : Int) (delay : Nat)
    (hd : delay ≤ 40000) :
    reach_bitmap_metric s lc delay = reach_bitmap_metric s lc 0 := by
  rw [metric_small_delay s lc delay hd, metric_small_delay s lc 0 (by decide)]

theorem C22_no_penalty_small_delay_witness :
    reach_bitmap_metric scenario_a 96 40000 = reach_bitmap_metric scenario_a 96 0 :=
  C22_no_penalty_small_delay scenario_a 96 40000 (by decide)

/-- Claim C23: in every reachable state `old_reach` is the 16-bit reversal of
`get_mask(0xFFFF)`: bit `15 - i` of `old_reach` is bit `i` of the mask for `i` in
0..15, the newest stored bit is the most significant bit, and no bit lies above
bit 15. -/
theorem C23_old_reach_reversal (s : reach_bitmap) (h : Reachable s) :
    (∀ i, i < 16 →
      s.old_reach.testBit (15 - i) = (reach_bitmap_get_mask s 0xFFFF).testBit i) ∧
    s.old_reach.testBit 15 = (reach_bitmap_get_mask s 0xFFFF).testBit 0 ∧
    s.old_reach < 2 ^ 16 := by
  have ho := reachable_old_reach s h
  refine ⟨fun i hi => ?_, ?_, ?_⟩
  · rw [ho, swap_bits_testBit _ _ (by omega)]
    congr 1
    omega
  · rw [ho, swap_bits_testBit _ _ (by decide)]
  · rw [ho]
    exact swap_bits_lt _

theorem C23_old_reach_reversal_witness :
    (∀ i, i < 16 →
      scenario_a.old_reach.testBit (15 - i) =
        (reach_bitmap_get_mask scenario_a 0xFFFF).testBit i) ∧
    scenario_a.old_reach.testBit 15 = (reach_bitmap_get_mask scenario_a 0xFFFF).testBit 0 ∧
    scenario_a.old_reach < 2 ^ 16 :=
  C23_old_reach_reversal scenario_a scenario_a_reachable

/-! ## The 16-bit register view of `old_reach` -/

/-- Bits of `get_mask(0xFFFF)` read back from `old_reach`. -/
theorem get_mask_of_old_reach (s : reach_bitmap) (h : Reachable s) (x : Nat) (hx : x < 16) :
    (reach_bitmap_get_mask s 0xFFFF).testBit x = s.old_reach.testBit (15 - x) := by
  rw [reachable_old_reach s h, swap_bits_testBit _ _ (by omega)]
  congr 1
  omega

theorem old_reach_lt (s : reach_bitmap) (h : Reachable s) : s.old_reach < 2 ^ 16 := by
  rw [reachable_old_reach s h]
  exact swap_bits_lt _

theorem old_reach_high (s : reach_bitmap) (h : Reachable s) (i : Nat) (hi : 16 ≤ i) :
    s.old_reach.testBit i = false :=
  Nat.testBit_lt_two_pow
    (lt_of_lt_of_le (old_reach_lt s h) (Nat.pow_le_pow_right (by decide) hi))

theorem testBit_ffff (j : Nat) : (0xFFFF : Nat).testBit j = decide (j < 16) := by
  have : (0xFFFF : Nat) = 2 ^ 16 - 1 := by decide
  rw [this, Nat.testBit_two_pow_sub_one]

/-- Bits of `old_reach` after an in-range push: the register moves down by `n` and
the pushed bits enter at the top. -/
theorem push_old_reach (s : reach_bitmap) (h : Reachable s) (v n : Nat) (h1 : 1 ≤ n)
    (h16 : n ≤ 16) (i : Nat) :
    (reach_bitmap_push_new s v (n : Int)).old_reach.testBit i =
      if i < 16 then
        (if n ≤ 15 - i then s.old_reach.testBit (i + n) else v.testBit (15 - i))
      else false := by
  have hr : Reachable (reach_bitmap_push_new s v (n : Int)) :=
    Reachable.push s v n (is_int_small _ (by omega) (by omega)) h
  by_cases hi : i < 16
  · rw [if_pos hi, reachable_old_reach _ hr, swap_bits_testBit _ _ hi,
      push_get_mask s (reachable_inv s h) v n h1 h16]
    simp only [Nat.testBit_and, Nat.testBit_mod_two_pow, Nat.testBit_or,
      Nat.testBit_shiftLeft, Nat.testBit_two_pow_sub_one, testBit_ffff]
    by_cases hn : n ≤ 15 - i
    · rw [if_pos hn, get_mask_of_old_reach s h _ (by omega)]
      have e1 : 15 - (15 - i - n) = i + n := by omega
      have l1 : 15 - i < 16 := by omega
      have l2 : 15 - i ≥ n := hn
      have l3 : ¬ (15 - i < n) := by omega
      simp [e1, l1, l2, l3]
    · rw [if_neg hn]
      have l1 : 15 - i < 16 := by omega
      have l2 : ¬ (15 - i ≥ n) := hn
      have l3 : 15 - i < n := by omega
      simp [l1, l2, l3]
  · rw [if_neg hi]
    exact old_reach_high _ hr i (by omega)

theorem testBit_8000 (i : Nat) : (0x8000 : Nat).testBit i = decide (i = 15) := by
  have : (0x8000 : Nat) = 2 ^ 15 := by decide
  rw [this, Nat.testBit_two_pow]
  by_cases h : i = 15
  · simp [h]
  · have : ¬ (15 = i) := fun e => h e.symm
    simp [h, this]

/-- Claim C24: on every reachable history, `push_new(1, 1)` turns `old_reach` into
`(old_reach >> 1) | 0x8000`, and `push_new(0, k)` with `1 <= k <= 16` turns it into
`old_reach >> k` (which is 0 when `k = 16`). -/
theorem C24_push_reach_register (s : reach_bitmap) (h : Reachable s) :
    (reach_bitmap_push_new s 1 1).old_reach = (s.old_reach >>> 1) ||| 0x8000 ∧
    (∀ k : Nat, 1 ≤ k → k ≤ 16 →
      (reach_bitmap_push_new s 0 (k : Int)).old_reach = s.old_reach >>> k) ∧
    (reach_bitmap_push_new s 0 16).old_reach = 0 := by
  have hk : ∀ k : Nat, 1 ≤ k → k ≤ 16 →
      (reach_bitmap_push_new s 0 (k : Int)).old_reach = s.old_reach >>> k := by
    intro k k1 k16
    apply Nat.eq_of_testBit_eq
    intro i
    rw [push_old_reach s h 0 k k1 k16, Nat.testBit_shiftRight]
    by_cases hi : i < 16
    · rw [if_pos hi]
      by_cases hn : k ≤ 15 - i
      · rw [if_pos hn, Nat.add_comm]
      · rw [if_neg hn, Nat.zero_testBit, old_reach_high s h _ (by omega)]
    · rw [if_neg hi, old_reach_high s h _ (by omega)]
  refine ⟨?_, hk, ?_⟩
  · apply Nat.eq_of_testBit_eq
    intro i
    have hp := push_old_reach s h 1 1 (by decide) (by decide) i
    simp only [Nat.cast_one] at hp
    rw [hp, Nat.testBit_or, Nat.testBit_shiftRight, testBit_8000]
    by_cases hi : i < 16
    · rw [if_pos hi]
      by_cases hn : 1 ≤ 15 - i
      · have : ¬ (i = 15) := by omega
        rw [if_pos hn, Nat.add_comm]
        simp [this]
      · have : i = 15 := by omega
        subst this
        simp
    · have : ¬ (i = 15) := by omega
      rw [if_neg hi, old_reach_high s h _ (by omega)]
      simp [this]
  · have := hk 16 (by decide) (by decide)
    simp only [Nat.cast_ofNat] at this
    rw [this]
    apply Nat.eq_of_testBit_eq
    intro i
    rw [Nat.testBit_shiftRight, Nat.zero_testBit, old_reach_high s h _ (by omega)]

theorem C24_push_reach_register_witness :
    (reach_bitmap_push_new scenario_a 1 1).old_reach = (scenario_a.old_reach >>> 1) ||| 0x8000 ∧
    (∀ k : Nat, 1 ≤ k → k ≤ 16 →
      (reach_bitmap_push_new scenario_a 0 (k : Int)).old_reach = scenario_a.old_reach >>> k) ∧
    (reach_bitmap_push_new scenario_a 0 16).old_reach = 0 :=
  C24_push_reach_register scenario_a scenario_a_reachable

/-- Claim C29: after an in-range `push_new(value, length)` on a reachable history
`count >= length >= 1`, so the division by `count` in the metric is defined; and in
every reachable state `count == 0` exactly when `begin == end`. -/
theorem C29_count_positive (s : reach_bitmap) (h : Reachable s) (v : Nat) (L : Int)
    (h1 : 1 ≤ L) (h16 : L ≤ 16) :
    L ≤ (reach_bitmap_push_new s v L).count ∧ 1 ≤ (reach_bitmap_push_new s v L).count ∧
    (reach_bitmap_push_new s v L).count ≠ 0 ∧
    (s.count = 0 ↔ s.begin = s.end_) ∧
    ((reach_bitmap_push_new s v L).count = 0 ↔
      (reach_bitmap_push_new s v L).begin = (reach_bitmap_push_new s v L).end_) := by
  have inv := reachable_inv s h
  obtain ⟨b, e, hb, he, hb160, he160, hc, hc128⟩ := inv.nat
  obtain ⟨n, rfl⟩ : ∃ n : Nat, L = (n : Int) := ⟨L.toNat, by omega⟩
  have n1 : 1 ≤ n := by omega
  have n16 : n ≤ 16 := by omega
  have hr : Reachable (reach_bitmap_push_new s v (n : Int)) :=
    Reachable.push s v n (is_int_small _ (by omega) (by omega)) h
  obtain ⟨b2, e2, hb2, he2, hb2160, he2160, hc2, hc2128⟩ := (reachable_inv _ hr).nat
  obtain ⟨-, -, p3, -⟩ := push_spec s b e v n inv.bytes hb he hb160 he160 hc128 n1 n16
  generalize reach_bitmap_push_new s v (n : Int) = t at *
  clear hr inv h
  refine ⟨?_, ?_, ?_, ?_, ?_⟩
  · rw [p3]; omega
  · rw [p3]; omega
  · rw [p3]; omega
  · rw [hc, hb, he]; omega
  · rw [hc2, hb2, he2]; omega

theorem C29_count_positive_witness :
    (1 : Int) ≤ (reach_bitmap_push_new scenario_a 1 1).count ∧
    1 ≤ (reach_bitmap_push_new scenario_a 1 1).count ∧
    (reach_bitmap_push_new scenario_a 1 1).count ≠ 0 ∧
    (scenario_a.count = 0 ↔ scenario_a.begin = scenario_a.end_) ∧
    ((reach_bitmap_push_new scenario_a 1 1).count = 0 ↔
      (reach_bitmap_push_new scenario_a 1 1).begin =
        (reach_bitmap_push_new scenario_a 1 1).end_) :=
  C29_count_positive scenario_a scenario_a_reachable 1 1 (by decide) (by decide)

theorem seventeen_received_reachable : Reachable seventeen_received :=
  Reachable.push _ 1 1 (is_int_small 1 (by decide) (by decide)) all_received_reachable

theorem stored_length (s : reach_bitmap) : (stored s).length = s.count.toNat :=
  window_length _ _ _

/-- Bits of `old_reach` in terms of the stored sequence, newest first. -/
theorem old_reach_stored (s : reach_bitmap) (h : Reachable s) (j : Nat) (hj : j < 16) :
    s.old_reach.testBit j = ((stored s).reverse[15 - j]?).getD false := by
  have l1 : 15 - j < 16 := by omega
  rw [reachable_old_reach s h, swap_bits_testBit _ _ hj,
    get_mask_stored s (reachable_inv s h), testBit_ffff]
  simp [l1]

/-- Bits of `old_reach` after a pop of `n` values: the register is refilled from the
stored sequence, `n` places further back. -/
theorem pop_old_reach (s : reach_bitmap) (h : Reachable s) (length : Int) (j : Nat)
    (hj : j < 16) :
    (reach_bitmap_pop_new s length).old_reach.testBit j =
      ((stored s).reverse[(if s.count < length then s.count else length).toNat +
        (15 - j)]?).getD false := by
  have inv := reachable_inv s h
  obtain ⟨c0, c1, c128⟩ := inv_count_bounds s inv
  have hn : (if s.count < length then s.count else length).toNat ≤ s.count.toNat := by
    split_ifs <;> omega
  rw [old_reach_stored _ (Reachable.pop s length h) j hj, pop_stored s inv length,
    List.reverse_take, List.getElem?_drop, stored_length]
  congr 3
  omega

/-- Claim C25, as the code has it: after `pop_new(k)` with `0 <= k <= 15` on a
reachable history, bits `k..15` of `old_reach` are those of `old_reach_before << k`,
bit `j < k` is the stored bit that was `(15 - j + k)` places behind the newest one
before the pop (0 if there is none), and when `count <= 16` the register is exactly
`(old_reach_before << k) mod 2^16`. -/
theorem C25_pop_reach_register (s : reach_bitmap) (h : Reachable s) (k : Nat)
    (hk : k ≤ 15) :
    (∀ j, k ≤ j → j < 16 →
      (reach_bitmap_pop_new s (k : Int)).old_reach.testBit j = s.old_reach.testBit (j - k)) ∧
    (∀ j, j < k →
      (reach_bitmap_pop_new s (k : Int)).old_reach.testBit j =
        ((stored s).reverse[15 - j + k]?).getD false) ∧
    (s.count ≤ 16 →
      (reach_bitmap_pop_new s (k : Int)).old_reach = (s.old_reach <<< k) % 2 ^ 16) := by
  have inv := reachable_inv s h
  obtain ⟨c0, c1, c128⟩ := inv_count_bounds s inv
  have hlen := stored_length s
  have key : ∀ j, j < 16 →
      (reach_bitmap_pop_new s (k : Int)).old_reach.testBit j =
        ((stored s).reverse[15 - j + k]?).getD false := by
    intro j hj
    rw [pop_old_reach s h _ j hj]
    by_cases hc : s.count < (k : Int)
    · rw [if_pos hc, List.getElem?_eq_none (by rw [List.length_reverse, hlen]; omega),
        List.getElem?_eq_none (by rw [List.length_reverse, hlen]; omega)]
    · rw [if_neg hc, Int.toNat_ofNat, Nat.add_comm]
  have upper : ∀ j, k ≤ j → j < 16 →
      (reach_bitmap_pop_new s (k : Int)).old_reach.testBit j =
        s.old_reach.testBit (j - k) := by
    intro j hkj hj
    rw [key j hj, old_reach_stored s h _ (by omega)]
    congr 3
    omega
  refine ⟨upper, fun j hj => key j (by omega), ?_⟩
  intro hc16
  apply Nat.eq_of_testBit_eq
  intro i
  rw [Nat.testBit_mod_two_pow, Nat.testBit_shiftLeft]
  by_cases hi : i < 16
  · by_cases hki : k ≤ i
    · rw [upper i hki hi]
      simp [hi, hki]
    · rw [key i hi, List.getElem?_eq_none (by rw [List.length_reverse, hlen]; omega)]
      simp [hki]
  · rw [old_reach_high _ (Reachable.pop s _ h) i (by omega)]
    simp [hi]

theorem C25_pop_reach_register_witness :
    (∀ j, 1 ≤ j → j < 16 →
      (reach_bitmap_pop_new seventeen_received ((1 : Nat) : Int)).old_reach.testBit j =
        seventeen_received.old_reach.testBit (j - 1)) ∧
    (∀ j, j < 1 →
      (reach_bitmap_pop_new seventeen_received ((1 : Nat) : Int)).old_reach.testBit j =
        ((stored seventeen_received).reverse[15 - j + 1]?).getD false) ∧
    (seventeen_received.count ≤ 16 →
      (reach_bitmap_pop_new seventeen_received ((1 : Nat) : Int)).old_reach =
        (seventeen_received.old_reach <<< 1) % 2 ^ 16) :=
  C25_pop_reach_register seventeen_received seventeen_received_reachable 1 (by decide)

/-- Claim C25 as stated fails: with seventeen received Hellos stored, `old_reach` is
0xFFFF, and after `pop_new(1)` it is 0xFFFF again, the seventeenth newest bit having
re-entered the register, whereas `(0xFFFF << 1) mod 2^16` is 0xFFFE. -/
theorem C25_pop_reach_register_counterexample :
    Reachable seventeen_received ∧
    seventeen_received.old_reach = 0xFFFF ∧
    (reach_bitmap_pop_new seventeen_received 1).old_reach = 0xFFFF ∧
    (reach_bitmap_pop_new seventeen_received 1).old_reach ≠
      (seventeen_received.old_reach <<< 1) % 2 ^ 16 := by
  refine ⟨seventeen_received_reachable, ?_, ?_, ?_⟩
  · set_option maxRecDepth 100000 in decide
  · set_option maxRecDepth 100000 in decide
  · set_option maxRecDepth 100000 in decide

theorem one_received_reachable : Reachable one_received :=
  Reachable.push _ 1 1 (is_int_small 1 (by decide) (by decide))
    (Reachable.init zero_state zero_state_typed)

theorem one_received_stale_reachable : Reachable one_received_stale :=
  Reachable.pop _ 8
    (Reachable.push _ 0xFF 8 (is_int_small 8 (by decide) (by decide)) one_received_reachable)

/-! ## Stale bits -/

/-- Reachable states with the same window have the same derived fields. -/
theorem same_history_of_stored (s t : reach_bitmap) (hs : Reachable s) (ht : Reachable t)
    (hb : s.begin = t.begin) (he : s.end_ = t.end_) (hc : s.count = t.count)
    (hst : stored s = stored t) :
    same_history s t ∧
    (∀ m, reach_bitmap_get_mask s m = reach_bitmap_get_mask t m) ∧
    reach_bitmap_two_three s = reach_bitmap_two_three t := by
  have is_ := reachable_inv s hs
  have it := reachable_inv t ht
  have hm : ∀ m, reach_bitmap_get_mask s m = reach_bitmap_get_mask t m := by
    intro m
    apply Nat.eq_of_testBit_eq
    intro i
    rw [get_mask_stored s is_, get_mask_stored t it, hst]
  refine ⟨⟨hb, he, hc, ?_, ?_, hst⟩, hm, ?_⟩
  · rw [is_.count_set_eq, it.count_set_eq, hst]
  · rw [reachable_old_reach s hs, reachable_old_reach t ht, hm]
  · rw [two_three_inv s is_, two_three_inv t it, hm]

theorem push_same_history (s t : reach_bitmap) (hs : Reachable s) (ht : Reachable t)
    (hb : s.begin = t.begin) (he : s.end_ = t.end_) (hc : s.count = t.count)
    (hst : stored s = stored t) (v : Nat) (L : Int) (hl : is_int L) :
    same_history (reach_bitmap_push_new s v L) (reach_bitmap_push_new t v L) := by
  by_cases hr : L ≤ 0 ∨ 16 < L
  · rw [push_new_noop s v L hl hr, push_new_noop t v L hl hr]
    exact (same_history_of_stored s t hs ht hb he hc hst).1
  · obtain ⟨n, rfl⟩ := Int.eq_ofNat_of_zero_le (by omega : 0 ≤ L)
    have n1 : 1 ≤ n := by omega
    have n16 : n ≤ 16 := by omega
    have is_ := reachable_inv s hs
    have it := reachable_inv t ht
    obtain ⟨b, e, hb1, he1, hb160, he160, hc1, hc128⟩ := is_.nat
    obtain ⟨p1, p2, p3, -⟩ := push_spec s b e v n is_.bytes hb1 he1 hb160 he160 hc128 n1 n16
    obtain ⟨q1, q2, q3, -⟩ :=
      push_spec t b e v n it.bytes (hb ▸ hb1) (he ▸ he1) hb160 he160 hc128 n1 n16
    have hst2 : stored (reach_bitmap_push_new s v (n : Int)) =
        stored (reach_bitmap_push_new t v (n : Int)) := by
      rw [push_stored s is_ v n n1 n16, push_stored t it v n n1 n16, hst, hc]
    exact (same_history_of_stored _ _ (Reachable.push s v _ hl hs) (Reachable.push t v _ hl ht)
      (by rw [p1, q1]) (by rw [p2, q2]) (by rw [p3, q3]) hst2).1

theorem pop_same_history (s t : reach_bitmap) (hs : Reachable s) (ht : Reachable t)
    (hb : s.begin = t.begin) (he : s.end_ = t.end_) (hc : s.count = t.count)
    (hst : stored s = stored t) (L : Int) :
    same_history (reach_bitmap_pop_new s L) (reach_bitmap_pop_new t L) := by
  have is_ := reachable_inv s hs
  have it := reachable_inv t ht
  obtain ⟨b, e, hb1, he1, hb160, he160, hc1, hc128⟩ := is_.nat
  obtain ⟨-, p1, p2, p3, -⟩ := pop_spec s b e _ L hb1 he1 hb160 he160 hc1 rfl
  obtain ⟨-, q1, q2, q3, -⟩ :=
    pop_spec t b e _ L (hb ▸ hb1) (he ▸ he1) hb160 he160 (hc ▸ hc1) rfl
  have hst2 : stored (reach_bitmap_pop_new s L) = stored (reach_bitmap_pop_new t L) := by
    rw [pop_stored s is_ L, pop_stored t it L, hst, hc]
  exact (same_history_of_stored _ _ (Reachable.pop s L hs) (Reachable.pop t L ht)
    (by rw [p1, q1, hb]) (by rw [p2, q2, hc]) (by rw [p3, q3, hc]) hst2).1

/-- Claim C26: two reachable states with equal `begin`, `end` and `count` that agree
on every stored bit (ring positions `begin .. end - 1`), whatever the other bits of
their bitmaps, give the same `get_mask(m)` for every `m` and the same `two_three`,
and after the same `push_new` or `pop_new` call the results agree on `begin`, `end`,
`count`, `count_set`, `old_reach` and all stored bits. -/
theorem C26_stale_bits_unobservable (s t : reach_bitmap) (hs : Reachable s)
    (ht : Reachable t) (hb : s.begin = t.begin) (he : s.end_ = t.end_)
    (hc : s.count = t.count)
    (hbits : ∀ k, k < s.count.toNat →
      ring_bit s ((s.begin.toNat + k) % 160) = ring_bit t ((s.begin.toNat + k) % 160)) :
    (∀ m, reach_bitmap_get_mask s m = reach_bitmap_get_mask t m) ∧
    reach_bitmap_two_three s = reach_bitmap_two_three t ∧
    (∀ (v : Nat) (L : Int), is_int L →
      same_history (reach_bitmap_push_new s v L) (reach_bitmap_push_new t v L)) ∧
    (∀ L : Int, same_history (reach_bitmap_pop_new s L) (reach_bitmap_pop_new t L)) := by
  have hst : stored s = stored t := by
    unfold stored
    rw [← hb, ← hc]
    exact window_congr _ _ _ _ hbits
  obtain ⟨-, hm, h23⟩ := same_history_of_stored s t hs ht hb he hc hst
  exact ⟨hm, h23, fun v L hl => push_same_history s t hs ht hb he hc hst v L hl,
    fun L => pop_same_history s t hs ht hb he hc hst L⟩

theorem C26_stale_bits_unobservable_witness :
    one_received.bitmap 0 ≠ one_received_stale.bitmap 0 ∧
    ((∀ m, reach_bitmap_get_mask one_received m = reach_bitmap_get_mask one_received_stale m) ∧
    reach_bitmap_two_three one_received = reach_bitmap_two_three one_received_stale ∧
    (∀ (v : Nat) (L : Int), is_int L →
      same_history (reach_bitmap_push_new one_received v L)
        (reach_bitmap_push_new one_received_stale v L)) ∧
    (∀ L : Int, same_history (reach_bitmap_pop_new one_received L)
      (reach_bitmap_pop_new one_received_stale L))) :=
  ⟨by decide,
    C26_stale_bits_unobservable one_received one_received_stale one_received_reachable
      one_received_stale_reachable (by decide) (by decide) (by decide)
      (fun k hk => by
        have hk1 : k < 1 := hk
        have hk0 : k = 0 := by omega
        subst hk0
        decide)⟩

theorem evict_iterations_step (fuel : Nat) (s : reach_bitmap) (b e L : Nat) (hb : s.begin = b)
    (he : s.end_ = e) (hb160 : b < 160) :
    evict_iterations (fuel + 1) s (L : Int) =
      if (e + L + 160 - b) % 160 > 128 then
        evict_iterations fuel
          { s with
            count_set := s.count_set - (if ring_bit s b then 1 else 0)
            begin := (((b + 1) % 160 : Nat) : Int) } (L : Int) + 1
      else 0 := by
  have hd : distance s.begin (s.end_ + (L : Int)) HIST_SIZE_BITS =
      (((e + L + 160 - b) % 160 : Nat) : Int) := by
    unfold distance
    simp only [HIST_SIZE_BITS, HIST_SIZE_BYTES, MAX_HIST_BYTES, hb, he]
    rw [Int.tmod_eq_emod (by omega) (by omega)]
    omega
  have hn : ((b : Int) + 1).tmod HIST_SIZE_BITS = (((b + 1) % 160 : Nat) : Int) := by
    simp only [HIST_SIZE_BITS, HIST_SIZE_BYTES, MAX_HIST_BYTES]
    rw [Int.tmod_eq_emod (by omega) (by omega)]
    omega
  rw [evict_iterations, hd]
  simp only [MAX_HIST_BITS, MAX_HIST_BYTES]
  by_cases h : (e + L + 160 - b) % 160 > 128
  · have h' : (((e + L + 160 - b) % 160 : Nat) : Int) > 16 * 8 := by omega
    rw [if_pos h', if_pos h, hb, hn, at_abs_nat]
  · have h' : ¬ (((e + L + 160 - b) % 160 : Nat) : Int) > 16 * 8 := by omega
    rw [if_neg h', if_neg h]

/-- The eviction loop runs exactly `k = d + L - 128` times on a history holding `d`
bits, whatever fuel `≥ k` it is given. -/
theorem evict_iterations_spec (k : Nat) :
    ∀ (fuel : Nat) (s : reach_bitmap) (b e L : Nat), s.begin = b → s.end_ = e → b < 160 →
      e < 160 → (e + 160 - b) % 160 + L < 160 → L ≤ 128 → (e + 160 - b) % 160 + L - 128 = k →
      k ≤ fuel → evict_iterations fuel s (L : Int) = k := by
  induction k with
  | zero =>
    intro fuel s b e L hb he hb160 he160 hd hL hk hfuel
    cases fuel with
    | zero => rfl
    | succ fuel =>
      rw [evict_iterations_step fuel s b e L hb he hb160, if_neg (by omega)]
  | succ k ih =>
    intro fuel s b e L hb he hb160 he160 hd hL hk hfuel
    obtain ⟨fuel, rfl⟩ : ∃ f, fuel = f + 1 := ⟨fuel - 1, by omega⟩
    rw [evict_iterations_step fuel s b e L hb he hb160, if_pos (by omega)]
    have h := ih fuel { s with
        count_set := s.count_set - (if ring_bit s b then 1 else 0)
        begin := (((b + 1) % 160 : Nat) : Int) } ((b + 1) % 160) e L rfl he
      (Nat.mod_lt _ (by decide)) he160 (by omega) hL (by omega) (by omega)
    rw [h]

/-- Claim C27: on a reachable history and for `1 <= length <= 16`, the eviction loop
of `reach_bitmap_push_new` leaves through its own condition after exactly
`max(0, count + length - 128)` iterations, at most 16, whatever fuel at least that
large it is given; it advances `begin` by that amount modulo 160 and lowers
`count_set` by the number of 1 bits among the evicted oldest bits. -/
theorem C27_eviction_iterations (s : reach_bitmap) (h : Reachable s) (L : Nat)
    (h1 : 1 ≤ L) (h16 : L ≤ 16) :
    evict_iterations HIST_SIZE_BITS.toNat s (L : Int) = (s.count + (L : Int) - 128).toNat ∧
    evict_iterations HIST_SIZE_BITS.toNat s (L : Int) ≤ 16 ∧
    (∀ fuel, (s.count + (L : Int) - 128).toNat ≤ fuel →
      evict_iterations fuel s (L : Int) = (s.count + (L : Int) - 128).toNat ∧
      evict_loop fuel s (L : Int) = evict_loop HIST_SIZE_BITS.toNat s (L : Int)) ∧
    (evict_loop HIST_SIZE_BITS.toNat s (L : Int)).begin =
      (s.begin + (s.count + (L : Int) - 128).toNat) % 160 ∧
    (evict_loop HIST_SIZE_BITS.toNat s (L : Int)).count_set =
      s.count_set -
        ((((stored s).take (s.count + (L : Int) - 128).toNat).count true : Nat) : Int) ∧
    (evict_loop HIST_SIZE_BITS.toNat s (L : Int)).end_ = s.end_ ∧
    (evict_loop HIST_SIZE_BITS.toNat s (L : Int)).bitmap = s.bitmap := by
  have inv := reachable_inv s h
  obtain ⟨b, e, hb, he, hb160, he160, hc, hc128⟩ := inv.nat
  have hk : (s.count + (L : Int) - 128).toNat = (e + 160 - b) % 160 + L - 128 := by
    rw [hc]; omega
  have h160 : HIST_SIZE_BITS.toNat = 160 := by decide
  have hst : (stored s).take ((e + 160 - b) % 160 + L - 128) =
      window (ring_bit s) b ((e + 160 - b) % 160 + L - 128) := by
    rw [stored_nat s b _ hb hc]
    exact window_take _ _ _ _ (by omega)
  have hloop : ∀ fuel, (e + 160 - b) % 160 + L - 128 ≤ fuel → _ :=
    fun fuel hf => evict_loop_spec _ fuel s b e L hb he hb160 he160 (by omega) (by omega) rfl hf
  have hit : ∀ fuel, (e + 160 - b) % 160 + L - 128 ≤ fuel → _ :=
    fun fuel hf =>
      evict_iterations_spec _ fuel s b e L hb he hb160 he160 (by omega) (by omega) rfl hf
  rw [hk, h160, hst, hit 160 (by omega), hloop 160 (by omega)]
  refine ⟨rfl, by omega, fun fuel hf => ⟨hit fuel hf, hloop fuel hf⟩, ?_, rfl, rfl, rfl⟩
  show (((b + ((e + 160 - b) % 160 + L - 128)) % 160 : Nat) : Int) = _
  rw [hb]
  omega

theorem C27_eviction_iterations_witness :
    evict_iterations HIST_SIZE_BITS.toNat scenario_a ((8 : Nat) : Int) =
      (scenario_a.count + ((8 : Nat) : Int) - 128).toNat ∧
    evict_iterations HIST_SIZE_BITS.toNat scenario_a ((8 : Nat) : Int) ≤ 16 ∧
    (∀ fuel, (scenario_a.count + ((8 : Nat) : Int) - 128).toNat ≤ fuel →
      evict_iterations fuel scenario_a ((8 : Nat) : Int) =
        (scenario_a.count + ((8 : Nat) : Int) - 128).toNat ∧
      evict_loop fuel scenario_a ((8 : Nat) : Int) =
        evict_loop HIST_SIZE_BITS.toNat scenario_a ((8 : Nat) : Int)) ∧
    (evict_loop HIST_SIZE_BITS.toNat scenario_a ((8 : Nat) : Int)).begin =
      (scenario_a.begin + (scenario_a.count + ((8 : Nat) : Int) - 128).toNat) % 160 ∧
    (evict_loop HIST_SIZE_BITS.toNat scenario_a ((8 : Nat) : Int)).count_set =
      scenario_a.count_set -
        ((((stored scenario_a).take
          (scenario_a.count + ((8 : Nat) : Int) - 128).toNat).count true : Nat) : Int) ∧
    (evict_loop HIST_SIZE_BITS.toNat scenario_a ((8 : Nat) : Int)).end_ = scenario_a.end_ ∧
    (evict_loop HIST_SIZE_BITS.toNat scenario_a ((8 : Nat) : Int)).bitmap = scenario_a.bitmap :=
  C27_eviction_iterations scenario_a scenario_a_reachable 8 (by decide) (by decide)

theorem tdiv_four (p : Nat) : (p : Int).tdiv 4 = ((p / 4 : Nat) : Int) := by
  rw [Int.tdiv_eq_ediv (by omega) (by decide)]
  omega

/-- The pointers and terminators set by the second part of `update_ends`. -/
theorem update_hex_ends_hex (s : reach_bitmap) (b e : Nat) (hb : s.begin = b)
    (he : s.end_ = e) :
    (s.count ≠ 0 →
      (update_hex_ends s).begin1 = ((b / 4 : Nat) : Int) ∧
      (update_hex_ends s).end1 = (((if b ≤ e then (e + 3) / 4 else 40) : Nat) : Int) ∧
      (update_hex_ends s).begin2 = (((if b ≤ e then (e + 3) / 4 else 0) : Nat) : Int) ∧
      (update_hex_ends s).end2 = (((e + 3) / 4 : Nat) : Int) ∧
      (update_hex_ends s).hex =
        arr_set (arr_set s.hex (if b ≤ e then (e + 3) / 4 else 40) (Char.ofNat 0))
          ((e + 3) / 4) (Char.ofNat 0)) ∧
    (s.count = 0 → (update_hex_ends s).hex = s.hex) := by
  have h3 : ((e : Int) + 3).tdiv 4 = (((e + 3) / 4 : Nat) : Int) := by
    have := tdiv_four (e + 3)
    push_cast at this
    exact this
  have ht : (((e : Int) + 3) / 4).toNat = (e + 3) / 4 := by omega
  unfold update_hex_ends
  dsimp only
  rw [hb, he, h3, tdiv_four]
  constructor
  · intro hc
    rw [if_pos hc]
    by_cases hbe : b ≤ e
    · have hbe2 : (b : Int) ≤ (e : Int) := by omega
      rw [if_pos hbe2]
      simp [hbe]
      rw [ht]
    · have hbe2 : ¬ (b : Int) ≤ (e : Int) := by omega
      rw [if_neg hbe2]
      simp [hbe, MAX_HIST_BYTES]
      rw [ht]
  · intro hc
    rw [if_neg (by rw [hc]; exact fun h => h rfl)]

/-- Pointers, terminators and the rest of `hex` after `update_ends`. -/
theorem update_ends_hex (s : reach_bitmap) (b e : Nat) (hb : s.begin = b) (he : s.end_ = e)
    (hb160 : b < 160) (he160 : e < 160) :
    ((e + 160 - b) % 160 ≠ 0 →
      (update_ends s).begin1 = ((b / 4 : Nat) : Int) ∧
      (update_ends s).end1 = (((if b ≤ e then (e + 3) / 4 else 40) : Nat) : Int) ∧
      (update_ends s).begin2 = (((if b ≤ e then (e + 3) / 4 else 0) : Nat) : Int) ∧
      (update_ends s).end2 = (((e + 3) / 4 : Nat) : Int) ∧
      (update_ends s).hex =
        arr_set (arr_set s.hex (if b ≤ e then (e + 3) / 4 else 40) (Char.ofNat 0))
          ((e + 3) / 4) (Char.ofNat 0)) ∧
    ((e + 160 - b) % 160 = 0 → (update_ends s).hex = s.hex) := by
  have e1 : (update_ends s).begin1 = (update_hex_ends (update_count s)).begin1 := by
    simp only [update_ends]
  have e2 : (update_ends s).end1 = (update_hex_ends (update_count s)).end1 := by
    simp only [update_ends]
  have e3 : (update_ends s).begin2 = (update_hex_ends (update_count s)).begin2 := by
    simp only [update_ends]
  have e4 : (update_ends s).end2 = (update_hex_ends (update_count s)).end2 := by
    simp only [update_ends]
  have e5 : (update_ends s).hex = (update_hex_ends (update_count s)).hex := by
    simp only [update_ends]
  have e6 : (update_ends s).count = (update_hex_ends (update_count s)).count := by
    simp only [update_ends]
  have c1 : (update_count s).begin = b := by rw [← hb]; simp only [update_count]
  have c2 : (update_count s).end_ = e := by rw [← he]; simp only [update_count]
  have c3 : (update_count s).hex = s.hex := by simp only [update_count]
  have c4 : (update_count s).count = (((e + 160 - b) % 160 : Nat) : Int) := by
    rw [← (update_hex_ends_frame _).2.2.2.1, ← e6]
    exact update_ends_count_nat s b e hb he hb160 he160
  obtain ⟨h1, h2⟩ := update_hex_ends_hex (update_count s) b e c1 c2
  rw [e1, e2, e3, e4, e5, ← c3]
  exact ⟨fun hc => h1 (by rw [c4]; omega), fun hc => h2 (by rw [c4]; omega)⟩

theorem ins_cur_cases (e L : Nat) : ins_cur e L = L ∨ ins_cur e L = 8 - e % 8 := by
  unfold ins_cur
  split_ifs
  · exact Or.inl rfl
  · exact Or.inr rfl

/-- Frame of the insertion loop on bytes and on `hex`: only the bytes holding the
ring positions `e .. e + L - 1` and their two hex digits are written, the digits
written are those of the final byte, and the bits of byte `e / 8` before position
`e` stay. -/
theorem insert_loop_frame (fuel : Nat) :
    ∀ (s : reach_bitmap) (v e L : Nat), s.end_ = e → e < 160 → L ≤ fuel → L ≤ 16 →
      (∀ i, (∀ j, j < L → (e + j) % 160 / 8 ≠ i) →
        (insert_loop fuel s v (L : Int)).bitmap i = s.bitmap i) ∧
      (∀ n, (∀ j, j < L → (e + j) % 160 / 8 ≠ n / 2) →
        (insert_loop fuel s v (L : Int)).hex n = s.hex n) ∧
      (∀ n j, j < L → (e + j) % 160 / 8 = n / 2 →
        (insert_loop fuel s v (L : Int)).hex n =
          hex_digit (insert_loop fuel s v (L : Int)) n) ∧
      (∀ p, p / 8 = e / 8 → p % 8 < e % 8 →
        ring_bit (insert_loop fuel s v (L : Int)) p = ring_bit s p) := by
  induction fuel with
  | zero =>
    intro s v e L he he160 hfuel hL
    have hL0 : L = 0 := by omega
    subst hL0
    rw [Nat.cast_zero, insert_loop_zero]
    exact ⟨fun _ _ => rfl, fun _ _ => rfl, fun _ j hj => by omega, fun _ _ _ => rfl⟩
  | succ fuel ih =>
    intro s v e L he he160 hfuel hL
    by_cases hL0 : L = 0
    · subst hL0
      rw [Nat.cast_zero, insert_loop_zero]
      exact ⟨fun _ _ => rfl, fun _ _ => rfl, fun _ j hj => by omega, fun _ _ _ => rfl⟩
    have hLpos : 0 < L := by omega
    obtain ⟨hk1, hk2, hk3⟩ := ins_cur_bounds e L hLpos
    have hkc := ins_cur_cases e L
    rw [insert_loop_step fuel s v e L he hLpos]
    generalize hs1 : ({ s with
          bitmap := arr_set s.bitmap (e / 8) (ins_byte (s.bitmap (e / 8)) v e L)
          count_set := s.count_set + countset_byte (ins_t v e L)
          hex := arr_set
            (arr_set s.hex (e / 8 * 2)
              (hex_map.getD (ins_byte (s.bitmap (e / 8)) v e L / 16) '0'))
            (e / 8 * 2 + 1) (hex_map.getD (ins_byte (s.bitmap (e / 8)) v e L % 16) '0')
          end_ := (((e + ins_cur e L) % 160 : Nat) : Int) } : reach_bitmap) = s1
    have hbm : s1.bitmap = arr_set s.bitmap (e / 8) (ins_byte (s.bitmap (e / 8)) v e L) := by
      rw [← hs1]
    have hhex : s1.hex = arr_set
            (arr_set s.hex (e / 8 * 2)
              (hex_map.getD (ins_byte (s.bitmap (e / 8)) v e L / 16) '0'))
            (e / 8 * 2 + 1) (hex_map.getD (ins_byte (s.bitmap (e / 8)) v e L % 16) '0') := by
      rw [← hs1]
    have hend : s1.end_ = (((e + ins_cur e L) % 160 : Nat) : Int) := by rw [← hs1]
    obtain ⟨r1, r2, r3, r4⟩ :=
      ih s1 v ((e + ins_cur e L) % 160) (L - ins_cur e L) hend (Nat.mod_lt _ (by decide))
        (by omega) (by omega)
    have hstep := fun p => ring_bit_step s s1 v e L p hLpos hbm
    generalize insert_loop fuel s1 v ((L - ins_cur e L : Nat) : Int) = s2 at r1 r2 r3 r4 ⊢
    generalize ins_cur e L = k at *
    generalize ins_byte (s.bitmap (e / 8)) v e L = nb at *
    -- the byte holding `e` is not written again by the later iterations
    have later : ∀ j, j < L - k → ((e + k) % 160 + j) % 160 / 8 ≠ e / 8 := by
      intro j hj
      omega
    have hb2 : s2.bitmap (e / 8) = nb := by
      rw [r1 (e / 8) later, hbm]
      simp [arr_set]
    refine ⟨?_, ?_, ?_, ?_⟩
    · intro i hi
      have h0 := hi 0 hLpos
      have hne : i ≠ e / 8 := by omega
      rw [r1 i (fun j hj => by
        have := hi (k + j) (by omega)
        have e2 : ((e + k) % 160 + j) % 160 = (e + (k + j)) % 160 := by omega
        rw [e2]; exact this), hbm]
      simp [arr_set, hne]
    · intro n hn
      have h0 := hn 0 hLpos
      have hne : n / 2 ≠ e / 8 := by omega
      have hn1 : n ≠ e / 8 * 2 := by omega
      have hn2 : n ≠ e / 8 * 2 + 1 := by omega
      rw [r2 n (fun j hj => by
        have := hn (k + j) (by omega)
        have e2 : ((e + k) % 160 + j) % 160 = (e + (k + j)) % 160 := by omega
        rw [e2]; exact this), hhex]
      simp [arr_set, hn1, hn2]
    · intro n j hj hjn
      by_cases hbyte : n / 2 = e / 8
      · rw [r2 n (fun j hj => by rw [hbyte]; exact later j hj), hhex]
        unfold hex_digit nibble
        rw [hbyte, hb2]
        by_cases hpar : n % 2 = 0
        · have hn1 : n = e / 8 * 2 := by omega
          have hn2 : ¬ n = e / 8 * 2 + 1 := by omega
          rw [if_pos hpar]
          simp [arr_set, hn1]
        · have hn2 : n = e / 8 * 2 + 1 := by omega
          rw [if_neg hpar]
          simp [arr_set, hn2]
      · have hjk : k ≤ j := by
          by_contra hlt
          apply hbyte
          rw [← hjn]
          omega
        exact r3 n (j - k) (by omega) (by
          rw [← hjn]
          congr 1
          omega)
    · intro p hp hlt
      have h1 : ring_bit s2 p = ring_bit s1 p := by
        unfold ring_bit
        rw [hp, hb2, hbm]
        simp [arr_set]
      rw [h1, hstep p, if_pos hp, if_pos hlt]

/-- An in-range push is `update_ends` on a state that differs from the old one, in
`bitmap` and `hex`, only at the bytes holding the ring positions `e .. e + L - 1`. -/
theorem push_core (s : reach_bitmap) (b e v L : Nat) (hs : byte_typed s) (hb : s.begin = b)
    (he : s.end_ = e) (hb160 : b < 160) (he160 : e < 160) (hc : (e + 160 - b) % 160 ≤ 128)
    (h1 : 1 ≤ L) (h16 : L ≤ 16) :
    ∃ s2 : reach_bitmap, reach_bitmap_push_new s v (L : Int) = update_ends s2 ∧
      s2.begin = (((b + ((e + 160 - b) % 160 + L - 128)) % 160 : Nat) : Int) ∧
      s2.end_ = (((e + L) % 160 : Nat) : Int) ∧
      (∀ i, (∀ j, j < L → (e + j) % 160 / 8 ≠ i) → s2.bitmap i = s.bitmap i) ∧
      (∀ n, (∀ j, j < L → (e + j) % 160 / 8 ≠ n / 2) → s2.hex n = s.hex n) ∧
      (∀ n j, j < L → (e + j) % 160 / 8 = n / 2 → s2.hex n = hex_digit s2 n) ∧
      (∀ p, p / 8 = e / 8 → p % 8 < e % 8 → ring_bit s2 p = ring_bit s p) := by
  rw [push_new_eq s v L h1 h16]
  have hev := evict_loop_spec ((e + 160 - b) % 160 + L - 128) 160 s b e L hb he hb160 he160
    (by omega) (by omega) rfl (by omega)
  rw [hev]
  generalize hs1 : ({ s with
      begin := (((b + ((e + 160 - b) % 160 + L - 128)) % 160 : Nat) : Int)
      count_set := s.count_set -
        (((window (ring_bit s) b ((e + 160 - b) % 160 + L - 128)).count true : Nat) : Int) }
      : reach_bitmap) = s1
  have e1 : s1.end_ = e := by rw [← hs1]; exact he
  have b1 : s1.begin = (((b + ((e + 160 - b) % 160 + L - 128)) % 160 : Nat) : Int) := by
    rw [← hs1]
  have t1 : byte_typed s1 := by rw [← hs1]; exact hs
  have f1 : ring_bit s1 = ring_bit s := by rw [← hs1]; rfl
  have f2 : s1.bitmap = s.bitmap := by rw [← hs1]
  have f3 : s1.hex = s.hex := by rw [← hs1]
  obtain ⟨r1, r2, -⟩ :=
    insert_loop_spec L s1 (to_ushort (v &&& (0xFFFF >>> (16 - L)))) e L e1 he160 (le_refl _)
      h16 t1
  obtain ⟨q1, q2, q3, q4⟩ :=
    insert_loop_frame L s1 (to_ushort (v &&& (0xFFFF >>> (16 - L)))) e L e1 he160 (le_refl _)
      h16
  refine ⟨_, rfl, r2.trans b1, r1, ?_, ?_, q3, ?_⟩
  · intro i hi
    rw [q1 i hi, f2]
  · intro n hn
    rw [q2 n hn, f3]
  · intro p hp hlt
    rw [q4 p hp hlt, f1]

/-- Claim C28: for every reachable history and in-range `push_new(value, length)`,
the bytes of the bitmap outside those holding the ring positions
`end .. end + length - 1` (bytes `end / 8` through `((end + length - 1) mod 160) / 8`)
are unchanged, the bits of byte `end / 8` before position `end` are preserved, and
every bit of the retained window `begin' .. end - 1` is unchanged, the write
wrapping from byte 19 to byte 0 included. -/
theorem C28_push_write_frame (s : reach_bitmap) (h : Reachable s) (v L : Nat) (h1 : 1 ≤ L)
    (h16 : L ≤ 16) :
    (∀ i, (∀ j, j < L → (s.end_.toNat + j) % 160 / 8 ≠ i) →
      (reach_bitmap_push_new s v (L : Int)).bitmap i = s.bitmap i) ∧
    (∀ p, p / 8 = s.end_.toNat / 8 → p % 8 < s.end_.toNat % 8 →
      ring_bit (reach_bitmap_push_new s v (L : Int)) p = ring_bit s p) ∧
    (∀ k : Nat, ((k + L : Nat) : Int) < (reach_bitmap_push_new s v (L : Int)).count →
      ring_bit (reach_bitmap_push_new s v (L : Int))
          (((reach_bitmap_push_new s v (L : Int)).begin.toNat + k) % 160) =
        ring_bit s (((reach_bitmap_push_new s v (L : Int)).begin.toNat + k) % 160)) ∧
    (∀ j, j < L → (s.end_.toNat + j) % 160 / 8 = s.end_.toNat / 8 ∨
      (s.end_.toNat + j) % 160 / 8 = (s.end_.toNat / 8 + 1) % 20 ∨
      (s.end_.toNat + j) % 160 / 8 = (s.end_.toNat / 8 + 2) % 20) := by
  have inv := reachable_inv s h
  obtain ⟨b, e, hb, he, hb160, he160, hc, hc128⟩ := inv.nat
  obtain ⟨s2, hp, -, -, q1, -, -, q4⟩ :=
    push_core s b e v L inv.bytes hb he hb160 he160 hc128 h1 h16
  obtain ⟨p1, p2, p3, -, -, -, p7⟩ := push_spec s b e v L inv.bytes hb he hb160 he160 hc128 h1 h16
  have hbm : (update_ends s2).bitmap = s2.bitmap := update_ends_bitmap s2
  have hrb : ring_bit (update_ends s2) = ring_bit s2 := by
    funext p
    unfold ring_bit
    rw [hbm]
  have het : s.end_.toNat = e := by rw [he]; rfl
  rw [het]
  refine ⟨?_, ?_, ?_, ?_⟩
  · intro i hi
    rw [hp, hbm]
    exact q1 i hi
  · intro p hp8 hlt
    rw [hp, hrb]
    exact q4 p hp8 hlt
  · generalize reach_bitmap_push_new s v (L : Int) = t at *
    clear hp hbm hrb q1 q4 inv h
    intro k hk
    rw [p3] at hk
    have hbt : t.begin.toNat = (b + ((e + 160 - b) % 160 + L - 128)) % 160 := by
      rw [p1]; rfl
    rw [hbt]
    apply p7
    · exact Nat.mod_lt _ (by decide)
    · clear p7 p1 p2 p3 hbt hc hb he het
      generalize hcd : (e + 160 - b) % 160 = c at *
      have hk2 : k + L < c + L - (c + L - 128) := by omega
      have hbe : (b + c) % 160 = e := by omega
      clear hk hcd
      omega
  · intro j hj
    clear hp hbm hrb q1 q4 inv h p7 p1 p2 p3 hc hb he het
    omega

theorem C28_push_write_frame_witness :
    (∀ i, (∀ j, j < 8 → (scenario_a.end_.toNat + j) % 160 / 8 ≠ i) →
      (reach_bitmap_push_new scenario_a 0xFF ((8 : Nat) : Int)).bitmap i = scenario_a.bitmap i) ∧
    (∀ p, p / 8 = scenario_a.end_.toNat / 8 → p % 8 < scenario_a.end_.toNat % 8 →
      ring_bit (reach_bitmap_push_new scenario_a 0xFF ((8 : Nat) : Int)) p =
        ring_bit scenario_a p) ∧
    (∀ k : Nat, ((k + 8 : Nat) : Int) < (reach_bitmap_push_new scenario_a 0xFF ((8 : Nat) : Int)).count →
      ring_bit (reach_bitmap_push_new scenario_a 0xFF ((8 : Nat) : Int))
          (((reach_bitmap_push_new scenario_a 0xFF ((8 : Nat) : Int)).begin.toNat + k) % 160) =
        ring_bit scenario_a
          (((reach_bitmap_push_new scenario_a 0xFF ((8 : Nat) : Int)).begin.toNat + k) % 160)) ∧
    (∀ j, j < 8 → (scenario_a.end_.toNat + j) % 160 / 8 = scenario_a.end_.toNat / 8 ∨
      (scenario_a.end_.toNat + j) % 160 / 8 = (scenario_a.end_.toNat / 8 + 1) % 20 ∨
      (scenario_a.end_.toNat + j) % 160 / 8 = (scenario_a.end_.toNat / 8 + 2) % 20) :=
  C28_push_write_frame scenario_a scenario_a_reachable 0xFF 8 (by decide) (by decide)

/-! ## The hex cache -/

theorem hex_digit_congr (s t : reach_bitmap) (n : Nat) (h : t.bitmap (n / 2) = s.bitmap (n / 2)) :
    hex_digit t n = hex_digit s n := by
  unfold hex_digit nibble
  rw [h]

/-- The state left by `update_ends` has a sound hex cache as soon as the nibbles of
the window showed the right digits before. -/
theorem update_ends_hex_ok (s2 : reach_bitmap) (b e : Nat) (hb : s2.begin = b)
    (he : s2.end_ = e) (hb160 : b < 160) (he160 : e < 160) (hc128 : (e + 160 - b) % 160 ≤ 128)
    (hd : ∀ k, k < (e + 160 - b) % 160 →
      s2.hex ((b + k) % 160 / 4) = hex_digit s2 ((b + k) % 160 / 4)) :
    hex_ok (update_ends s2) := by
  have tb : (update_ends s2).begin.toNat = b := by rw [update_ends_begin, hb]; rfl
  have te : (update_ends s2).end_.toNat = e := by rw [update_ends_end, he]; rfl
  have tc := update_ends_count_nat s2 b e hb he hb160 he160
  have tcn : (update_ends s2).count.toNat = (e + 160 - b) % 160 := by rw [tc]; rfl
  have tbm := update_ends_bitmap s2
  obtain ⟨u1, -⟩ := update_ends_hex s2 b e hb he hb160 he160
  unfold hex_ok
  rw [tb, te, tcn, tc]
  generalize update_ends s2 = t at *
  constructor
  · intro k hk
    obtain ⟨-, -, -, -, hx⟩ := u1 (by omega)
    rw [hex_digit_congr s2 t _ (by rw [tbm]), ← hd k hk, hx]
    have n1 : (b + k) % 160 / 4 ≠ (e + 3) / 4 := by
      clear hx hd tbm tc tcn te tb u1 hb he
      omega
    have n2 : (b + k) % 160 / 4 ≠ 40 := by
      clear hx hd tbm tc tcn te tb u1 hb he
      omega
    by_cases hbe : b ≤ e
    · simp [arr_set, n1, hbe]
    · simp [arr_set, n1, n2, hbe]
  · intro hc0
    obtain ⟨g1, g2, g3, g4, hx⟩ := u1 (by omega)
    refine ⟨g1, g2, g3, g4, ?_, ?_⟩
    · rw [g2, Int.toNat_ofNat, hx]
      simp [arr_set]
    · rw [g4, Int.toNat_ofNat, hx]
      simp [arr_set]

theorem init_hex_ok (s0 : reach_bitmap) : hex_ok (reach_bitmap_init s0) := by
  obtain ⟨-, -, -, f4, -⟩ := init_fields s0
  unfold hex_ok
  rw [f4]
  exact ⟨fun k hk => by simp at hk, fun h => absurd rfl h⟩

theorem push_hex_ok (s : reach_bitmap) (inv : Inv s) (hk : hex_ok s) (v L : Nat)
    (h1 : 1 ≤ L) (h16 : L ≤ 16) : hex_ok (reach_bitmap_push_new s v (L : Int)) := by
  obtain ⟨b, e, hb, he, hb160, he160, hc, hc128⟩ := inv.nat
  obtain ⟨s2, hp, b2, e2, q1, q2, q3, -⟩ :=
    push_core s b e v L inv.bytes hb he hb160 he160 hc128 h1 h16
  have hd0 := hk.1
  have sb : s.begin.toNat = b := by rw [hb]; rfl
  have sc : s.count.toNat = (e + 160 - b) % 160 := by rw [hc]; rfl
  rw [sb, sc] at hd0
  rw [hp]
  clear hp hk inv hb he hc sb sc
  generalize hcd : (e + 160 - b) % 160 = c at *
  have hbe : (b + c) % 160 = e := by omega
  clear hcd
  apply update_ends_hex_ok s2 _ _ b2 e2 (Nat.mod_lt _ (by decide)) (Nat.mod_lt _ (by decide))
  · omega
  · intro k hk
    have hk2 : k < c + L - (c + L - 128) := by omega
    clear hk
    generalize hn : (((b + (c + L - 128)) % 160 + k) % 160 / 4) = n
    by_cases ht : ∃ j, j < L ∧ (e + j) % 160 / 8 = n / 2
    · obtain ⟨j, hj, hjn⟩ := ht
      exact q3 n j hj hjn
    · have hnt : ∀ j, j < L → (e + j) % 160 / 8 ≠ n / 2 := fun j hj hjn => ht ⟨j, hj, hjn⟩
      rw [q2 n hnt, hex_digit_congr s s2 n (q1 _ hnt)]
      have hin : c + L - 128 + k < c := by
        by_contra hge
        apply hnt (c + L - 128 + k - c) (by omega)
        rw [← hn]
        clear hn hnt ht q1 q2 q3 hd0 b2 e2
        omega
      have := hd0 (c + L - 128 + k) hin
      have hpos : (b + (c + L - 128 + k)) % 160 / 4 = n := by
        rw [← hn]
        clear hn hnt ht q1 q2 q3 hd0 b2 e2 this
        omega
      rw [hpos] at this
      exact this

theorem pop_hex_ok (s : reach_bitmap) (inv : Inv s) (hk : hex_ok s) (length : Int) :
    hex_ok (reach_bitmap_pop_new s length) := by
  obtain ⟨b, e, hb, he, hb160, he160, hc, hc128⟩ := inv.nat
  have hd0 := hk.1
  have sb : s.begin.toNat = b := by rw [hb]; rfl
  have sc : s.count.toNat = (e + 160 - b) % 160 := by rw [hc]; rfl
  rw [sb, sc] at hd0
  have hle : (if s.count < length then s.count else length).toNat ≤ (e + 160 - b) % 160 := by
    rw [hc]
    split_ifs <;> omega
  simp only [reach_bitmap_pop_new]
  generalize (if s.count < length then s.count else length).toNat = n at *
  have hp := pop_loop_spec n s e he he160 (by omega)
  have hpb : (pop_loop n s).begin = b := by rw [hp]; exact hb
  have hpe : (pop_loop n s).end_ = (((e + 160 - n) % 160 : Nat) : Int) := by rw [hp]
  have hpm : (pop_loop n s).bitmap = s.bitmap := by rw [hp]
  have hph : (pop_loop n s).hex = s.hex := by rw [hp]
  generalize pop_loop n s = s1 at *
  clear hp hk inv hb he hc sb sc
  apply update_ends_hex_ok s1 _ _ hpb hpe hb160 (Nat.mod_lt _ (by decide))
  · omega
  · intro k hk
    rw [hph, hex_digit_congr s s1 _ (by rw [hpm])]
    exact hd0 k (by omega)

theorem reachable_hex_ok (s : reach_bitmap) (h : Reachable s) : hex_ok s := by
  induction h with
  | init s0 h0 => exact init_hex_ok s0
  | push s v L hl hr ih =>
    by_cases hr2 : L ≤ 0 ∨ 16 < L
    · rw [push_new_noop s v L hl hr2]
      exact ih
    · obtain ⟨n, rfl⟩ := Int.eq_ofNat_of_zero_le (by omega : 0 ≤ L)
      exact push_hex_ok s (reachable_inv s hr) ih v n (by omega) (by omega)
  | pop s L hr ih => exact pop_hex_ok s (reachable_inv s hr) ih L

theorem hex_map_getD (i : Nat) :
    hex_map.getD i '0' ≠ Char.ofNat 0 ∧ hex_map.getD i '0' ∈ hex_map := by
  by_cases hi : i < 16
  · interval_cases i <;> decide
  · rw [List.getD_eq_default _ _ (by
      have : hex_map.length = 16 := by decide
      omega)]
    decide

theorem nibble_lt (s : reach_bitmap) (hs : byte_typed s) (n : Nat) : nibble s n < 16 := by
  unfold nibble
  have := hs (n / 2)
  split_ifs <;> omega

/-- Every nibble of the window shows its digit. -/
theorem window_nibble_digit (s : reach_bitmap) (hk : hex_ok s) (b c : Nat)
    (hb : s.begin = b) (hc : s.count = c) (hc0 : 0 < c) (t : Nat)
    (ht : t < (b % 4 + c + 3) / 4) :
    s.hex ((b / 4 + t) % 40) = hex_digit s ((b / 4 + t) % 40) := by
  have hd := hk.1
  have sb : s.begin.toNat = b := by rw [hb]; rfl
  have sc : s.count.toNat = c := by rw [hc]; rfl
  rw [sb, sc] at hd
  have h := hd (if t = 0 then 0 else 4 * t - b % 4) (by split_ifs <;> omega)
  have hpos : (b + (if t = 0 then 0 else 4 * t - b % 4)) % 160 / 4 = (b / 4 + t) % 40 := by
    split_ifs <;> omega
  rw [hpos] at h
  exact h

/-- Claim C30: in every reachable state with `count > 0`, the first run starts at
`hex[begin / 4]`, the two runs together are exactly the lowercase hex digits of the
nibbles of the bitmap from the nibble holding bit `begin` through the nibble holding
bit `end - 1`, in ring order; no character of the rendering is the terminator, the
terminators stand at `end1` and `end2`, and the second run is non-empty exactly when
the window wraps (`begin > end` and `end > 0`). -/
theorem C30_hex_rendering (s : reach_bitmap) (h : Reachable s) (hc0 : 0 < s.count) :
    s.begin1 = s.begin / 4 ∧
    rendering s = window_digits s ∧
    (∀ ch, ch ∈ rendering s → ch ≠ Char.ofNat 0 ∧ ch ∈ hex_map) ∧
    (∀ n, nibble s n < 16) ∧
    s.hex s.end1.toNat = Char.ofNat 0 ∧ s.hex s.end2.toNat = Char.ofNat 0 ∧
    (hex_run s s.begin2 s.end2 ≠ [] ↔ s.begin > s.end_ ∧ s.end_ > 0) := by
  have inv := reachable_inv s h
  have hk := reachable_hex_ok s h
  obtain ⟨b, e, hb, he, hb160, he160, hc, hc128⟩ := inv.nat
  have hcpos : 0 < (e + 160 - b) % 160 := by rw [hc] at hc0; omega
  have hdig := window_nibble_digit s hk b _ hb hc hcpos
  obtain ⟨g1, g2, g3, g4, g5, g6⟩ := hk.2 (by omega)
  have sb : s.begin.toNat = b := by rw [hb]; rfl
  have se : s.end_.toNat = e := by rw [he]; rfl
  have sc : s.count.toNat = (e + 160 - b) % 160 := by rw [hc]; rfl
  simp only [sb, se] at g1 g2 g3 g4
  have hrend : rendering s = window_digits s := by
    unfold rendering window_digits hex_run
    rw [sb, sc, g1, g2, g3, g4]
    by_cases hbe : b ≤ e
    · simp only [if_pos hbe]
      have l1 : ((((e + 3) / 4 : Nat) : Int) - ((b / 4 : Nat) : Int)).toNat =
          (b % 4 + (e + 160 - b) % 160 + 3) / 4 := by omega
      have l2 : ((((e + 3) / 4 : Nat) : Int) - (((e + 3) / 4 : Nat) : Int)).toNat = 0 := by
        omega
      rw [l1, l2, List.range_zero, List.map_nil, List.append_nil, Int.toNat_ofNat]
      apply List.map_congr_left
      intro t ht
      rw [List.mem_range] at ht
      rw [← hdig t ht]
      congr 1
      omega
    · simp only [if_neg hbe]
      have l1 : (((40 : Nat) : Int) - ((b / 4 : Nat) : Int)).toNat = 40 - b / 4 := by omega
      have l2 : ((((e + 3) / 4 : Nat) : Int) - ((0 : Nat) : Int)).toNat = (e + 3) / 4 := by
        omega
      have l3 : (b % 4 + (e + 160 - b) % 160 + 3) / 4 = (40 - b / 4) + (e + 3) / 4 := by
        omega
      rw [l1, l2, l3, List.range_add, List.map_append, List.map_map, Int.toNat_ofNat,
        Int.toNat_ofNat]
      congr 1
      · apply List.map_congr_left
        intro t ht
        rw [List.mem_range] at ht
        rw [← hdig t (by omega)]
        congr 1
        omega
      · apply List.map_congr_left
        intro t ht
        rw [List.mem_range] at ht
        rw [Function.comp_apply, ← hdig (40 - b / 4 + t) (by omega)]
        congr 1
        omega
  have hrun2 : hex_run s s.begin2 s.end2 ≠ [] ↔ s.begin > s.end_ ∧ s.end_ > 0 := by
    unfold hex_run
    rw [g3, g4, hb, he, Ne, List.map_eq_nil_iff, List.range_eq_nil]
    by_cases hbe : b ≤ e
    · simp only [if_pos hbe]
      omega
    · simp only [if_neg hbe]
      omega
  refine ⟨?_, hrend, ?_, nibble_lt s inv.bytes, g5, g6, hrun2⟩
  · rw [g1, hb]
    omega
  · intro ch hch
    rw [hrend] at hch
    unfold window_digits at hch
    rw [List.mem_map] at hch
    obtain ⟨t, -, rfl⟩ := hch
    exact hex_map_getD _

theorem C30_hex_rendering_witness :
    rendering scenario_a = ['4', '8'] ∧
    (scenario_a.begin1 = scenario_a.begin / 4 ∧
    rendering scenario_a = window_digits scenario_a ∧
    (∀ ch, ch ∈ rendering scenario_a → ch ≠ Char.ofNat 0 ∧ ch ∈ hex_map) ∧
    (∀ n, nibble scenario_a n < 16) ∧
    scenario_a.hex scenario_a.end1.toNat = Char.ofNat 0 ∧
    scenario_a.hex scenario_a.end2.toNat = Char.ofNat 0 ∧
    (hex_run scenario_a scenario_a.begin2 scenario_a.end2 ≠ [] ↔
      scenario_a.begin > scenario_a.end_ ∧ scenario_a.end_ > 0)) :=
  ⟨by decide, C30_hex_rendering scenario_a scenario_a_reachable (by decide)⟩

/-! ## Monotonicity and floors of the metric -/

/-- The cost before the delay test is monotone in the line cost. -/
theorem metric_cost_mono (s : reach_bitmap) (inv : Inv s) (hc : 0 < s.count) (c1 c2 : Int)
    (h0 : 0 ≤ c1) (h12 : c1 ≤ c2) (h2 : c2 ≤ 32767) :
    0 ≤ metric_cost s c1 ∧ metric_cost s c1 ≤ metric_cost s c2 := by
  have hm := multipler_1e4_bounds s inv hc
  obtain ⟨e1, p1, -⟩ := metric_cost_eq s c1 h0 (by omega) hm.1 hm.2
  obtain ⟨e2, p2, -⟩ := metric_cost_eq s c2 (by omega) h2 hm.1 hm.2
  refine ⟨p1, ?_⟩
  rw [e1, e2]
  apply Int.ediv_le_ediv (by decide)
  exact Int.mul_le_mul_of_nonneg_right h12 (by omega)

/-- Claim C35: on a reachable history with `count > 0`, for every delay of at most
40000 the metric is monotone in the line cost on `0 .. 32767`, and it is 0 for line
cost 0. -/
theorem C35_metric_monotone_line_cost (s : reach_bitmap) (h : Reachable s) (hc : 0 < s.count)
    (delay : Nat) (hd : delay ≤ 40000) (c1 c2 : Int) (h0 : 0 ≤ c1) (h12 : c1 ≤ c2)
    (h2 : c2 ≤ 32767) :
    reach_bitmap_metric s c1 delay ≤ reach_bitmap_metric s c2 delay ∧
    reach_bitmap_metric s 0 delay = 0 := by
  have inv := reachable_inv s h
  obtain ⟨p1, p12⟩ := metric_cost_mono s inv hc c1 c2 h0 h12 h2
  have m1 := metric_small_delay_int s c1 delay hd p1
  have m2 := metric_small_delay_int s c2 delay hd (by omega)
  have hm := multipler_1e4_bounds s inv hc
  obtain ⟨e0, p0, -⟩ := metric_cost_eq s 0 (le_refl _) (by decide) hm.1 hm.2
  have m0 := metric_small_delay_int s 0 delay hd p0
  rw [e0, Int.zero_mul, Int.zero_ediv] at m0
  constructor
  · have : ((reach_bitmap_metric s c1 delay : Nat) : Int) ≤
        ((reach_bitmap_metric s c2 delay : Nat) : Int) := by
      rw [m1, m2]
      omega
    exact_mod_cast this
  · have : ((reach_bitmap_metric s 0 delay : Nat) : Int) = 0 := by
      rw [m0]
      decide
    exact_mod_cast this

theorem C35_metric_monotone_line_cost_witness :
    reach_bitmap_metric scenario_a 96 40000 ≤ reach_bitmap_metric scenario_a 100 40000 ∧
    reach_bitmap_metric scenario_a 0 40000 = 0 :=
  C35_metric_monotone_line_cost scenario_a scenario_a_reachable (by decide) 40000 (by decide)
    96 100 (by decide) (by decide) (by decide)

/-- A 16-bit pattern with no bit set at or above position `c` has at most `c` bits
set. -/
theorem popcount16_le_of_high_zero (x c : Nat) (hc : c ≤ 16)
    (h : ∀ i, c ≤ i → x.testBit i = false) : popcount16 x ≤ c := by
  unfold popcount16
  have h16 : (16 : Nat) = c + (16 - c) := by omega
  rw [h16, value_bits_add, List.count_append,
    value_bits_zero_bits (x >>> c) (16 - c) (fun i _ => by
      rw [Nat.testBit_shiftRight]
      exact h _ (by omega))]
  have h1 : (List.replicate (16 - c) false).count true = 0 := by
    rw [List.count_replicate]
    simp
  have h2 := List.count_le_length true (value_bits x c)
  rw [value_bits_length] at h2
  omega

/-- The number of recent ones never exceeds the number of stored bits. -/
theorem last_bits_le_count (s : reach_bitmap) (h : Reachable s) (hc : s.count ≤ 16) :
    last_bits s ≤ s.count := by
  have inv := reachable_inv s h
  obtain ⟨c0, c1, -⟩ := inv_count_bounds s inv
  rw [reachable_last_bits s h]
  have hp := popcount16_le_of_high_zero (reach_bitmap_get_mask s 0xFFFF) s.count.toNat
    (by omega) (fun i hi => by
      rw [get_mask_stored s inv,
        List.getElem?_eq_none (by rw [List.length_reverse, stored_length]; exact hi)]
      simp)
  omega

/-- Claim C33: on a reachable history with `0 < count < 14`, for every line cost in
`0 .. 32767`, `last_bits <= count`, so `last_minval >= 10000 + 20000 * (14 - count)`
and the metric at delay 0 is at least `min(65535, line_cost * (29 - 2 * count))`. -/
theorem C33_young_history_penalty (s : reach_bitmap) (h : Reachable s) (hc0 : 0 < s.count)
    (hc14 : s.count < 14) (lc : Int) (h0 : 0 ≤ lc) (h1 : lc ≤ 32767) :
    last_bits s ≤ s.count ∧
    10000 + 20000 * (14 - s.count) ≤ last_minval s ∧
    min 65535 (lc * (29 - 2 * s.count)) ≤ ((reach_bitmap_metric s lc 0 : Nat) : Int) := by
  have inv := reachable_inv s h
  have hlb := last_bits_le_count s h (by omega)
  have hmin : 10000 + 20000 * (14 - s.count) ≤ last_minval s := by
    unfold last_minval
    rw [if_pos (by omega)]
    omega
  have hm := multipler_1e4_bounds s inv hc0
  obtain ⟨e1, p1, -⟩ := metric_cost_eq s lc h0 h1 hm.1 hm.2
  have hmax : last_minval s ≤ multipler_1e4 s := by
    rw [multipler_1e4_max]
    exact le_max_right _ _
  have hcost : lc * (29 - 2 * s.count) ≤ metric_cost s lc := by
    rw [e1]
    apply Int.le_ediv_of_mul_le (by decide)
    have e2 : lc * (29 - 2 * s.count) * 10000 = lc * (10000 + 20000 * (14 - s.count)) := by
      ring
    rw [e2]
    exact Int.mul_le_mul_of_nonneg_left (le_trans hmin hmax) h0
  refine ⟨hlb, hmin, ?_⟩
  rw [metric_small_delay_int s lc 0 (by decide) p1]
  omega

theorem C33_young_history_penalty_witness :
    last_bits scenario_a ≤ scenario_a.count ∧
    10000 + 20000 * (14 - scenario_a.count) ≤ last_minval scenario_a ∧
    min 65535 (100 * (29 - 2 * scenario_a.count)) ≤
      ((reach_bitmap_metric scenario_a 100 0 : Nat) : Int) :=
  C33_young_history_penalty scenario_a scenario_a_reachable (by decide) (by decide) 100
    (by decide) (by decide)

/-- Claim C38: for every byte value `b` in 0..255, `countset_byte(b)` is the number
of 1 bits of `b`, and `last_bits`, computed in the metric as
`countset_byte(old_reach >> 8) + countset_byte(old_reach)`, is the number of 1 bits
among the 16 bits of `old_reach`. -/
theorem C38_countset_byte (b : Nat) (hb : b < 256) (s : reach_bitmap) :
    countset_byte b = (((value_bits b 8).count true : Nat) : Int) ∧
    (∀ i, 8 ≤ i → b.testBit i = false) ∧
    last_bits s = countset_byte (s.old_reach >>> 8) + countset_byte s.old_reach ∧
    last_bits s = (((value_bits s.old_reach 16).count true : Nat) : Int) := by
  refine ⟨countset_byte_eq b hb, fun i hi => ?_, rfl, last_bits_eq s⟩
  exact Nat.testBit_lt_two_pow
    (lt_of_lt_of_le hb (by
      have : (256 : Nat) = 2 ^ 8 := by decide
      rw [this]
      exact Nat.pow_le_pow_right (by decide) hi))

theorem C38_countset_byte_witness :
    countset_byte 0x48 = (((value_bits 0x48 8).count true : Nat) : Int) ∧
    (∀ i, 8 ≤ i → (0x48 : Nat).testBit i = false) ∧
    last_bits scenario_a =
      countset_byte (scenario_a.old_reach >>> 8) + countset_byte scenario_a.old_reach ∧
    last_bits scenario_a = (((value_bits scenario_a.old_reach 16).count true : Nat) : Int) :=
  C38_countset_byte 0x48 (by decide) scenario_a

/-! ## The nibble masks -/

theorem update_hex_ends_masks (s : reach_bitmap) :
    (update_hex_ends s).begin_mask = get_begin_mask s.begin ∧
    (update_hex_ends s).end_mask = get_end_mask s.end_ := by
  unfold update_hex_ends
  dsimp only
  split_ifs <;> simp

theorem update_ends_masks (s : reach_bitmap) :
    (update_ends s).begin_mask = get_begin_mask (update_ends s).begin ∧
    (update_ends s).end_mask = get_end_mask (update_ends s).end_ := by
  have h1 : (update_ends s).begin_mask = (update_hex_ends (update_count s)).begin_mask := by
    simp only [update_ends]
  have h2 : (update_ends s).end_mask = (update_hex_ends (update_count s)).end_mask := by
    simp only [update_ends]
  have c1 : (update_count s).begin = s.begin := by simp only [update_count]
  have c2 : (update_count s).end_ = s.end_ := by simp only [update_count]
  rw [h1, h2, (update_hex_ends_masks _).1, (update_hex_ends_masks _).2, update_ends_begin,
    update_ends_end, c1, c2]
  exact ⟨rfl, rfl⟩

/-- In every reachable state the two masks are those of `get_begin_mask(begin)` and
`get_end_mask(end)`. -/
theorem reachable_masks (s : reach_bitmap) (h : Reachable s) :
    s.begin_mask = get_begin_mask s.begin ∧ s.end_mask = get_end_mask s.end_ := by
  induction h with
  | init s0 h0 =>
    simp only [reach_bitmap_init]
    exact update_ends_masks _
  | push s v L hl _ ih =>
    by_cases hr : L ≤ 0 ∨ 16 < L
    · rw [push_new_noop s v L hl hr]
      exact ih
    · obtain ⟨n, rfl⟩ := Int.eq_ofNat_of_zero_le (by omega : 0 ≤ L)
      rw [push_new_eq s v n (by omega) (by omega)]
      exact update_ends_masks _
  | pop s L _ ih =>
    simp only [reach_bitmap_pop_new]
    exact update_ends_masks _

theorem begin_mask_table (r : Nat) (hr : r < 4) :
    ['F', '7', '3', '1'].getD r 'F' = upper_hex_digit (0xF >>> r) ∧
    (∀ j, j < 4 → (0xF >>> r).testBit (3 - j) = decide (r ≤ j)) := by
  interval_cases r <;> decide

theorem end_mask_table (r : Nat) (hr : r < 4) :
    ['F', '8', 'C', 'E'].getD r 'F' =
      (if r = 0 then 'F' else upper_hex_digit ((0xF <<< (4 - r)) &&& 0xF)) ∧
    (r ≠ 0 → ∀ j, j < 4 → ((0xF <<< (4 - r)) &&& 0xF).testBit (3 - j) = decide (j < r)) := by
  interval_cases r <;> decide

/-- Claim C31: in every reachable state (after every mutation) `begin_mask` is the
uppercase hex digit of `0xF >> (begin mod 4)`, one of F, 7, 3, 1, whose set bits are
the nibble bits at or after `begin`; `end_mask` is F when `end mod 4 == 0` and
otherwise the uppercase hex digit of `(0xF << (4 - end mod 4)) & 0xF`, one of 8, C,
E, whose set bits are the nibble bits before `end`. -/
theorem C31_nibble_masks (s : reach_bitmap) (h : Reachable s) :
    s.begin_mask = spec_begin_mask s.begin ∧
    s.end_mask = spec_end_mask s.end_ ∧
    s.begin_mask = ['F', '7', '3', '1'].getD (s.begin % 4).toNat 'F' ∧
    s.end_mask = ['F', '8', 'C', 'E'].getD (s.end_ % 4).toNat 'F' ∧
    (∀ j, j < 4 →
      (0xF >>> (s.begin % 4).toNat).testBit (3 - j) = decide ((s.begin % 4).toNat ≤ j)) ∧
    (s.end_ % 4 ≠ 0 → ∀ j, j < 4 →
      ((0xF <<< (4 - (s.end_ % 4).toNat)) &&& 0xF).testBit (3 - j) =
        decide (j < (s.end_ % 4).toNat)) := by
  have inv := reachable_inv s h
  obtain ⟨b, e, hb, he, hb160, he160, -, -⟩ := inv.nat
  obtain ⟨m1, m2⟩ := reachable_masks s h
  have tb : (s.begin.tmod 4).toNat = b % 4 := by
    rw [hb, show (4 : Int) = ((4 : Nat) : Int) from rfl, tmod_nat]
    rfl
  have te : (s.end_.tmod 4).toNat = e % 4 := by
    rw [he, show (4 : Int) = ((4 : Nat) : Int) from rfl, tmod_nat]
    rfl
  have eb : (s.begin % 4).toNat = b % 4 := by rw [hb]; omega
  have ee : (s.end_ % 4).toNat = e % 4 := by rw [he]; omega
  have ez : (s.end_ % 4 = 0) ↔ (e % 4 = 0) := by rw [he]; omega
  obtain ⟨b1, b2⟩ := begin_mask_table (b % 4) (Nat.mod_lt _ (by decide))
  obtain ⟨e1, e2⟩ := end_mask_table (e % 4) (Nat.mod_lt _ (by decide))
  have g1 : s.begin_mask = ['F', '7', '3', '1'].getD (b % 4) 'F' := by
    rw [m1, get_begin_mask, tb]
  have g2 : s.end_mask = ['F', '8', 'C', 'E'].getD (e % 4) 'F' := by
    rw [m2, get_end_mask, te]
  unfold spec_begin_mask spec_end_mask
  rw [eb, ee]
  refine ⟨by rw [g1, b1], ?_, g1, g2, b2, fun hne => e2 (fun h0 => hne (ez.mpr h0))⟩
  rw [g2, e1]
  by_cases h0 : e % 4 = 0
  · rw [if_pos h0, if_pos (ez.mpr h0)]
  · rw [if_neg h0, if_neg (fun h => h0 (ez.mp h))]

theorem C31_nibble_masks_witness :
    scenario_a.begin_mask = spec_begin_mask scenario_a.begin ∧
    scenario_a.end_mask = spec_end_mask scenario_a.end_ ∧
    scenario_a.begin_mask = ['F', '7', '3', '1'].getD (scenario_a.begin % 4).toNat 'F' ∧
    scenario_a.end_mask = ['F', '8', 'C', 'E'].getD (scenario_a.end_ % 4).toNat 'F' ∧
    (∀ j, j < 4 →
      (0xF >>> (scenario_a.begin % 4).toNat).testBit (3 - j) =
        decide ((scenario_a.begin % 4).toNat ≤ j)) ∧
    (scenario_a.end_ % 4 ≠ 0 → ∀ j, j < 4 →
      ((0xF <<< (4 - (scenario_a.end_ % 4).toNat)) &&& 0xF).testBit (3 - j) =
        decide (j < (scenario_a.end_ % 4).toNat)) :=
  C31_nibble_masks scenario_a scenario_a_reachable

/-! ## Pops of non-positive length -/

/-- Claim C37: on a reachable history, `pop_new(length)` with `length <= 0` leaves
`begin`, `end`, `count`, `count_set`, `old_reach` and every bitmap byte unchanged. -/
theorem C37_pop_nonpositive (s : reach_bitmap) (h : Reachable s) (L : Int) (hL : L ≤ 0) :
    (reach_bitmap_pop_new s L).begin = s.begin ∧
    (reach_bitmap_pop_new s L).end_ = s.end_ ∧
    (reach_bitmap_pop_new s L).count = s.count ∧
    (reach_bitmap_pop_new s L).count_set = s.count_set ∧
    (reach_bitmap_pop_new s L).old_reach = s.old_reach ∧
    (∀ i, (reach_bitmap_pop_new s L).bitmap i = s.bitmap i) := by
  have inv := reachable_inv s h
  obtain ⟨c0, c1, -⟩ := inv_count_bounds s inv
  obtain ⟨b, e, hb, he, hb160, he160, hc, hc128⟩ := inv.nat
  have hn : (if s.count < L then s.count else L).toNat = 0 := by
    rw [if_neg (by omega)]
    omega
  obtain ⟨-, q1, q2, q3, q4, q5⟩ := pop_spec s b e 0 L hb he hb160 he160 hc hn
  have e2 : (reach_bitmap_pop_new s L).end_ = s.end_ := by
    rw [q2, he]
    omega
  have e3 : (reach_bitmap_pop_new s L).count = s.count := by
    rw [q3, hc]
    omega
  refine ⟨q1, e2, e3, ?_, ?_, fun i => by rw [q4]⟩
  · rw [q5]
    have hw : window (ring_bit s) ((e + 160 - 0) % 160) 0 = [] := rfl
    rw [hw, List.count_nil, Nat.cast_zero, sub_zero]
  · rw [reachable_old_reach _ (Reachable.pop s L h), reachable_old_reach s h,
      get_mask_congr _ s q4 e2 e3]

theorem C37_pop_nonpositive_witness :
    (reach_bitmap_pop_new scenario_a (-3)).begin = scenario_a.begin ∧
    (reach_bitmap_pop_new scenario_a (-3)).end_ = scenario_a.end_ ∧
    (reach_bitmap_pop_new scenario_a (-3)).count = scenario_a.count ∧
    (reach_bitmap_pop_new scenario_a (-3)).count_set = scenario_a.count_set ∧
    (reach_bitmap_pop_new scenario_a (-3)).old_reach = scenario_a.old_reach ∧
    (∀ i, (reach_bitmap_pop_new scenario_a (-3)).bitmap i = scenario_a.bitmap i) :=
  C37_pop_nonpositive scenario_a scenario_a_reachable (-3) (by decide)

/-! ## Pushing in parts -/

theorem same_history_refl (s : reach_bitmap) : same_history s s :=
  ⟨rfl, rfl, rfl, rfl, rfl, rfl⟩

theorem same_history_trans (s t u : reach_bitmap) (h1 : same_history s t)
    (h2 : same_history t u) : same_history s u := by
  obtain ⟨a1, a2, a3, a4, a5, a6⟩ := h1
  obtain ⟨b1, b2, b3, b4, b5, b6⟩ := h2
  exact ⟨a1.trans b1, a2.trans b2, a3.trans b3, a4.trans b4, a5.trans b5, a6.trans b6⟩

/-- One push of `a + b` bits shows the same history as the push of the upper `a`
bits followed by the push of the lower `b` bits. -/
theorem push_split (s : reach_bitmap) (h : Reachable s) (v a b : Nat) (ha : 1 ≤ a)
    (hb : 1 ≤ b) (hab : a + b ≤ 16) :
    same_history (reach_bitmap_push_new s v ((a + b : Nat) : Int))
      (reach_bitmap_push_new (reach_bitmap_push_new s (v >>> b) (a : Int)) v (b : Int)) := by
  have inv := reachable_inv s h
  have ia : is_int (a : Int) := is_int_small _ (by omega) (by omega)
  have ib : is_int (b : Int) := is_int_small _ (by omega) (by omega)
  have iab : is_int ((a + b : Nat) : Int) := is_int_small _ (by omega) (by omega)
  have r1 : Reachable (reach_bitmap_push_new s (v >>> b) (a : Int)) :=
    Reachable.push s _ _ ia h
  have inv1 := reachable_inv _ r1
  have r2 := Reachable.push _ v _ ib r1
  have r3 := Reachable.push s v _ iab h
  obtain ⟨b0, e0, hb0, he0, hb160, he160, hc, hc128⟩ := inv.nat
  obtain ⟨p1, p2, p3, -⟩ :=
    push_spec s b0 e0 v (a + b) inv.bytes hb0 he0 hb160 he160 hc128 (by omega) hab
  obtain ⟨q1, q2, q3, -⟩ :=
    push_spec s b0 e0 (v >>> b) a inv.bytes hb0 he0 hb160 he160 hc128 ha (by omega)
  have sc : s.count.toNat = (e0 + 160 - b0) % 160 := by rw [hc]; rfl
  have hcount1 : (reach_bitmap_push_new s (v >>> b) (a : Int)).count.toNat =
      s.count.toNat + a - (s.count.toNat + a - 128) := by
    rw [q3, sc]
    rfl
  have hq128 : (((e0 + a) % 160) + 160 - ((b0 + ((e0 + 160 - b0) % 160 + a - 128)) % 160)) % 160
      ≤ 128 := by
    clear p1 p2 p3 q1 q2 q3 hc hb0 he0 sc hcount1
    omega
  have hdrop : s.count.toNat + a - 128 +
      (s.count.toNat + a - (s.count.toNat + a - 128) + b - 128) =
      s.count.toNat + (b + a) - 128 := by
    clear p1 p2 p3 q1 q2 q3 hc hb0 he0 hcount1
    omega
  have st3 := push_stored s inv v (a + b) (by omega) hab
  have st1 := push_stored s inv (v >>> b) a ha (by omega)
  have st2 := push_stored _ inv1 v b hb (by omega)
  have len0 := stored_length s
  generalize reach_bitmap_push_new s (v >>> b) (a : Int) = s1 at *
  obtain ⟨t1, t2, t3, -⟩ :=
    push_spec s1 _ _ v b inv1.bytes q1 q2 (Nat.mod_lt _ (by decide)) (Nat.mod_lt _ (by decide))
      hq128 hb (by omega)
  have hst : stored (reach_bitmap_push_new s v ((a + b : Nat) : Int)) =
      stored (reach_bitmap_push_new s1 v (b : Int)) := by
    rw [st3, st2, st1]
    have hk1 : s.count.toNat + a - 128 ≤ (stored s ++ value_bits (v >>> b) a).length := by
      rw [List.length_append, len0, value_bits_length]
      exact Nat.sub_le _ _
    rw [← List.drop_append_of_le_length hk1, List.drop_drop, List.append_assoc,
      Nat.add_comm a b, value_bits_add, hcount1, hdrop]
  generalize reach_bitmap_push_new s v ((a + b : Nat) : Int) = u at *
  generalize reach_bitmap_push_new s1 v (b : Int) = w at *
  refine (same_history_of_stored u w r3 r2 ?_ ?_ ?_ hst).1
  · rw [p1, t1]
    clear st1 st2 st3 len0 p1 p2 p3 q1 q2 q3 t1 t2 t3 hc hb0 he0 hst hq128 sc hcount1 hdrop
    generalize hcd : (e0 + 160 - b0) % 160 = c at *
    have hbe : (b0 + c) % 160 = e0 := by omega
    have hx : ((e0 + a) % 160 + 160 - (b0 + (c + a - 128)) % 160) % 160 =
        c + a - (c + a - 128) := by omega
    rw [hx]
    omega
  · rw [p2, t2]
    omega
  · rw [p3, t3]
    clear st1 st2 st3 len0 p1 p2 p3 q1 q2 q3 t1 t2 t3 hc hb0 he0 hst hq128 sc hcount1 hdrop
    generalize hcd : (e0 + 160 - b0) % 160 = c at *
    have hbe : (b0 + c) % 160 = e0 := by omega
    have hx : ((e0 + a) % 160 + 160 - (b0 + (c + a - 128)) % 160) % 160 =
        c + a - (c + a - 128) := by omega
    rw [hx]
    omega

theorem push_bitwise_reachable (v : Nat) (n : Nat) :
    ∀ s, Reachable s → Reachable (push_bitwise s v n) := by
  induction n with
  | zero => exact fun s h => h
  | succ n ih =>
    intro s h
    exact ih _ (Reachable.push s _ 1 (is_int_small 1 (by decide) (by decide)) h)

/-- A push of `n` bits shows the same history as pushing them one at a time. -/
theorem push_bitwise_same (v : Nat) (n : Nat) :
    ∀ s, Reachable s → 1 ≤ n → n ≤ 16 →
      same_history (reach_bitmap_push_new s v (n : Int)) (push_bitwise s v n) := by
  induction n with
  | zero =>
    intro s h h1 h16
    omega
  | succ n ih =>
    intro s h h1 h16
    by_cases hn : n = 0
    · subst hn
      show same_history _ (reach_bitmap_push_new s (v >>> 0) 1)
      rw [Nat.shiftRight_zero]
      exact same_history_refl _
    · have hs := push_split s h v 1 n (le_refl _) (by omega) (by omega)
      have e1 : ((1 + n : Nat) : Int) = ((n + 1 : Nat) : Int) := by omega
      rw [e1] at hs
      have r1 : Reachable (reach_bitmap_push_new s (v >>> n) ((1 : Nat) : Int)) :=
        Reachable.push s _ _ (is_int_small _ (by decide) (by decide)) h
      exact same_history_trans _ _ _ hs (ih _ r1 (by omega) (by omega))

/-- Claim C32: on a reachable history, for every value `v` and all `a, b >= 1` with
`a + b <= 16`, `push_new(v, a + b)` leaves the same `begin`, `end`, `count`,
`count_set`, `old_reach` and stored bits as `push_new(v >> b, a)` followed by
`push_new(v, b)`; hence it equals pushing its `a + b` bits one at a time, most
significant first. -/
theorem C32_push_compositional (s : reach_bitmap) (h : Reachable s) (v a b : Nat)
    (ha : 1 ≤ a) (hb : 1 ≤ b) (hab : a + b ≤ 16) :
    same_history (reach_bitmap_push_new s v ((a + b : Nat) : Int))
      (reach_bitmap_push_new (reach_bitmap_push_new s (v >>> b) (a : Int)) v (b : Int)) ∧
    same_history (reach_bitmap_push_new s v ((a + b : Nat) : Int))
      (push_bitwise s v (a + b)) :=
  ⟨push_split s h v a b ha hb hab, push_bitwise_same v (a + b) s h (by omega) hab⟩

theorem C32_push_compositional_witness :
    same_history (reach_bitmap_push_new scenario_a 0x1A5 ((4 + 5 : Nat) : Int))
      (reach_bitmap_push_new (reach_bitmap_push_new scenario_a (0x1A5 >>> 5) ((4 : Nat) : Int))
        0x1A5 ((5 : Nat) : Int)) ∧
    same_history (reach_bitmap_push_new scenario_a 0x1A5 ((4 + 5 : Nat) : Int))
      (push_bitwise scenario_a 0x1A5 (4 + 5)) :=
  C32_push_compositional scenario_a scenario_a_reachable 0x1A5 4 5 (by decide) (by decide)
    (by decide)

/-! ## The delay penalty over the whole range of delays -/

/-- The delay branch of `reach_bitmap_metric` on a cost that fits 31 bits: the
64-bit product does not wrap for a 32-bit delay. -/
theorem metric_delay_wide (s : reach_bitmap) (lc : Int) (delay : Nat)
    (h0 : 0 ≤ metric_cost s lc) (hlt : metric_cost s lc ≤ 2147483647) (hd : 40000 < delay)
    (hd32 : delay < 2 ^ 32) :
    ((reach_bitmap_metric s lc delay : Nat) : Int) =
      min 65535 ((metric_cost s lc * ((delay : Int) - 20000) + 10000) / 20000) := by
  have hsub : (((delay - 20000 : Nat)) : Int) = (delay : Int) - 20000 := by omega
  have hd0 : (0 : Int) ≤ (delay : Int) - 20000 := by omega
  have hd1 : (delay : Int) - 20000 ≤ 4294967296 := by
    have : (delay : Int) < 4294967296 := by exact_mod_cast hd32
    omega
  have hp0 : 0 ≤ metric_cost s lc * ((delay : Int) - 20000) := Int.mul_nonneg h0 hd0
  have hp1 : metric_cost s lc * ((delay : Int) - 20000) ≤ 2147483647 * 4294967296 :=
    Int.mul_le_mul hlt hd1 hd0 (by decide)
  have hw : wrap_llong (metric_cost s lc * ((delay : Int) - 20000) + 10000) =
      metric_cost s lc * ((delay : Int) - 20000) + 10000 :=
    wrap_llong_eq _ (by omega) (by omega)
  have hq0 : 0 ≤ (metric_cost s lc * ((delay : Int) - 20000) + 10000) / 20000 :=
    Int.ediv_nonneg (by omega) (by decide)
  have ht : (metric_cost s lc * ((delay : Int) - 20000) + 10000).tdiv 20000 =
      (metric_cost s lc * ((delay : Int) - 20000) + 10000) / 20000 :=
    Int.tdiv_eq_ediv (by omega) (by decide)
  unfold reach_bitmap_metric
  simp only [if_pos hd]
  rw [hsub, hw, ht]
  split_ifs with hbig
  · simp only [Nat.cast_ofNat]; omega
  · rw [to_uint_eq _ hq0 (by omega)]
    omega

/-- Where the product cannot wrap (cost below 2^31), the metric is monotone in the
delay. -/
theorem metric_delay_mono (s : reach_bitmap) (lc : Int) (h0 : 0 ≤ metric_cost s lc)
    (hlt : metric_cost s lc ≤ 2147483647) (d1 d2 : Nat) (h12 : d1 ≤ d2) (hd32 : d2 < 2 ^ 32) :
    reach_bitmap_metric s lc d1 ≤ reach_bitmap_metric s lc d2 := by
  have key : ((reach_bitmap_metric s lc d1 : Nat) : Int) ≤
      ((reach_bitmap_metric s lc d2 : Nat) : Int) := by
    by_cases hb2 : d2 ≤ 40000
    · rw [metric_small_delay_int s lc d1 (by omega) h0,
        metric_small_delay_int s lc d2 hb2 h0]
    · have hge : ∀ d : Nat, 40000 < d →
          metric_cost s lc ≤ (metric_cost s lc * ((d : Int) - 20000) + 10000) / 20000 := by
        intro d hd
        apply Int.le_ediv_of_mul_le (by decide)
        have : metric_cost s lc * 20000 ≤ metric_cost s lc * ((d : Int) - 20000) :=
          Int.mul_le_mul_of_nonneg_left (by omega) h0
        omega
      rw [metric_delay_wide s lc d2 h0 hlt (by omega) hd32]
      by_cases hb1 : d1 ≤ 40000
      · rw [metric_small_delay_int s lc d1 hb1 h0]
        have := hge d2 (by omega)
        omega
      · rw [metric_delay_wide s lc d1 h0 hlt (by omega)
          (lt_of_le_of_lt h12 hd32)]
        have hm : metric_cost s lc * ((d1 : Int) - 20000) ≤
            metric_cost s lc * ((d2 : Int) - 20000) :=
          Int.mul_le_mul_of_nonneg_left (by omega) h0
        have hdiv : (metric_cost s lc * ((d1 : Int) - 20000) + 10000) / 20000 ≤
            (metric_cost s lc * ((d2 : Int) - 20000) + 10000) / 20000 :=
          Int.ediv_le_ediv (by decide) (by omega)
        omega
  exact_mod_cast key

/-- Claim C34 fails where the penalty product wraps: on sixteen missed Hellos with
line cost 32767 the cost before the delay test is 3146942680; at delay 40001 the metric
is the saturated 65535, at the larger delay 2930978852 the product
`cost * (delay - 20000)` passes 2^63 and the metric returned is 54766. -/
theorem C34_delay_not_monotone :
    Reachable all_missed ∧ 0 < all_missed.count ∧
    metric_cost all_missed 32767 = 3146942680 ∧
    reach_bitmap_metric all_missed 32767 40001 = 65535 ∧
    reach_bitmap_metric all_missed 32767 2930978852 = 54766 ∧
    2 ^ 63 ≤ metric_cost all_missed 32767 * (((2930978852 - 20000 : Nat)) : Int) + 10000 ∧
    reach_bitmap_metric all_missed 32767 2930978852 <
      reach_bitmap_metric all_missed 32767 40001 := by
  refine ⟨all_missed_reachable, ?_, ?_, ?_, ?_, ?_, ?_⟩
  · decide
  · set_option maxRecDepth 100000 in decide
  · set_option maxRecDepth 100000 in decide
  · set_option maxRecDepth 100000 in decide
  · set_option maxRecDepth 100000 in decide
  · set_option maxRecDepth 100000 in decide

/-! ## Array indices -/

theorem at_abs_index_bounds (x : Int) (h0 : 0 ≤ x) (h1 : x < 160) :
    0 ≤ at_abs_index x ∧ at_abs_index x < 20 := by
  unfold at_abs_index
  rw [Int.tdiv_eq_ediv h0 (by decide)]
  omega

theorem tmod_160_bounds (x : Int) (h0 : 0 ≤ x) :
    0 ≤ x.tmod HIST_SIZE_BITS ∧ x.tmod HIST_SIZE_BITS < 160 := by
  simp only [HIST_SIZE_BITS, HIST_SIZE_BYTES, MAX_HIST_BYTES]
  rw [Int.tmod_eq_emod h0 (by decide)]
  omega

theorem tmod_20_bounds (x : Int) (h0 : 0 ≤ x) :
    0 ≤ x.tmod HIST_SIZE_BYTES ∧ x.tmod HIST_SIZE_BYTES < 20 := by
  simp only [HIST_SIZE_BYTES, MAX_HIST_BYTES]
  rw [Int.tmod_eq_emod h0 (by decide)]
  omega

theorem get_mask_indices_bounds (s : reach_bitmap) (h0 : 0 ≤ s.end_) :
    ∀ i, i ∈ get_mask_indices s → 0 ≤ i ∧ i < 20 := by
  have hq : 0 ≤ (s.end_ + 7).tdiv 8 := by
    rw [Int.tdiv_eq_ediv (by omega) (by decide)]
    omega
  have h20 : HIST_SIZE_BYTES = 20 := by decide
  have b1 := tmod_20_bounds ((s.end_ + 7).tdiv 8 - 1 + HIST_SIZE_BYTES) (by rw [h20]; omega)
  have b2 := tmod_20_bounds
    (((s.end_ + 7).tdiv 8 - 1 + HIST_SIZE_BYTES).tmod HIST_SIZE_BYTES - 1 + HIST_SIZE_BYTES)
    (by rw [h20] at b1 ⊢; omega)
  have b3 := tmod_20_bounds
    ((((s.end_ + 7).tdiv 8 - 1 + HIST_SIZE_BYTES).tmod HIST_SIZE_BYTES - 1 +
      HIST_SIZE_BYTES).tmod HIST_SIZE_BYTES - 1 + HIST_SIZE_BYTES)
    (by rw [h20] at b2 ⊢; omega)
  intro i hi
  unfold get_mask_indices at hi
  simp only [List.mem_cons, List.mem_singleton, List.not_mem_nil, or_false] at hi
  rcases hi with rfl | rfl | rfl
  · exact b1
  · exact b2
  · exact b3

theorem at_rel_index_bounds (s : reach_bitmap) (offset : Int) (h0 : 0 ≤ s.end_)
    (hc : s.count ≤ 128) (ho : offset ≤ s.count) :
    0 ≤ at_rel_index s offset ∧ at_rel_index s offset < 20 := by
  unfold at_rel_index
  have h160 : HIST_SIZE_BITS = 160 := by decide
  have b := tmod_160_bounds (s.end_ - offset + HIST_SIZE_BITS) (by rw [h160]; omega)
  exact at_abs_index_bounds _ b.1 b.2

theorem evict_indices_bounds (fuel : Nat) :
    ∀ (begin end_ length : Int), 0 ≤ begin → begin < 160 →
      ∀ i, i ∈ evict_indices fuel begin end_ length → 0 ≤ i ∧ i < 20 := by
  induction fuel with
  | zero =>
    intro begin end_ length h0 h1 i hi
    simp [evict_indices] at hi
  | succ fuel ih =>
    intro begin end_ length h0 h1 i hi
    rw [evict_indices] at hi
    split_ifs at hi with hcond
    · simp only [List.mem_cons] at hi
      rcases hi with rfl | hi
      · exact at_abs_index_bounds _ h0 h1
      · have b := tmod_160_bounds (begin + 1) (by omega)
        exact ih _ _ _ b.1 b.2 i hi
    · simp at hi

theorem insert_indices_bounds (fuel : Nat) :
    ∀ (end_ length : Int), 0 ≤ end_ → end_ < 160 →
      ∀ i, i ∈ insert_indices fuel end_ length → 0 ≤ i ∧ i < 20 := by
  induction fuel with
  | zero =>
    intro end_ length h0 h1 i hi
    simp [insert_indices] at hi
  | succ fuel ih =>
    intro end_ length h0 h1 i hi
    rw [insert_indices] at hi
    split_ifs at hi with hpos
    · simp only [List.mem_cons] at hi
      rcases hi with rfl | hi
      · exact at_abs_index_bounds _ h0 h1
      · have hm : 0 ≤ end_.tmod 8 ∧ end_.tmod 8 < 8 := by
          rw [Int.tmod_eq_emod h0 (by decide)]
          omega
        have b := tmod_160_bounds
          (end_ + (if 8 - end_.tmod 8 > length then length else 8 - end_.tmod 8))
          (by split_ifs <;> omega)
        exact ih _ _ b.1 b.2 i hi
    · simp at hi

theorem pop_indices_bounds (n : Nat) :
    ∀ (end_ : Int), 0 ≤ end_ → end_ < 160 →
      ∀ i, i ∈ pop_indices n end_ → 0 ≤ i ∧ i < 20 := by
  induction n with
  | zero =>
    intro end_ h0 h1 i hi
    simp [pop_indices] at hi
  | succ n ih =>
    intro end_ h0 h1 i hi
    rw [pop_indices] at hi
    have h160 : HIST_SIZE_BITS = 160 := by decide
    have b := tmod_160_bounds (end_ + HIST_SIZE_BITS - 1) (by rw [h160]; omega)
    simp only [List.mem_cons] at hi
    rcases hi with rfl | hi
    · exact at_abs_index_bounds _ b.1 b.2
    · exact ih _ b.1 b.2 i hi

/-- Claim C36: in every reachable state `0 <= begin < 160` and `0 <= end < 160`, so
every `bitmap` index computed by `get_mask`, `at_rel`, the eviction loop (`at_abs` on
`begin`), the insertion loop and the pop loop (`at_abs` on `end`) lies in `0 .. 19`,
and every `hex` index written (the two digits of a byte in the insertion loop, the
terminators at `end1` and `end2`, the two characters written by `init`) lies within
the `HEX_SIZE = 44` elements of `hex`. -/
theorem C36_indices_in_range (s : reach_bitmap) (h : Reachable s) :
    (0 ≤ s.begin ∧ s.begin < 160 ∧ 0 ≤ s.end_ ∧ s.end_ < 160) ∧
    (∀ i, i ∈ get_mask_indices s → 0 ≤ i ∧ i < 20) ∧
    (∀ offset, offset ≤ s.count → 0 ≤ at_rel_index s offset ∧ at_rel_index s offset < 20) ∧
    (∀ fuel length i, i ∈ evict_indices fuel s.begin s.end_ length → 0 ≤ i ∧ i < 20) ∧
    (∀ fuel length i, i ∈ insert_indices fuel s.end_ length →
      0 ≤ i ∧ i < 20 ∧ 0 ≤ i * 2 ∧ i * 2 + 1 < HEX_SIZE) ∧
    (∀ n i, i ∈ pop_indices n s.end_ → 0 ≤ i ∧ i < 20) ∧
    (s.count ≠ 0 → 0 ≤ s.end1 ∧ s.end1 < HEX_SIZE ∧ 0 ≤ s.end2 ∧ s.end2 < HEX_SIZE) ∧
    (0 ≤ HIST_SIZE_BYTES * 2 + 2 ∧ HIST_SIZE_BYTES * 2 + 3 < HEX_SIZE) := by
  have inv := reachable_inv s h
  obtain ⟨-, -, c128⟩ := inv_count_bounds s inv
  have hx : HEX_SIZE = 44 := by decide
  refine ⟨⟨inv.begin_lo, inv.begin_hi, inv.end_lo, inv.end_hi⟩,
    get_mask_indices_bounds s inv.end_lo,
    fun offset ho => at_rel_index_bounds s offset inv.end_lo c128 ho,
    fun fuel length i hi =>
      evict_indices_bounds fuel s.begin s.end_ length inv.begin_lo inv.begin_hi i hi,
    fun fuel length i hi => ?_,
    fun n i hi => pop_indices_bounds n s.end_ inv.end_lo inv.end_hi i hi,
    fun hc => ?_, by decide⟩
  · have b := insert_indices_bounds fuel s.end_ length inv.end_lo inv.end_hi i hi
    rw [hx]
    omega
  · obtain ⟨-, g2, -, g4, -, -⟩ := (reachable_hex_ok s h).2 hc
    have he := inv.end_hi
    have he0 := inv.end_lo
    rw [g2, g4, hx]
    split_ifs <;> omega

theorem C36_indices_in_range_witness :
    (0 ≤ scenario_a.begin ∧ scenario_a.begin < 160 ∧ 0 ≤ scenario_a.end_ ∧
      scenario_a.end_ < 160) ∧
    (∀ i, i ∈ get_mask_indices scenario_a → 0 ≤ i ∧ i < 20) ∧
    (∀ offset, offset ≤ scenario_a.count →
      0 ≤ at_rel_index scenario_a offset ∧ at_rel_index scenario_a offset < 20) ∧
    (∀ fuel length i, i ∈ evict_indices fuel scenario_a.begin scenario_a.end_ length →
      0 ≤ i ∧ i < 20) ∧
    (∀ fuel length i, i ∈ insert_indices fuel scenario_a.end_ length →
      0 ≤ i ∧ i < 20 ∧ 0 ≤ i * 2 ∧ i * 2 + 1 < HEX_SIZE) ∧
    (∀ n i, i ∈ pop_indices n scenario_a.end_ → 0 ≤ i ∧ i < 20) ∧
    (scenario_a.count ≠ 0 → 0 ≤ scenario_a.end1 ∧ scenario_a.end1 < HEX_SIZE ∧
      0 ≤ scenario_a.end2 ∧ scenario_a.end2 < HEX_SIZE) ∧
    (0 ≤ HIST_SIZE_BYTES * 2 + 2 ∧ HIST_SIZE_BYTES * 2 + 3 < HEX_SIZE) :=
  C36_indices_in_range scenario_a scenario_a_reachable

end ReachBitmap
